import Mathlib

/-!
Verification of the Gorilla-style time-series compression codec (`src/gorilla.c`).

The codec manipulates IEEE-754 doubles exclusively through their raw 64-bit
patterns (`union64bits`), never arithmetically, so a double is embedded as the
natural number below `2^64` holding its bit pattern; bit-identity of doubles
(NaN payloads, signed zero included) is then plain equality of these numbers.
All machine integers (`u_int64_t`, `int64_t`, `timestamp_t`, `binary_t`,
`globalbit_t`) are embedded as `Nat` (for the unsigned bit pattern) or `Int`
(for the signed view), with explicit `% 2^64` wherever the C computation can
wrap.  The chunk payload (`u_int64_t *data`) is a list of 64-bit bins.
-/

set_option maxHeartbeats 4000000

namespace Gorilla

/-- `2^64`, the modulus of 64-bit machine arithmetic. -/
def U64 : Nat := 2 ^ 64

/-- Wraparound subtraction of two `u_int64_t` values (both below `2^64`). -/
def u64sub (a b : Nat) : Nat := (U64 + a - b) % U64

/-- The `u_int64_t` bit pattern of an `int64_t` value (two's complement). -/
def intToU64 (x : Int) : Nat := (x % (U64 : Int)).toNat

/-- The `int64_t` value of a `u_int64_t` bit pattern (two's complement). -/
def i64ofU64 (u : Nat) : Int := if u < 2 ^ 63 then (u : Int) else (u : Int) - (U64 : Int)

/-- Compression bucket widths from `gorilla.c` (`CMPR_L1` .. `CMPR_L5`). -/
def CMPR_L1 : Nat := 5

/-- Second bucket width. -/
def CMPR_L2 : Nat := 8

/-- Third bucket width. -/
def CMPR_L3 : Nat := 11

/-- Fourth bucket width. -/
def CMPR_L4 : Nat := 15

/-- Fifth bucket width. -/
def CMPR_L5 : Nat := 32

/-- Number of bits of the XOR-codec leading-zeros field (`DOUBLE_LEADING`). -/
def DOUBLE_LEADING : Nat := 5

/-- Number of bits of the XOR-codec block-size field (`DOUBLE_BLOCK_SIZE`). -/
def DOUBLE_BLOCK_SIZE : Nat := 6

/-- Bias of the stored block size (`DOUBLE_BLOCK_ADJUST`). -/
def DOUBLE_BLOCK_ADJUST : Nat := 1

/-- `BIT(bit)` from `gorilla.c`: `2^bit`, or `0` when `bit > 63` (the C code
shifts `1ULL` and explicitly returns `0` for `bit > 63`). -/
def BIT (bit : Nat) : Nat := if bit > 63 then 0 else 1 <<< bit

/-- `MASK(bits)` from `gorilla.c`: `BIT(bits) - 1` in `u_int64_t` arithmetic
(so for `bits ≥ 64` the subtraction wraps to `2^64 - 1`). -/
def MASK (bits : Nat) : Nat := (BIT bits + (U64 - 1)) % U64

/-- `LSB(x, bits)` from `gorilla.c`: clear all bits of `x` from position
`bits` upward. -/
def LSB (x bits : Nat) : Nat := x &&& MASK bits

/-- `int2bin(x, l)` from `gorilla.c`: the low `l` bits of the two's-complement
representation of the `int64_t` `x`. -/
def int2bin (x : Int) (l : Nat) : Nat := LSB (intToU64 x) l

/-- `bin2int(bin, l)` from `gorilla.c`: sign-extend the `l`-bit value `bin`
back to an `int64_t` (subtract `2^l` when the sign bit `l-1` is set). -/
def bin2int (bin : Nat) (l : Nat) : Int :=
  if bin &&& BIT (l - 1) == 0 then (bin : Int) else (bin : Int) - (BIT l : Int)

/-- `Bin_MaxVal(nbits)` from `gorilla.c`. -/
def Bin_MaxVal (nbits : Nat) : Int := (BIT (nbits - 1) : Int) - 1

/-- `Bin_MinVal(nbits)` from `gorilla.c`. -/
def Bin_MinVal (nbits : Nat) : Int := -(BIT (nbits - 1) : Int)

/-- `Bin_InRange(x, nbits)` from `gorilla.c`: `x ∈ [-2^(nbits-1), 2^(nbits-1)-1]`. -/
def Bin_InRange (x : Int) (nbits : Nat) : Bool :=
  Bin_MinVal nbits ≤ x && x ≤ Bin_MaxVal nbits

/-- `localbit(bit)` from `gorilla.c`: position of a global bit inside its bin. -/
def localbit (bit : Nat) : Nat := bit % 64

/-- The 64-bit bin holding index `k` of the payload (out-of-range reads give
`0`, matching a zero-initialized buffer). -/
def binAt (bins : List Nat) (k : Nat) : Nat := bins.getD k 0

/-- Observation of a single global payload bit: bit `p % 64` of bin `p / 64`,
bit `0` being least significant (spec §4.1). -/
def bitAt (bins : List Nat) (p : Nat) : Bool := (binAt bins (p / 64)).testBit (p % 64)

/-- `Bins_bitoff` from `gorilla.c`: true iff global bit `bit` is clear. -/
def Bins_bitoff (bins : List Nat) (bit : Nat) : Bool :=
  binAt bins (bit / 64) &&& BIT (localbit bit) == 0

/-- `Bins_biton` from `gorilla.c`. -/
def Bins_biton (bins : List Nat) (bit : Nat) : Bool := !Bins_bitoff bins bit

/-- `appendBits(bins, bit, data, dataLen)` from `gorilla.c`: OR `dataLen` bits
of `data` into the payload at cursor `bit` and advance the cursor.  The two
branches mirror the C code (`available >= dataLen` keeps everything in one
bin, otherwise the write spans two consecutive bins); each stored bin value
is reduced `% U64` exactly where the C `u_int64_t` expression wraps. -/
def appendBits (bins : List Nat) (bit : Nat) (data : Nat) (dataLen : Nat) :
    List Nat × Nat :=
  let k := bit / 64
  let lbit := localbit bit
  let available := 64 - lbit
  if dataLen ≤ available then
    (bins.set k (binAt bins k ||| ((LSB data dataLen <<< lbit) % U64)), bit + dataLen)
  else
    let bins1 := bins.set k (binAt bins k ||| ((data <<< lbit) % U64))
    (bins1.set (k + 1) (binAt bins1 (k + 1) ||| LSB (data >>> available) lbit),
     bit + dataLen)

/-- `readBits(bins, bit, dataLen)` from `gorilla.c`: read `dataLen` bits at
cursor `bit` and advance the cursor. -/
def readBits (bins : List Nat) (bit : Nat) (dataLen : Nat) : Nat × Nat :=
  let k := bit / 64
  let lbit := localbit bit
  let available := 64 - lbit
  if dataLen ≤ available then
    (LSB (binAt bins k >>> lbit) dataLen, bit + dataLen)
  else
    let left := dataLen - available
    (LSB (binAt bins k >>> lbit) available |||
       ((LSB (binAt bins (k + 1)) left <<< available) % U64),
     bit + dataLen)

/-- The rolling state of one compressed chunk (`CompressedChunk` in
`compressed_chunk.h`): `size` is the payload capacity in bytes, `idx` the
write cursor in bits, the remaining fields the rolling codec state, and
`data` the payload bins. -/
structure CompressedChunk where
  size : Nat
  numSamples : Nat
  baseTimestamp : Nat
  baseValue : Nat
  idx : Nat
  prevTimestamp : Nat
  prevTimestampDelta : Nat
  prevValue : Nat
  prevLeading : Nat
  prevTrailing : Nat
  data : List Nat
deriving DecidableEq

/-- `isSpaceAvailable(chunk, size)` from `gorilla.c`.  `Nat` subtraction
agrees with the C `u_int64_t` subtraction whenever `idx ≤ 8 * size`, the
well-formedness invariant of every reachable chunk. -/
def isSpaceAvailable (chunk : CompressedChunk) (size : Nat) : Bool :=
  size ≤ chunk.size * 8 - chunk.idx

/-- Result codes (`ChunkResult`). -/
inductive ChunkResult where
  | CR_OK
  | CR_ERR
  | CR_END
deriving DecidableEq

export ChunkResult (CR_OK CR_ERR CR_END)

/-- `appendInteger(chunk, timestamp)` from `gorilla.c`: encode the
delta-of-deltas of `timestamp` into the payload.  `curDelta` and the
double-delta are the wrapping `u_int64_t` computations of the C code; the
branch conditions test the signed (`int64_t`) view of the double-delta
exactly as `doubleDelta.i` does. -/
def appendInteger (chunk : CompressedChunk) (timestamp : Nat) :
    ChunkResult × CompressedChunk :=
  let curDelta := u64sub timestamp chunk.prevTimestamp
  let dd := u64sub curDelta chunk.prevTimestampDelta
  if dd = 0 then
    if !isSpaceAvailable chunk (1 + 1) then (CR_ERR, chunk) else
    let r := appendBits chunk.data chunk.idx 0x00 1
    (CR_OK, { chunk with
              data := r.1, idx := r.2,
              prevTimestampDelta := curDelta, prevTimestamp := timestamp })
  else if Bin_InRange (i64ofU64 dd) CMPR_L1 then
    if !isSpaceAvailable chunk (2 + CMPR_L1 + 1) then (CR_ERR, chunk) else
    let r1 := appendBits chunk.data chunk.idx 0x01 2
    let r2 := appendBits r1.1 r1.2 (int2bin (i64ofU64 dd) CMPR_L1) CMPR_L1
    (CR_OK, { chunk with
              data := r2.1, idx := r2.2,
              prevTimestampDelta := curDelta, prevTimestamp := timestamp })
  else if Bin_InRange (i64ofU64 dd) CMPR_L2 then
    if !isSpaceAvailable chunk (3 + CMPR_L2 + 1) then (CR_ERR, chunk) else
    let r1 := appendBits chunk.data chunk.idx 0x03 3
    let r2 := appendBits r1.1 r1.2 (int2bin (i64ofU64 dd) CMPR_L2) CMPR_L2
    (CR_OK, { chunk with
              data := r2.1, idx := r2.2,
              prevTimestampDelta := curDelta, prevTimestamp := timestamp })
  else if Bin_InRange (i64ofU64 dd) CMPR_L3 then
    if !isSpaceAvailable chunk (4 + CMPR_L3 + 1) then (CR_ERR, chunk) else
    let r1 := appendBits chunk.data chunk.idx 0x07 4
    let r2 := appendBits r1.1 r1.2 (int2bin (i64ofU64 dd) CMPR_L3) CMPR_L3
    (CR_OK, { chunk with
              data := r2.1, idx := r2.2,
              prevTimestampDelta := curDelta, prevTimestamp := timestamp })
  else if Bin_InRange (i64ofU64 dd) CMPR_L4 then
    if !isSpaceAvailable chunk (5 + CMPR_L4 + 1) then (CR_ERR, chunk) else
    let r1 := appendBits chunk.data chunk.idx 0x0f 5
    let r2 := appendBits r1.1 r1.2 (int2bin (i64ofU64 dd) CMPR_L4) CMPR_L4
    (CR_OK, { chunk with
              data := r2.1, idx := r2.2,
              prevTimestampDelta := curDelta, prevTimestamp := timestamp })
  else if Bin_InRange (i64ofU64 dd) CMPR_L5 then
    if !isSpaceAvailable chunk (6 + CMPR_L5 + 1) then (CR_ERR, chunk) else
    let r1 := appendBits chunk.data chunk.idx 0x1f 6
    let r2 := appendBits r1.1 r1.2 (int2bin (i64ofU64 dd) CMPR_L5) CMPR_L5
    (CR_OK, { chunk with
              data := r2.1, idx := r2.2,
              prevTimestampDelta := curDelta, prevTimestamp := timestamp })
  else
    if !isSpaceAvailable chunk (6 + 64 + 1) then (CR_ERR, chunk) else
    let r1 := appendBits chunk.data chunk.idx 0x3f 6
    let r2 := appendBits r1.1 r1.2 dd 64
    (CR_OK, { chunk with
              data := r2.1, idx := r2.2,
              prevTimestampDelta := curDelta, prevTimestamp := timestamp })

/-- Fuel-bounded bit length of a natural number (64 steps of halving),
kernel-reducible helper for modelling `__builtin_clzll`. -/
def bitLenAux : Nat → Nat → Nat
  | 0, _ => 0
  | fuel + 1, x => if x = 0 then 0 else bitLenAux fuel (x / 2) + 1

/-- Models `LeadingZeros64` / `__builtin_clzll` for 64-bit operands: the
number of leading zero bits (only evaluated on nonzero arguments). -/
def clz64 (x : Nat) : Nat := 64 - bitLenAux 64 x

/-- Fuel-bounded count of trailing zero bits, kernel-reducible helper for
modelling `__builtin_ctzll`. -/
def ctzAux : Nat → Nat → Nat
  | 0, _ => 0
  | fuel + 1, x => if x % 2 = 1 then 0 else ctzAux fuel (x / 2) + 1

/-- Models `TrailingZeros64` / `__builtin_ctzll` for 64-bit operands (only
evaluated on nonzero arguments). -/
def ctz64 (x : Nat) : Nat := ctzAux 64 x

/-- `appendFloat(chunk, value)` from `gorilla.c`, on raw 64-bit patterns.
Note that the 1-bit "value changed" flag is written before the branch space
checks (exactly as in the C code), so a `CR_ERR` return from this function
leaves that flag written in the returned chunk; and that the XOR-zero path
returns without assigning `prevValue` (the assignment would be a no-op). -/
def appendFloat (chunk : CompressedChunk) (value : Nat) :
    ChunkResult × CompressedChunk :=
  let xorWithPrevious := value ^^^ chunk.prevValue
  if xorWithPrevious = 0 then
    let r := appendBits chunk.data chunk.idx 0 1
    (CR_OK, { chunk with data := r.1, idx := r.2 })
  else
    let r0 := appendBits chunk.data chunk.idx 1 1
    let c0 := { chunk with data := r0.1, idx := r0.2 }
    let leading0 := clz64 xorWithPrevious
    let trailing := ctz64 xorWithPrevious
    let leading := if leading0 > 31 then 31 else leading0
    let blockSize := 64 - leading - trailing
    let expectedSize := DOUBLE_LEADING + DOUBLE_BLOCK_SIZE + blockSize
    let prevBlockInfoSize := 64 - chunk.prevLeading - chunk.prevTrailing
    if chunk.prevLeading ≤ leading ∧ chunk.prevTrailing ≤ trailing ∧
        prevBlockInfoSize < expectedSize then
      if !isSpaceAvailable c0 (prevBlockInfoSize + 1) then (CR_ERR, c0) else
      let r1 := appendBits c0.data c0.idx 0 1
      let r2 := appendBits r1.1 r1.2 (xorWithPrevious >>> chunk.prevTrailing)
                  prevBlockInfoSize
      (CR_OK, { c0 with data := r2.1, idx := r2.2, prevValue := value })
    else
      if !isSpaceAvailable c0 (expectedSize + 1) then (CR_ERR, c0) else
      let r1 := appendBits c0.data c0.idx 1 1
      let r2 := appendBits r1.1 r1.2 leading DOUBLE_LEADING
      let r3 := appendBits r2.1 r2.2 (blockSize - DOUBLE_BLOCK_ADJUST) DOUBLE_BLOCK_SIZE
      let r4 := appendBits r3.1 r3.2 (xorWithPrevious >>> trailing) blockSize
      (CR_OK, { c0 with
                data := r4.1, idx := r4.2,
                prevLeading := leading, prevTrailing := trailing, prevValue := value })

/-- `Compressed_Append(chunk, timestamp, value)` from `gorilla.c`: first
sample goes to the header; later samples run the integer codec then the
double codec, restoring the snapshot `(idx, prevTimestamp,
prevTimestampDelta)` and reporting `CR_END` when either codec runs out of
space. -/
def Compressed_Append (chunk : CompressedChunk) (timestamp value : Nat) :
    ChunkResult × CompressedChunk :=
  if chunk.numSamples = 0 then
    (CR_OK, { chunk with
              baseValue := value, prevValue := value,
              baseTimestamp := timestamp, prevTimestamp := timestamp,
              prevTimestampDelta := 0, numSamples := chunk.numSamples + 1 })
  else
    let idx0 := chunk.idx
    let pTS := chunk.prevTimestamp
    let pTSD := chunk.prevTimestampDelta
    let ri := appendInteger chunk timestamp
    match ri.1 with
    | CR_OK =>
      let rf := appendFloat ri.2 value
      (match rf.1 with
       | CR_OK => (CR_OK, { rf.2 with numSamples := rf.2.numSamples + 1 })
       | _ => (CR_END, { rf.2 with
                         idx := idx0, prevTimestamp := pTS,
                         prevTimestampDelta := pTSD }))
    | _ => (CR_END, { ri.2 with
                      idx := idx0, prevTimestamp := pTS,
                      prevTimestampDelta := pTSD })

/-- The iterator state (`Compressed_Iterator`): a borrowed chunk, a read
cursor `idx` in bits, the number of samples emitted, and rolling decoder
state mirroring the encoder. -/
structure Compressed_Iterator where
  chunk : CompressedChunk
  idx : Nat
  count : Nat
  prevTS : Nat
  prevDelta : Nat
  prevValue : Nat
  prevLeading : Nat
  prevTrailing : Nat
deriving DecidableEq

/-- `readInteger(iter)` from `gorilla.c`: scan the prefix bits (each probe
post-increments the cursor), read and sign-extend the double-delta, update
`prevDelta` and `prevTS` (both wrapping 64-bit additions), and return the
new timestamp. -/
def readInteger (iter : Compressed_Iterator) : Nat × Compressed_Iterator :=
  let bins := iter.chunk.data
  let b0 := iter.idx
  let step := fun (dd : Int) (bit : Nat) =>
    let pd := (iter.prevDelta + intToU64 dd) % U64
    let ts := (iter.prevTS + pd) % U64
    (ts, { iter with idx := bit, prevDelta := pd, prevTS := ts })
  if Bins_bitoff bins b0 then
    step 0 (b0 + 1)
  else if Bins_bitoff bins (b0 + 1) then
    let r := readBits bins (b0 + 2) CMPR_L1
    step (bin2int r.1 CMPR_L1) r.2
  else if Bins_bitoff bins (b0 + 2) then
    let r := readBits bins (b0 + 3) CMPR_L2
    step (bin2int r.1 CMPR_L2) r.2
  else if Bins_bitoff bins (b0 + 3) then
    let r := readBits bins (b0 + 4) CMPR_L3
    step (bin2int r.1 CMPR_L3) r.2
  else if Bins_bitoff bins (b0 + 4) then
    let r := readBits bins (b0 + 5) CMPR_L4
    step (bin2int r.1 CMPR_L4) r.2
  else if Bins_bitoff bins (b0 + 5) then
    let r := readBits bins (b0 + 6) CMPR_L5
    step (bin2int r.1 CMPR_L5) r.2
  else
    let r := readBits bins (b0 + 6) 64
    step (i64ofU64 r.1) r.2

/-- `readFloat(iter)` from `gorilla.c`, on raw 64-bit patterns. -/
def readFloat (iter : Compressed_Iterator) : Nat × Compressed_Iterator :=
  let bins := iter.chunk.data
  let b0 := iter.idx
  if Bins_bitoff bins b0 then
    (iter.prevValue, { iter with idx := b0 + 1 })
  else if Bins_bitoff bins (b0 + 1) then
    let prevBlockInfo := 64 - iter.prevLeading - iter.prevTrailing
    let r := readBits bins (b0 + 2) prevBlockInfo
    let xorValue := (r.1 <<< iter.prevTrailing) % U64
    let rv := xorValue ^^^ iter.prevValue
    (rv, { iter with idx := r.2, prevValue := rv })
  else
    let r1 := readBits bins (b0 + 2) DOUBLE_LEADING
    let r2 := readBits bins r1.2 DOUBLE_BLOCK_SIZE
    let leading := r1.1
    let blocksize := r2.1 + DOUBLE_BLOCK_ADJUST
    let trailing := 64 - leading - blocksize
    let r3 := readBits bins r2.2 blocksize
    let xorValue := (r3.1 <<< trailing) % U64
    let rv := xorValue ^^^ iter.prevValue
    (rv, { iter with
           idx := r3.2, prevValue := rv,
           prevLeading := leading, prevTrailing := trailing })

/-- `Compressed_ReadNext(iter)` from `gorilla.c`: `none` models `CR_END`;
otherwise the emitted `(timestamp, value)` pair and the advanced iterator.
The first sample is served from the chunk header; `readInteger` and
`readFloat` already store the decoded values into the iterator, so the
outer assignments of the C code are no-ops. -/
def Compressed_ReadNext (iter : Compressed_Iterator) :
    Option (Nat × Nat × Compressed_Iterator) :=
  if iter.chunk.numSamples ≤ iter.count then none
  else if iter.count = 0 then
    some (iter.chunk.baseTimestamp, iter.chunk.baseValue,
          { iter with
            count := iter.count + 1 })
  else
    let ri := readInteger iter
    let rf := readFloat ri.2
    some (ri.1, rf.1, { rf.2 with count := iter.count + 1 })

/-- Modelled from the spec: `Compressed_NewChunk` lives in
`compressed_chunk.c`, which is not part of the sources; per spec §6 a chunk
is constructed from its capacity `C` in bytes with a zero-initialized buffer
and all header fields zero.  The buffer's `C` bytes are `⌈C/8⌉` 64-bit bins. -/
def Compressed_NewChunk (C : Nat) : CompressedChunk :=
  { size := C, numSamples := 0, baseTimestamp := 0, baseValue := 0, idx := 0,
    prevTimestamp := 0, prevTimestampDelta := 0, prevValue := 0,
    prevLeading := 0, prevTrailing := 0,
    data := List.replicate ((C + 7) / 8) 0 }

/-- Modelled from the spec: `Compressed_NewChunkIterator` lives in
`compressed_chunk.c`, which is not part of the sources; per spec §4.4/§6 a
fresh iterator starts with `count = 0`, `idx = 0`, rolling state
`prevTS = baseTimestamp`, `prevDelta = 0`, `prevValue = baseValue`, and
window state matching the zero-initialized encoder. -/
def Compressed_NewChunkIterator (chunk : CompressedChunk) : Compressed_Iterator :=
  { chunk := chunk, idx := 0, count := 0, prevTS := chunk.baseTimestamp,
    prevDelta := 0, prevValue := chunk.baseValue,
    prevLeading := 0, prevTrailing := 0 }

/-- Append a whole list of samples; `none` as soon as one append does not
return `CR_OK`. -/
def appendAll (chunk : CompressedChunk) : List (Nat × Nat) → Option CompressedChunk
  | [] => some chunk
  | s :: rest =>
    let r := Compressed_Append chunk s.1 s.2
    match r.1 with
    | CR_OK => appendAll r.2 rest
    | _ => none

/-- Read up to `fuel` samples from an iterator, stopping at `CR_END`. -/
def readSeq (iter : Compressed_Iterator) : Nat → List (Nat × Nat)
  | 0 => []
  | fuel + 1 =>
    match Compressed_ReadNext iter with
    | none => []
    | some (t, v, it) => (t, v) :: readSeq it fuel

/-! ### Basic facts about the 64-bit helpers -/

theorem U64_pos : 0 < U64 := by norm_num [U64]

theorem BIT_eq {b : Nat} (h : b ≤ 63) : BIT b = 2 ^ b := by
  unfold BIT
  rw [if_neg (by omega)]
  exact Nat.one_shiftLeft b

theorem MASK_eq {b : Nat} (h : b ≤ 64) : MASK b = 2 ^ b - 1 := by
  have hU : U64 = 2 ^ 64 := rfl
  unfold MASK
  rcases Nat.lt_or_ge b 64 with h1 | h1
  · rw [BIT_eq (by omega)]
    have h2 : 2 ^ b < 2 ^ 64 := Nat.pow_lt_pow_right (by norm_num) h1
    have h3 : (0:Nat) < 2 ^ b := Nat.pos_pow_of_pos b (by norm_num)
    have h4 : 2 ^ b + (U64 - 1) = U64 + (2 ^ b - 1) := by omega
    rw [h4, Nat.add_mod_left, Nat.mod_eq_of_lt (by omega)]
  · have hb : b = 64 := by omega
    subst hb
    have hB : BIT 64 = 0 := by unfold BIT; norm_num
    have h3 : (0:Nat) < 2 ^ 64 := Nat.pos_pow_of_pos 64 (by norm_num)
    rw [hB, Nat.zero_add, Nat.mod_eq_of_lt (by omega)]
    omega

theorem LSB_eq_mod {b : Nat} (h : b ≤ 64) (x : Nat) : LSB x b = x % 2 ^ b := by
  unfold LSB
  rw [MASK_eq h]
  apply Nat.eq_of_testBit_eq
  intro i
  rw [Nat.testBit_land, Nat.testBit_two_pow_sub_one, Nat.testBit_mod_two_pow]
  exact Bool.and_comm _ _

theorem LSB_lt {b : Nat} (h : b ≤ 64) (x : Nat) : LSB x b < 2 ^ b := by
  rw [LSB_eq_mod h]
  exact Nat.mod_lt _ (Nat.pos_pow_of_pos b (by norm_num))

theorem u64sub_lt (a b : Nat) : u64sub a b < U64 := Nat.mod_lt _ U64_pos

theorem u64sub_eq_of_le {a b : Nat} (hba : b ≤ a) (ha : a < U64) : u64sub a b = a - b := by
  unfold u64sub
  have : U64 + a - b = U64 + (a - b) := by omega
  rw [this, Nat.add_mod_left, Nat.mod_eq_of_lt (by omega)]

/-- The bit pattern round-trips through the signed view. -/
theorem intToU64_i64ofU64 {u : Nat} (hu : u < U64) : intToU64 (i64ofU64 u) = u := by
  unfold intToU64 i64ofU64
  split
  · rw [Int.emod_eq_of_lt (by positivity) (by exact_mod_cast hu)]
    simp
  · have h1 : ((u : Int) - ((U64 : Nat) : Int)) % ((U64 : Nat) : Int) =
        (u : Int) % ((U64 : Nat) : Int) := by
      rw [Int.sub_emod, Int.emod_self, sub_zero, Int.emod_emod_of_dvd _ dvd_rfl]
    rw [h1, Int.emod_eq_of_lt (by positivity) (by exact_mod_cast hu)]
    simp

/-! ### Bin accessors -/

theorem binAt_set_self : ∀ (bins : List Nat) (k : Nat), k < bins.length →
    ∀ w, binAt (bins.set k w) k = w
  | [], k, h, w => by simp at h
  | b :: bs, 0, _, w => rfl
  | b :: bs, k + 1, h, w => by
    simpa [binAt] using binAt_set_self bs k (by simpa using h) w

theorem binAt_set_ne : ∀ (bins : List Nat) (j k : Nat), j ≠ k →
    ∀ w, binAt (bins.set k w) j = binAt bins j
  | [], _, _, _, _ => rfl
  | b :: bs, 0, 0, h, w => absurd rfl h
  | b :: bs, 0, k + 1, _, w => rfl
  | b :: bs, j + 1, 0, _, w => rfl
  | b :: bs, j + 1, k + 1, h, w => by
    simpa [binAt] using binAt_set_ne bs j k (by omega) w

theorem binAt_ge_length {bins : List Nat} {k : Nat} (h : bins.length ≤ k) :
    binAt bins k = 0 := by
  unfold binAt
  rw [List.getD_eq_getElem?_getD, List.getElem?_eq_none (by omega)]
  rfl

theorem bitAt_ge_length {bins : List Nat} {p : Nat} (h : 64 * bins.length ≤ p) :
    bitAt bins p = false := by
  unfold bitAt
  rw [binAt_ge_length, Nat.zero_testBit]
  have := Nat.div_le_div_right (c := 64) h
  simpa [Nat.mul_div_cancel_left _ (by norm_num : (0:Nat) < 64)] using this

/-- Well-formed bins: every stored bin fits in 64 bits. -/
def binsWF (bins : List Nat) : Prop := ∀ w ∈ bins, w < U64

instance (bins : List Nat) : Decidable (binsWF bins) := by
  unfold binsWF; infer_instance

theorem binAt_lt_of_wf {bins : List Nat} (h : binsWF bins) (k : Nat) :
    binAt bins k < U64 := by
  rcases Nat.lt_or_ge k bins.length with hk | hk
  · have : binAt bins k ∈ bins := by
      unfold binAt
      rw [List.getD_eq_getElem?_getD, List.getElem?_eq_getElem hk]
      exact List.getElem_mem hk
    exact h _ this
  · rw [binAt_ge_length hk]; exact U64_pos

theorem binsWF_set {bins : List Nat} (h : binsWF bins) {w : Nat} (hw : w < U64)
    (k : Nat) : binsWF (bins.set k w) := by
  intro x hx
  rcases List.mem_or_eq_of_mem_set hx with hx' | hx'
  · exact h _ hx'
  · exact hx' ▸ hw

/-- A single payload bit, read as the C probe does. -/
theorem Bins_bitoff_eq (bins : List Nat) (p : Nat) :
    Bins_bitoff bins p = !bitAt bins p := by
  unfold Bins_bitoff bitAt localbit
  rw [BIT_eq (by omega : p % 64 ≤ 63)]
  rcases hb : (binAt bins (p / 64)).testBit (p % 64) with _ | _
  · simp only [Bool.not_false]
    rw [beq_iff_eq]
    apply Nat.eq_of_testBit_eq
    intro i
    rw [Nat.testBit_land, Nat.zero_testBit, Nat.testBit_two_pow]
    rcases eq_or_ne (p % 64) i with rfl | hne
    · simp [hb]
    · simp [hne]
  · simp only [Bool.not_true]
    rw [beq_eq_false_iff_ne]
    intro hzero
    have := congrArg (fun n => n.testBit (p % 64)) hzero
    simp only [Nat.testBit_land, Nat.testBit_two_pow, Nat.zero_testBit] at this
    rw [hb] at this
    simp at this

/-! ### Pointwise description of the bit-buffer primitives -/

theorem testBit_ge_of_lt {x n j : Nat} (hx : x < 2 ^ n) (hj : n ≤ j) :
    x.testBit j = false :=
  Nat.testBit_lt_two_pow
    (lt_of_lt_of_le hx (Nat.pow_le_pow_right (by norm_num) hj))

theorem binAt_set (bins : List Nat) (k w : Nat) : ∀ j : Nat,
    binAt (bins.set k w) j =
      if j = k ∧ k < bins.length then w else binAt bins j := by
  intro j
  rcases Nat.lt_or_ge k bins.length with hk | hk
  · rcases eq_or_ne j k with rfl | hj
    · rw [binAt_set_self _ _ hk, if_pos ⟨rfl, hk⟩]
    · rw [binAt_set_ne _ _ _ hj, if_neg (by tauto)]
  · rw [List.set_eq_of_length_le hk, if_neg (by omega)]

theorem testBit_shl_mod {j : Nat} (y l : Nat) (hj : j < 64) :
    ((y <<< l) % U64).testBit j = (decide (l ≤ j) && y.testBit (j - l)) := by
  have hU : U64 = 2 ^ 64 := rfl
  rw [hU, Nat.testBit_mod_two_pow, Nat.testBit_shiftLeft]
  simp [hj, ge_iff_le]

theorem appendBits_snd (bins : List Nat) (bit data dataLen : Nat) :
    (appendBits bins bit data dataLen).2 = bit + dataLen := by
  unfold appendBits
  dsimp only
  split <;> rfl

theorem appendBits_length (bins : List Nat) (bit data dataLen : Nat) :
    (appendBits bins bit data dataLen).1.length = bins.length := by
  unfold appendBits
  dsimp only
  split <;> simp

/-- Bits strictly below the cursor are never touched by `appendBits`. -/
theorem appendBits_bitAt_lo (bins : List Nat) (bit data dataLen : Nat)
    {p : Nat} (hp : p < bit) :
    bitAt (appendBits bins bit data dataLen).1 p = bitAt bins p := by
  have hkl : 64 * (bit / 64) + bit % 64 = bit := Nat.div_add_mod bit 64
  have hl : bit % 64 < 64 := Nat.mod_lt _ (by norm_num)
  have hp64 : 64 * (p / 64) + p % 64 = p := Nat.div_add_mod p 64
  have hpm : p % 64 < 64 := Nat.mod_lt _ (by norm_num)
  unfold appendBits bitAt
  dsimp only
  have hshift : ∀ y : Nat, p / 64 = bit / 64 →
      ((y <<< localbit bit) % U64).testBit (p % 64) = false := by
    intro y hpk
    unfold localbit
    rw [testBit_shl_mod _ _ hpm]
    have : ¬ bit % 64 ≤ p % 64 := by omega
    simp [this]
  split
  · rw [binAt_set _ _ _ (p / 64)]
    split
    · rename_i hcond
      rw [hcond.1, Nat.testBit_lor, hshift _ hcond.1, Bool.or_false]
    · rfl
  · rw [binAt_set _ _ _ (p / 64)]
    split
    · rename_i hcond
      exfalso
      have : p / 64 = bit / 64 + 1 := hcond.1
      omega
    · rw [binAt_set _ _ _ (p / 64)]
      split
      · rename_i hcond
        rw [hcond.1, Nat.testBit_lor, hshift _ hcond.1, Bool.or_false]
      · rfl

/-- `appendBits` only ORs bits in: a set payload bit never becomes clear. -/
theorem appendBits_mono (bins : List Nat) (bit data dataLen : Nat)
    {p : Nat} (hp : bitAt bins p = true) :
    bitAt (appendBits bins bit data dataLen).1 p = true := by
  unfold appendBits bitAt at *
  dsimp only
  split
  · rw [binAt_set _ _ _ (p / 64)]
    split
    · rename_i hcond
      rw [hcond.1] at hp
      rw [Nat.testBit_lor, hp, Bool.true_or]
    · exact hp
  · rw [binAt_set _ _ _ (p / 64)]
    split
    · rename_i hcond
      rw [Nat.testBit_lor,
        binAt_set_ne bins (bit / 64 + 1) (bit / 64) (by omega)]
      rw [hcond.1] at hp
      rw [hp, Bool.true_or]
    · rw [binAt_set _ _ _ (p / 64)]
      split
      · rename_i hcond
        rw [hcond.1] at hp
        rw [Nat.testBit_lor, hp, Bool.true_or]
      · exact hp

/-- Full pointwise description of a write of `dataLen` bits of `data < 2^dataLen`. -/
theorem appendBits_bitAt {bins : List Nat} {bit data dataLen : Nat}
    (h1 : 1 ≤ dataLen) (h64 : dataLen ≤ 64) (hdata : data < 2 ^ dataLen)
    (hin : bit + dataLen ≤ 64 * bins.length) (p : Nat) :
    bitAt (appendBits bins bit data dataLen).1 p =
      (bitAt bins p ||
        (decide (bit ≤ p) && decide (p < bit + dataLen) && data.testBit (p - bit))) := by
  have hkl : 64 * (bit / 64) + bit % 64 = bit := Nat.div_add_mod bit 64
  have hl : bit % 64 < 64 := Nat.mod_lt _ (by norm_num)
  have hp64 : 64 * (p / 64) + p % 64 = p := Nat.div_add_mod p 64
  have hpm : p % 64 < 64 := Nat.mod_lt _ (by norm_num)
  have hklen : bit / 64 < bins.length := by omega
  unfold appendBits bitAt localbit
  dsimp only
  split
  · rename_i havail
    rw [binAt_set _ _ _ (p / 64)]
    split
    · rename_i hcond
      rw [hcond.1, Nat.testBit_lor, testBit_shl_mod _ _ hpm,
        LSB_eq_mod h64, Nat.testBit_mod_two_pow]
      congr 1
      have hpk : p / 64 = bit / 64 := hcond.1
      by_cases hge : bit ≤ p
      · have e2 : bit % 64 ≤ p % 64 := by omega
        have e1 : p % 64 - bit % 64 = p - bit := by omega
        by_cases hlt : p < bit + dataLen
        · have e3 : p - bit < dataLen := by omega
          simp [e1, e2, hge, hlt, e3]
        · have e3 : ¬ (p - bit < dataLen) := by omega
          simp [e1, e2, hge, hlt, e3]
      · have e2 : ¬ (bit % 64 ≤ p % 64) := by omega
        simp [e2, hge]
    · rename_i hcond
      have hnk : p / 64 ≠ bit / 64 := fun h => hcond ⟨h, hklen⟩
      have hnr : ¬ (bit ≤ p ∧ p < bit + dataLen) := by
        rintro ⟨a, b⟩
        exact hnk (by omega)
      rcases Nat.lt_or_ge p bit with h5 | h5
      · simp [Nat.not_le.2 h5]
      · have h6 : ¬ p < bit + dataLen := fun hh => hnr ⟨h5, hh⟩
        simp [h6]
  · rename_i havail
    have havail' : 64 - bit % 64 < dataLen := by omega
    have hk1len : bit / 64 + 1 < bins.length := by omega
    rw [binAt_set _ _ _ (p / 64)]
    split
    · rename_i hcond
      have hpk : p / 64 = bit / 64 + 1 := by
        have := hcond.1
        simpa using this
      rw [hpk, Nat.testBit_lor,
        binAt_set_ne bins (bit / 64 + 1) (bit / 64) (by omega),
        LSB_eq_mod (le_of_lt hl), Nat.testBit_mod_two_pow,
        Nat.testBit_shiftRight]
      have hgep : bit ≤ p := by omega
      have eidx : 64 - bit % 64 + p % 64 = p - bit := by omega
      by_cases hjl : p % 64 < bit % 64
      · by_cases hE : p < bit + dataLen
        · have e3 : p - bit < dataLen := by omega
          rw [eidx]
          simp [hjl, hgep, hE]
        · rw [eidx, testBit_ge_of_lt hdata (by omega)]
          simp [hE]
      · have hE : ¬ p < bit + dataLen := by omega
        simp [hjl, hE]
    · rename_i hcond
      rw [binAt_set _ _ _ (p / 64)]
      split
      · rename_i hcond2
        have hpk : p / 64 = bit / 64 := hcond2.1
        rw [hpk, Nat.testBit_lor, testBit_shl_mod _ _ hpm]
        congr 1
        by_cases hge : bit ≤ p
        · have e2 : bit % 64 ≤ p % 64 := by omega
          have e1 : p % 64 - bit % 64 = p - bit := by omega
          have hE : p < bit + dataLen := by omega
          simp [e1, e2, hge, hE]
        · have e2 : ¬ (bit % 64 ≤ p % 64) := by omega
          simp [e2, hge]
      · rename_i hcond2
        have hne1 : p / 64 ≠ bit / 64 + 1 := by
          intro h
          exact hcond ⟨h, by simpa using hk1len⟩
        have hne2 : p / 64 ≠ bit / 64 := fun h => hcond2 ⟨h, hklen⟩
        have hnr : ¬ (bit ≤ p ∧ p < bit + dataLen) := by
          rintro ⟨a, b⟩
          rcases Nat.lt_or_ge p (64 * (bit / 64 + 1)) with hc | hc
          · exact hne2 (by omega)
          · exact hne1 (by omega)
        rcases Nat.lt_or_ge p bit with h5 | h5
        · simp [Nat.not_le.2 h5]
        · have h6 : ¬ p < bit + dataLen := fun hh => hnr ⟨h5, hh⟩
          simp [h6]

/-- Writes of in-range data leave bits at and beyond `bit + dataLen` unchanged. -/
theorem appendBits_bitAt_hi {bins : List Nat} {bit data dataLen : Nat}
    (h64 : dataLen ≤ 64) (hdata : data < 2 ^ dataLen)
    {p : Nat} (hp : bit + dataLen ≤ p) :
    bitAt (appendBits bins bit data dataLen).1 p = bitAt bins p := by
  have hkl : 64 * (bit / 64) + bit % 64 = bit := Nat.div_add_mod bit 64
  have hl : bit % 64 < 64 := Nat.mod_lt _ (by norm_num)
  have hp64 : 64 * (p / 64) + p % 64 = p := Nat.div_add_mod p 64
  have hpm : p % 64 < 64 := Nat.mod_lt _ (by norm_num)
  unfold appendBits bitAt localbit
  dsimp only
  split
  · rename_i havail
    rw [binAt_set _ _ _ (p / 64)]
    split
    · rename_i hcond
      rw [hcond.1, Nat.testBit_lor, testBit_shl_mod _ _ hpm]
      have hLSB : LSB data dataLen < 2 ^ dataLen := LSB_lt h64 data
      rcases Nat.lt_or_ge (p % 64) (bit % 64) with hjl | hjl
      · simp [Nat.not_le.2 hjl]
      · have hpk : p / 64 = bit / 64 := hcond.1
        rw [testBit_ge_of_lt hLSB (by omega)]
        simp
    · rfl
  · rename_i havail
    have havail' : 64 - bit % 64 < dataLen := by omega
    rw [binAt_set _ _ _ (p / 64)]
    split
    · rename_i hcond
      have hpk : p / 64 = bit / 64 + 1 := by simpa using hcond.1
      rw [Nat.testBit_lor,
        binAt_set_ne bins (bit / 64 + 1) (bit / 64) (by omega),
        LSB_eq_mod (le_of_lt hl), Nat.testBit_mod_two_pow,
        Nat.testBit_shiftRight, hpk]
      rw [testBit_ge_of_lt hdata (by omega)]
      simp
    · rw [binAt_set _ _ _ (p / 64)]
      split
      · rename_i hcond2
        have hpk : p / 64 = bit / 64 := hcond2.1
        rw [hpk, Nat.testBit_lor, testBit_shl_mod _ _ hpm]
        rcases Nat.lt_or_ge (p % 64) (bit % 64) with hjl | hjl
        · simp [Nat.not_le.2 hjl]
        · rw [testBit_ge_of_lt hdata (by omega)]
          simp
      · rfl

/-- Well-formedness of the bins is preserved by `appendBits`. -/
theorem appendBits_wf {bins : List Nat} (hwf : binsWF bins) (bit data dataLen : Nat) :
    binsWF (appendBits bins bit data dataLen).1 := by
  have hU : U64 = 2 ^ 64 := rfl
  have hl : bit % 64 < 64 := Nat.mod_lt _ (by norm_num)
  unfold appendBits localbit
  dsimp only
  split
  · exact binsWF_set hwf
      (Nat.or_lt_two_pow (binAt_lt_of_wf hwf _) (hU ▸ Nat.mod_lt _ U64_pos)) _
  · apply binsWF_set
    · exact binsWF_set hwf
        (Nat.or_lt_two_pow (binAt_lt_of_wf hwf _) (hU ▸ Nat.mod_lt _ U64_pos)) _
    · apply Nat.or_lt_two_pow
        (binAt_lt_of_wf (binsWF_set hwf (Nat.or_lt_two_pow
          (binAt_lt_of_wf hwf _) (hU ▸ Nat.mod_lt _ U64_pos)) _) _)
      exact lt_of_lt_of_le (LSB_lt (by omega) _)
        (Nat.pow_le_pow_right (by norm_num) (by omega))

/-- Appending into a zero region: full before/after description. -/
theorem appendBits_zero_spec (bins : List Nat) (bit : Nat) {data dataLen : Nat}
    (h1 : 1 ≤ dataLen) (h64 : dataLen ≤ 64) (hdata : data < 2 ^ dataLen)
    (hin : bit + dataLen ≤ 64 * bins.length)
    (hz : ∀ q, bit ≤ q → bitAt bins q = false) :
    (∀ p, p < bit → bitAt (appendBits bins bit data dataLen).1 p = bitAt bins p) ∧
    (∀ i, i < dataLen →
      bitAt (appendBits bins bit data dataLen).1 (bit + i) = data.testBit i) ∧
    (∀ q, bit + dataLen ≤ q → bitAt (appendBits bins bit data dataLen).1 q = false) := by
  refine ⟨fun p hp => appendBits_bitAt_lo _ _ _ _ hp, fun i hi => ?_, fun q hq => ?_⟩
  · rw [appendBits_bitAt h1 h64 hdata hin, hz (bit + i) (by omega)]
    simp [hi]
  · rw [appendBits_bitAt h1 h64 hdata hin, hz q (by omega)]
    have h2 : ¬ q < bit + dataLen := by omega
    simp [h2]

theorem readBits_snd (bins : List Nat) (bit dataLen : Nat) :
    (readBits bins bit dataLen).2 = bit + dataLen := by
  unfold readBits
  dsimp only
  split <;> rfl

/-- Pointwise description of `readBits`: bit `i` of the result is payload bit
`bit + i` for `i < dataLen`, and `0` above. -/
theorem readBits_testBit (bins : List Nat) (bit : Nat) {dataLen : Nat}
    (h64 : dataLen ≤ 64) (i : Nat) :
    (readBits bins bit dataLen).1.testBit i =
      (decide (i < dataLen) && bitAt bins (bit + i)) := by
  have hkl : 64 * (bit / 64) + bit % 64 = bit := Nat.div_add_mod bit 64
  have hl : bit % 64 < 64 := Nat.mod_lt _ (by norm_num)
  have hq : 64 * ((bit + i) / 64) + (bit + i) % 64 = bit + i := Nat.div_add_mod (bit + i) 64
  have hqm : (bit + i) % 64 < 64 := Nat.mod_lt _ (by norm_num)
  unfold readBits bitAt localbit
  dsimp only
  split
  · rename_i havail
    rw [LSB_eq_mod h64, Nat.testBit_mod_two_pow, Nat.testBit_shiftRight]
    by_cases hi : i < dataLen
    · have e1 : (bit + i) / 64 = bit / 64 := by omega
      have e2 : (bit + i) % 64 = bit % 64 + i := by omega
      rw [e1, e2]
    · simp [hi]
  · rename_i havail
    have havail' : 64 - bit % 64 < dataLen := by omega
    rw [Nat.testBit_lor, LSB_eq_mod (by omega : 64 - bit % 64 ≤ 64),
      Nat.testBit_mod_two_pow, Nat.testBit_shiftRight]
    by_cases hi64 : i < 64
    · rw [testBit_shl_mod _ _ hi64, LSB_eq_mod (by omega : dataLen - (64 - bit % 64) ≤ 64),
        Nat.testBit_mod_two_pow]
      by_cases hia : i < 64 - bit % 64
      · have e1 : (bit + i) / 64 = bit / 64 := by omega
        have e2 : (bit + i) % 64 = bit % 64 + i := by omega
        have hi : i < dataLen := by omega
        have hna : ¬ (64 - bit % 64 ≤ i) := by omega
        rw [e1, e2]
        simp [hia, hi, hna]
      · have e1 : (bit + i) / 64 = bit / 64 + 1 := by omega
        have e2 : (bit + i) % 64 = i - (64 - bit % 64) := by omega
        have hna : 64 - bit % 64 ≤ i := by omega
        rw [e1, e2]
        by_cases hi : i < dataLen
        · have e3 : i - (64 - bit % 64) < dataLen - (64 - bit % 64) := by omega
          simp [hia, hna, hi, e3]
        · have e3 : ¬ (i - (64 - bit % 64) < dataLen - (64 - bit % 64)) := by omega
          simp [hia, hna, hi, e3]
    · have hi : ¬ i < dataLen := by omega
      have hia : ¬ i < 64 - bit % 64 := by omega
      have hU : U64 = 2 ^ 64 := rfl
      rw [hU, Nat.testBit_mod_two_pow]
      simp [hia, hi, hi64]

theorem readBits_lt (bins : List Nat) (bit : Nat) {dataLen : Nat} (h64 : dataLen ≤ 64) :
    (readBits bins bit dataLen).1 < 2 ^ dataLen := by
  apply Nat.lt_pow_two_of_testBit
  intro i hi
  rw [readBits_testBit _ _ h64]
  simp [Nat.not_lt.2 hi]

/-- Reading back a value whose bits are laid out at the cursor. -/
theorem readBits_eq_val {bins : List Nat} {bit dataLen v : Nat}
    (h64 : dataLen ≤ 64) (hv : v < 2 ^ dataLen)
    (hbits : ∀ i, i < dataLen → bitAt bins (bit + i) = v.testBit i) :
    (readBits bins bit dataLen).1 = v := by
  apply Nat.eq_of_testBit_eq
  intro i
  rw [readBits_testBit _ _ h64]
  rcases Nat.lt_or_ge i dataLen with hi | hi
  · rw [hbits i hi]
    simp [hi]
  · rw [testBit_ge_of_lt hv hi]
    simp [Nat.not_lt.2 hi]

/-! ### Two's-complement round-trips (`int2bin` / `bin2int`) -/

theorem intToU64_lt (x : Int) : intToU64 x < U64 := by
  unfold intToU64
  have h1 : (0:Int) < ((U64 : Nat) : Int) := by exact_mod_cast U64_pos
  have h2 := Int.emod_lt_of_pos x h1
  have h3 := Int.emod_nonneg x (by omega : ((U64 : Nat) : Int) ≠ 0)
  omega

theorem i64ofU64_intToU64 {x : Int} (hlo : -(2 ^ 63 : Int) ≤ x) (hhi : x < 2 ^ 63) :
    i64ofU64 (intToU64 x) = x := by
  have hU : ((U64 : Nat) : Int) = 2 ^ 64 := by norm_num [U64]
  unfold i64ofU64 intToU64
  rcases le_or_lt 0 x with hx | hx
  · have hmod : x % ((U64 : Nat) : Int) = x := by
      apply Int.emod_eq_of_lt hx
      rw [hU]
      omega
    rw [hmod, if_pos (by omega)]
    omega
  · have hmod : x % ((U64 : Nat) : Int) = x + 2 ^ 64 := by
      have h2 : x % ((U64 : Nat) : Int) = (x + 2 ^ 64) % ((U64 : Nat) : Int) := by
        rw [hU]
        conv_rhs => rw [show x + 2 ^ 64 = x + 2 ^ 64 * 1 by ring]
        rw [Int.add_mul_emod_self_left]
      rw [h2]
      apply Int.emod_eq_of_lt (by omega)
      rw [hU]
      omega
    rw [hmod, if_neg (by omega)]
    omega

theorem bin2int_of_lt {bin w : Nat} (h1 : 1 ≤ w) (h63 : w ≤ 63)
    (hb : bin < 2 ^ (w - 1)) : bin2int bin w = (bin : Int) := by
  unfold bin2int
  rw [if_pos]
  rw [BIT_eq (by omega), beq_iff_eq]
  apply Nat.eq_of_testBit_eq
  intro i
  rw [Nat.testBit_land, Nat.testBit_two_pow, Nat.zero_testBit]
  rcases eq_or_ne (w - 1) i with rfl | hne
  · rw [Nat.testBit_lt_two_pow hb]
    simp
  · simp [hne]

theorem bin2int_of_ge {bin w : Nat} (h1 : 1 ≤ w) (h63 : w ≤ 63)
    (hb1 : 2 ^ (w - 1) ≤ bin) (hb2 : bin < 2 ^ w) :
    bin2int bin w = (bin : Int) - 2 ^ w := by
  have hpow : 2 ^ w = 2 * 2 ^ (w - 1) := by
    conv_lhs => rw [show w = (w - 1) + 1 by omega]
    rw [Nat.pow_succ]
    ring
  have htb : bin.testBit (w - 1) = true := by
    rw [Nat.testBit_to_div_mod]
    have hdiv : bin / 2 ^ (w - 1) = 1 := by
      apply Nat.div_eq_of_lt_le (by simpa using hb1)
      omega
    rw [hdiv]
    decide
  unfold bin2int
  rw [if_neg, BIT_eq (by omega)]
  · push_cast
    ring
  · rw [BIT_eq (by omega), beq_iff_eq]
    intro hzero
    have hcon := congrArg (fun n => n.testBit (w - 1)) hzero
    simp only [Nat.testBit_land, Nat.testBit_two_pow, Nat.zero_testBit, htb] at hcon
    simp at hcon

/-- Decoding the truncated pattern recovers the signed value whenever the
signed value is in range (`Bin_InRange`). -/
theorem bin2int_pattern {u w : Nat} (h1 : 1 ≤ w) (h63 : w ≤ 63) (hu : u < U64)
    (hr : Bin_InRange (i64ofU64 u) w = true) :
    bin2int (u % 2 ^ w) w = i64ofU64 u := by
  have hU : U64 = 2 ^ 64 := rfl
  have hBITw : (BIT (w - 1) : Int) = 2 ^ (w - 1) := by
    rw [BIT_eq (by omega)]
    push_cast
    rfl
  rw [Bin_InRange, Bool.and_eq_true, decide_eq_true_eq, decide_eq_true_eq,
    Bin_MinVal, Bin_MaxVal, hBITw] at hr
  obtain ⟨hlo, hhi⟩ := hr
  have hww : (2:Nat) ^ w = 2 ^ (w - 1) * 2 := by
    conv_lhs => rw [show w = (w - 1) + 1 by omega]
    rw [Nat.pow_succ]
  have hw64 : (2:Nat) ^ w ≤ 2 ^ 64 := Nat.pow_le_pow_right (by norm_num) (by omega)
  have hw163 : (2:Nat) ^ (w - 1) ≤ 2 ^ 62 := Nat.pow_le_pow_right (by norm_num) (by omega)
  have h62 : (2:Nat) ^ 62 < 2 ^ 63 := by norm_num
  have h6364 : (2:Nat) ^ 63 * 2 = 2 ^ 64 := by norm_num
  unfold i64ofU64 at *
  by_cases hsmall : u < 2 ^ 63
  · rw [if_pos hsmall] at hlo hhi ⊢
    have hult : u < 2 ^ (w - 1) := by
      have hc : (u : Int) < ((2 ^ (w - 1) : Nat) : Int) := by
        push_cast
        omega
      exact_mod_cast hc
    rw [Nat.mod_eq_of_lt (by omega), bin2int_of_lt h1 h63 hult]
  · rw [if_neg hsmall] at hlo hhi ⊢
    push_neg at hsmall
    have hcu : ((2 ^ 64 - 2 ^ (w - 1) : Nat) : Int) ≤ (u : Int) := by
      rw [Int.ofNat_sub (by omega)]
      push_cast
      push_cast [hU] at hlo
      omega
    have hun : 2 ^ 64 - 2 ^ (w - 1) ≤ u := by exact_mod_cast hcu
    have hu64 : u < 2 ^ 64 := hU ▸ hu
    have hpowsplit : 2 ^ w * 2 ^ (64 - w) = 2 ^ 64 := by
      rw [← Nat.pow_add]
      congr 1
      omega
    have hP : 2 ^ w * (2 ^ (64 - w) - 1) = 2 ^ 64 - 2 ^ w := by
      rw [Nat.mul_sub, Nat.mul_one, hpowsplit]
    set n : Nat := 2 ^ 64 - u with hn
    have hn1 : 1 ≤ n := by omega
    have hn2 : n ≤ 2 ^ (w - 1) := by omega
    have hsplit : u = 2 ^ w * (2 ^ (64 - w) - 1) + (2 ^ w - n) := by
      rw [hP]
      omega
    have hmod : u % 2 ^ w = 2 ^ w - n := by
      rw [hsplit, Nat.mul_add_mod, Nat.mod_eq_of_lt (by omega)]
    rw [hmod, bin2int_of_ge h1 h63 (by omega) (by omega)]
    have hc2 : ((2 ^ w - n : Nat) : Int) = ((2 ^ w : Nat) : Int) - (n : Nat) := by
      rw [Int.ofNat_sub (by omega)]
    have hc3 : ((n : Nat) : Int) = ((2 ^ 64 : Nat) : Int) - (u : Nat) := by
      rw [hn, Int.ofNat_sub (by omega)]
    rw [hc2, hc3]
    push_cast [hU]
    ring

/-- Encoding then decoding an in-range signed value is the identity. -/
theorem bin2int_int2bin {x : Int} {w : Nat} (h1 : 1 ≤ w) (h63 : w ≤ 63)
    (hlo : Bin_MinVal w ≤ x) (hhi : x ≤ Bin_MaxVal w) :
    bin2int (int2bin x w) w = x := by
  have hBITw : (BIT (w - 1) : Int) = 2 ^ (w - 1) := by
    rw [BIT_eq (by omega)]
    push_cast
    rfl
  rw [Bin_MinVal, hBITw] at hlo
  rw [Bin_MaxVal, hBITw] at hhi
  have hwi : ((2:Int) ^ (w - 1)) ≤ 2 ^ 62 := by
    have := Nat.pow_le_pow_right (by norm_num : 1 ≤ 2) (by omega : w - 1 ≤ 62)
    exact_mod_cast this
  have hx63 : -(2 ^ 63 : Int) ≤ x ∧ x < 2 ^ 63 := by
    constructor <;> nlinarith [hlo, hhi, hwi]
  have hround : i64ofU64 (intToU64 x) = x := i64ofU64_intToU64 hx63.1 hx63.2
  have hrange : Bin_InRange (i64ofU64 (intToU64 x)) w = true := by
    rw [hround, Bin_InRange, Bool.and_eq_true, decide_eq_true_eq, decide_eq_true_eq,
      Bin_MinVal, Bin_MaxVal, hBITw]
    exact ⟨hlo, hhi⟩
  have hfin := bin2int_pattern h1 h63 (intToU64_lt x) hrange
  rw [hround] at hfin
  rw [int2bin, LSB_eq_mod (by omega)]
  exact hfin

/-! ### Leading/trailing-zero counts -/

theorem bitLenAux_zero (fuel : Nat) : bitLenAux fuel 0 = 0 := by
  cases fuel <;> rfl

theorem bitLenAux_le : ∀ fuel x, bitLenAux fuel x ≤ fuel
  | 0, _ => le_refl 0
  | fuel + 1, x => by
    unfold bitLenAux
    split
    · omega
    · have := bitLenAux_le fuel (x / 2)
      omega

theorem bitLenAux_spec : ∀ fuel x, x < 2 ^ fuel → x ≠ 0 →
    1 ≤ bitLenAux fuel x ∧ 2 ^ (bitLenAux fuel x - 1) ≤ x ∧ x < 2 ^ (bitLenAux fuel x)
  | 0, x, hx, hne => by
    exfalso
    simp at hx
    exact hne hx
  | fuel + 1, x, hx, hne => by
    unfold bitLenAux
    rw [if_neg hne]
    rcases Nat.lt_or_ge x 2 with hx2 | hx2
    · have hx1 : x = 1 := by omega
      subst hx1
      simp [bitLenAux_zero]
    · have hne2 : x / 2 ≠ 0 := by omega
      have hlt2 : x / 2 < 2 ^ fuel := by
        rw [Nat.pow_succ] at hx
        omega
      obtain ⟨h1, h2, h3⟩ := bitLenAux_spec fuel (x / 2) hlt2 hne2
      have hp1 : 2 ^ (bitLenAux fuel (x / 2)) = 2 ^ (bitLenAux fuel (x / 2) - 1) * 2 := by
        conv_lhs => rw [show bitLenAux fuel (x / 2) = (bitLenAux fuel (x / 2) - 1) + 1 by omega]
        rw [Nat.pow_succ]
      have hp2 : 2 ^ (bitLenAux fuel (x / 2) + 1) = 2 ^ (bitLenAux fuel (x / 2)) * 2 := by
        rw [Nat.pow_succ]
      refine ⟨by omega, ?_, ?_⟩
      · simp only [Nat.add_sub_cancel]
        omega
      · rw [hp2]
        omega

theorem clz64_spec {x : Nat} (hne : x ≠ 0) (hlt : x < U64) :
    clz64 x ≤ 63 ∧ x < 2 ^ (64 - clz64 x) ∧ 2 ^ (63 - clz64 x) ≤ x := by
  have hU : U64 = 2 ^ 64 := rfl
  obtain ⟨h1, h2, h3⟩ := bitLenAux_spec 64 x (hU ▸ hlt) hne
  have h4 := bitLenAux_le 64 x
  unfold clz64
  refine ⟨by omega, ?_, ?_⟩
  · have e : 64 - (64 - bitLenAux 64 x) = bitLenAux 64 x := by omega
    rw [e]
    exact h3
  · have e : 63 - (64 - bitLenAux 64 x) = bitLenAux 64 x - 1 := by omega
    rw [e]
    exact h2

theorem ctzAux_spec : ∀ fuel x, x < 2 ^ fuel → x ≠ 0 →
    x % 2 ^ (ctzAux fuel x) = 0 ∧ 2 ^ (ctzAux fuel x) ≤ x
  | 0, x, hx, hne => by
    exfalso
    simp at hx
    exact hne hx
  | fuel + 1, x, hx, hne => by
    unfold ctzAux
    split
    · refine ⟨by simp [Nat.mod_one], ?_⟩
      simpa using Nat.one_le_iff_ne_zero.mpr hne
    · rename_i hodd
      have hev : x % 2 = 0 := by omega
      have hne2 : x / 2 ≠ 0 := by omega
      have hlt2 : x / 2 < 2 ^ fuel := by
        rw [Nat.pow_succ] at hx
        omega
      obtain ⟨h1, h2⟩ := ctzAux_spec fuel (x / 2) hlt2 hne2
      have hxe : x = 2 * (x / 2) := by omega
      have hdvd : 2 ^ (ctzAux fuel (x / 2) + 1) ∣ x := by
        rw [Nat.pow_succ, Nat.mul_comm (2 ^ ctzAux fuel (x / 2)) 2]
        conv_rhs => rw [hxe]
        exact Nat.mul_dvd_mul_left 2 (Nat.dvd_of_mod_eq_zero h1)
      refine ⟨Nat.mod_eq_zero_of_dvd hdvd, ?_⟩
      have hps : 2 ^ (ctzAux fuel (x / 2) + 1) = 2 * 2 ^ (ctzAux fuel (x / 2)) := by
        rw [Nat.pow_succ]
        ring
      omega

theorem ctz64_spec {x : Nat} (hne : x ≠ 0) (hlt : x < U64) :
    x % 2 ^ (ctz64 x) = 0 ∧ 2 ^ (ctz64 x) ≤ x := by
  have hU : U64 = 2 ^ 64 := rfl
  exact ctzAux_spec 64 x (hU ▸ hlt) hne

theorem clz_add_ctz_le {x : Nat} (hne : x ≠ 0) (hlt : x < U64) :
    clz64 x + ctz64 x ≤ 63 := by
  obtain ⟨hc1, hc2, _⟩ := clz64_spec hne hlt
  obtain ⟨_, ht2⟩ := ctz64_spec hne hlt
  by_contra hcon
  push_neg at hcon
  have h1 : 64 - clz64 x ≤ ctz64 x := by omega
  have h2 : (2:Nat) ^ (64 - clz64 x) ≤ 2 ^ (ctz64 x) :=
    Nat.pow_le_pow_right (by norm_num) h1
  omega

theorem shr_shl_cancel {x t : Nat} (ht : x % 2 ^ t = 0) : x >>> t <<< t = x := by
  rw [Nat.shiftRight_eq_div_pow, Nat.shiftLeft_eq]
  exact Nat.div_mul_cancel (Nat.dvd_of_mod_eq_zero ht)

theorem shr_lt {x a t : Nat} (hx : x < 2 ^ a) (hat : t ≤ a) :
    x >>> t < 2 ^ (a - t) := by
  rw [Nat.shiftRight_eq_div_pow]
  apply Nat.div_lt_of_lt_mul
  rw [← Nat.pow_add]
  have e : t + (a - t) = a := by omega
  rw [e]
  exact hx

theorem shr_testBit (x t i : Nat) : (x >>> t).testBit i = x.testBit (t + i) :=
  Nat.testBit_shiftRight x

/-- Dividing out fewer than all the trailing zeros still gives a multiple. -/
theorem mod_pow_eq_zero_of_le {x s t : Nat} (h : x % 2 ^ t = 0) (hst : s ≤ t) :
    x % 2 ^ s = 0 :=
  Nat.mod_eq_zero_of_dvd ((pow_dvd_pow 2 hst).trans (Nat.dvd_of_mod_eq_zero h))

/-! ### Chunk invariant and wraparound arithmetic -/

/-- All payload bits at or beyond position `n` are clear (bounded form; bits
beyond the bins are identically zero via `bitAt_ge_length`). -/
def ZeroBeyond (bins : List Nat) (n : Nat) : Prop :=
  ∀ q < 64 * bins.length, n ≤ q → bitAt bins q = false

instance (bins : List Nat) (n : Nat) : Decidable (ZeroBeyond bins n) := by
  unfold ZeroBeyond
  infer_instance

theorem ZeroBeyond.bit {bins : List Nat} {n : Nat} (h : ZeroBeyond bins n)
    {q : Nat} (hq : n ≤ q) : bitAt bins q = false := by
  rcases Nat.lt_or_ge q (64 * bins.length) with h1 | h1
  · exact h q h1 hq
  · exact bitAt_ge_length h1

theorem zeroBeyond_of_forall {bins : List Nat} {n : Nat}
    (h : ∀ q, n ≤ q → bitAt bins q = false) : ZeroBeyond bins n :=
  fun q _ hq => h q hq

/-- Well-formedness invariant of an encoder chunk: bounded rolling fields, a
cursor within capacity, capacity within the bins, 64-bit bins, and a clear
region beyond the cursor. -/
def ChunkWF (c : CompressedChunk) : Prop :=
  c.prevTimestamp < U64 ∧ c.prevTimestampDelta < U64 ∧ c.prevValue < U64 ∧
  c.prevLeading + c.prevTrailing ≤ 63 ∧ c.idx ≤ 8 * c.size ∧
  8 * c.size ≤ 64 * c.data.length ∧ binsWF c.data ∧ ZeroBeyond c.data c.idx

instance (c : CompressedChunk) : Decidable (ChunkWF c) := by
  unfold ChunkWF
  infer_instance

theorem u64sub_add_cancel {a b : Nat} (ha : a < U64) (hb : b < U64) :
    (b + u64sub a b) % U64 = a := by
  unfold u64sub U64 at *
  omega

theorem u64sub_eq_zero_iff {a b : Nat} (ha : a < U64) (hb : b < U64) :
    u64sub a b = 0 ↔ a = b := by
  unfold u64sub U64 at *
  constructor <;> intro h <;> omega

/-! ### The common two-write pattern of the integer codec branches -/

/-- A marker of `mlen` bits followed by a payload of `wlen` bits, written at
the cursor into a clear region: the complete before/after description. -/
theorem write2_spec (bins : List Nat) (bit m mlen pay wlen : Nat)
    (hm1 : 1 ≤ mlen) (hm64 : mlen ≤ 64) (hmlt : m < 2 ^ mlen)
    (hw1 : 1 ≤ wlen) (hw64 : wlen ≤ 64) (hplt : pay < 2 ^ wlen)
    (hin : bit + mlen + wlen ≤ 64 * bins.length)
    (hz : ∀ q, bit ≤ q → bitAt bins q = false) :
    (appendBits (appendBits bins bit m mlen).1 (appendBits bins bit m mlen).2
        pay wlen).2 = bit + mlen + wlen ∧
    (appendBits (appendBits bins bit m mlen).1 (appendBits bins bit m mlen).2
        pay wlen).1.length = bins.length ∧
    (∀ p, p < bit →
      bitAt (appendBits (appendBits bins bit m mlen).1
        (appendBits bins bit m mlen).2 pay wlen).1 p = bitAt bins p) ∧
    (∀ i, i < mlen →
      bitAt (appendBits (appendBits bins bit m mlen).1
        (appendBits bins bit m mlen).2 pay wlen).1 (bit + i) = m.testBit i) ∧
    (∀ i, i < wlen →
      bitAt (appendBits (appendBits bins bit m mlen).1
        (appendBits bins bit m mlen).2 pay wlen).1 (bit + mlen + i) = pay.testBit i) ∧
    (∀ q, bit + mlen + wlen ≤ q →
      bitAt (appendBits (appendBits bins bit m mlen).1
        (appendBits bins bit m mlen).2 pay wlen).1 q = false) := by
  obtain ⟨hlo1, hbits1, hhi1⟩ :=
    appendBits_zero_spec bins bit hm1 hm64 hmlt (by omega) hz
  have hsnd : (appendBits bins bit m mlen).2 = bit + mlen := appendBits_snd _ _ _ _
  rw [hsnd]
  have hlen1 : (appendBits bins bit m mlen).1.length = bins.length :=
    appendBits_length _ _ _ _
  obtain ⟨hlo2, hbits2, hhi2⟩ :=
    appendBits_zero_spec (appendBits bins bit m mlen).1 (bit + mlen) hw1 hw64
      hplt (by rw [hlen1]; omega) hhi1
  refine ⟨by rw [appendBits_snd], by rw [appendBits_length, hlen1], ?_, ?_, ?_, ?_⟩

  · intro p hp
    rw [hlo2 p (by omega)]
    exact hlo1 p hp
  · intro i hi
    rw [hlo2 (bit + i) (by omega)]
    exact hbits1 i hi
  · intro i hi
    have e : bit + mlen + i = (bit + mlen) + i := by omega
    rw [e]
    exact hbits2 i hi
  · intro q hq
    have e : bit + mlen + wlen = (bit + mlen) + wlen := by omega
    exact hhi2 q (by omega)

/-- A failing (`CR_ERR`) `appendInteger` leaves the chunk untouched. -/
theorem appendInteger_err {c : CompressedChunk} {t : Nat} :
    (appendInteger c t).1 = CR_ERR → (appendInteger c t).2 = c := by
  unfold appendInteger
  dsimp only
  intro h
  repeat' split at h
  all_goals simp_all


/-- A space-check hypothesis in the success branch gives the room bound. -/
theorem space_of_not_false {c : CompressedChunk} {n : Nat}
    (h : ¬ (!isSpaceAvailable c n) = true) : n ≤ c.size * 8 - c.idx := by
  rcases hb : isSpaceAvailable c n with _ | _
  · exact absurd (by rw [hb]; rfl) h
  · rw [isSpaceAvailable, decide_eq_true_eq] at hb
    exact hb

/-- Everything established by a successful `appendInteger`, including exact
decodability of the written bits by `readInteger` from any buffer that agrees
with the written region. -/
theorem appendInteger_ok_spec {c : CompressedChunk} {t : Nat}
    (hwf : ChunkWF c) (ht : t < U64)
    {c1 : CompressedChunk} (hok : appendInteger c t = (CR_OK, c1)) :
    c1.size = c.size ∧ c1.numSamples = c.numSamples ∧
    c1.baseTimestamp = c.baseTimestamp ∧ c1.baseValue = c.baseValue ∧
    c1.prevValue = c.prevValue ∧ c1.prevLeading = c.prevLeading ∧
    c1.prevTrailing = c.prevTrailing ∧
    c1.prevTimestamp = t ∧ c1.prevTimestampDelta = u64sub t c.prevTimestamp ∧
    c1.data.length = c.data.length ∧ binsWF c1.data ∧
    c.idx < c1.idx ∧ c1.idx < 8 * c.size ∧
    ZeroBeyond c1.data c1.idx ∧
    (∀ p, p < c.idx → bitAt c1.data p = bitAt c.data p) ∧
    ∀ (it : Compressed_Iterator),
      (∀ q, c.idx ≤ q → q < c1.idx → bitAt it.chunk.data q = bitAt c1.data q) →
      it.idx = c.idx → it.prevTS = c.prevTimestamp →
      it.prevDelta = c.prevTimestampDelta →
      readInteger it =
        (t, { it with
              idx := c1.idx, prevTS := t,
              prevDelta := u64sub t c.prevTimestamp }) := by
  obtain ⟨hpT, hpD, hpV, hplt, hidx, hsz, hbwf, hzb⟩ := hwf
  have hU : U64 = 2 ^ 64 := rfl
  have hzf : ∀ q, c.idx ≤ q → bitAt c.data q = false := fun q hq => hzb.bit hq
  unfold appendInteger at hok
  dsimp only at hok
  set curDelta := u64sub t c.prevTimestamp with hcur
  set dd := u64sub curDelta c.prevTimestampDelta with hdd
  have hcdlt : curDelta < U64 := by rw [hcur]; exact u64sub_lt _ _
  have hddlt : dd < U64 := by rw [hdd]; exact u64sub_lt _ _
  split at hok
  next hdd0 =>
    split at hok
    next hsp => simp at hok
    next hsp =>
      have hsp2 := space_of_not_false hsp
      have hroom : c.idx + 2 ≤ 8 * c.size := by omega
      rw [Prod.mk.injEq] at hok
      obtain ⟨-, hc1⟩ := hok
      subst hc1
      dsimp only
      obtain ⟨hlo1, hbits1, hhi1⟩ :=
        appendBits_zero_spec c.data c.idx (by omega) (by omega)
          (by norm_num : (0:Nat) < 2 ^ 1) (by omega) hzf
      have hsnd : (appendBits c.data c.idx 0 1).2 = c.idx + 1 := appendBits_snd _ _ _ _
      have hcdpd : curDelta = c.prevTimestampDelta :=
        (u64sub_eq_zero_iff hcdlt hpD).mp (hdd ▸ hdd0)
      refine ⟨rfl, rfl, rfl, rfl, rfl, rfl, rfl, rfl, rfl, appendBits_length _ _ _ _,
        appendBits_wf hbwf _ _ _, by rw [hsnd]; omega, by rw [hsnd]; omega, ?_, hlo1, ?_⟩
      · rw [hsnd]
        exact zeroBeyond_of_forall hhi1
      · intro it hagree hidx2 hpts2 hpd2
        rw [hsnd] at hagree ⊢
        have h0 : bitAt it.chunk.data c.idx = false := by
          rw [hagree _ le_rfl (by omega)]
          have h00 := hbits1 0 (by omega)
          rw [Nat.add_zero] at h00
          rw [h00]
          decide
        unfold readInteger
        dsimp only
        rw [hidx2]
        have hq0 : Bins_bitoff it.chunk.data c.idx = true := by
          rw [Bins_bitoff_eq, h0]
          rfl
        rw [if_pos hq0]
        have hz0 : intToU64 0 = 0 := by decide
        rw [hz0, hpd2, hpts2]
        have hcan1 : (c.prevTimestampDelta + 0) % U64 = curDelta := by
          rw [Nat.add_zero, Nat.mod_eq_of_lt hpD, hcdpd]
        rw [hcan1]
        have hcan2 : (c.prevTimestamp + curDelta) % U64 = t := by
          rw [hcur]
          exact u64sub_add_cancel ht hpT
        rw [hcan2]
  next hdd0 =>
    split at hok
    next hr1 =>
      split at hok
      next hsp => simp at hok
      next hsp =>
        have hL : CMPR_L1 = 5 := rfl
        have hsp2 := space_of_not_false hsp
        have hroom : c.idx + (2 + CMPR_L1 + 1) ≤ 8 * c.size := by omega
        rw [Prod.mk.injEq] at hok
        obtain ⟨-, hc1⟩ := hok
        subst hc1
        dsimp only
        have hpaylt : int2bin (i64ofU64 dd) CMPR_L1 < 2 ^ CMPR_L1 :=
          LSB_lt (by omega) _
        obtain ⟨hW1, hW2, hW3, hW4, hW5, hW6⟩ :=
          write2_spec c.data c.idx 1 2
            (int2bin (i64ofU64 dd) CMPR_L1) CMPR_L1
            (by omega) (by omega) (by norm_num) (by omega) (by omega) hpaylt
            (by omega) hzf
        refine ⟨rfl, rfl, rfl, rfl, rfl, rfl, rfl, rfl, rfl, hW2,
          appendBits_wf (appendBits_wf hbwf _ _ _) _ _ _,
          by rw [hW1]; omega, by rw [hW1]; omega, ?_, hW3, ?_⟩
        · rw [hW1]
          exact zeroBeyond_of_forall hW6
        · intro it hagree hidx2 hpts2 hpd2
          rw [hW1] at hagree ⊢
          have hpb : ∀ i, i < 2 → bitAt it.chunk.data (c.idx + i) = (1 : Nat).testBit i := by
            intro i hi
            rw [hagree _ (by omega) (by omega), hW4 i hi]
          have hread : (readBits it.chunk.data (c.idx + 2) CMPR_L1).1 =
              int2bin (i64ofU64 dd) CMPR_L1 := by
            apply readBits_eq_val (by omega) hpaylt
            intro i hi
            rw [hagree _ (by omega) (by omega)]
            exact hW5 i hi
          unfold readInteger
          dsimp only
          rw [hidx2]
          have h0 : bitAt it.chunk.data c.idx = (1 : Nat).testBit 0 := by
            have h00 := hpb 0 (by omega)
            rwa [Nat.add_zero] at h00
          have hq0 : Bins_bitoff it.chunk.data c.idx = false := by
            rw [Bins_bitoff_eq, h0]
            decide
          rw [if_neg (by simp [hq0])]
          have hq1 : Bins_bitoff it.chunk.data (c.idx + 1) = true := by
            rw [Bins_bitoff_eq, hpb 1 (by omega)]
            decide
          rw [if_pos hq1]
          rw [readBits_snd, hread]
          have hbin : bin2int (int2bin (i64ofU64 dd) CMPR_L1) CMPR_L1 = i64ofU64 dd := by
            rw [int2bin, intToU64_i64ofU64 hddlt, LSB_eq_mod (by omega)]
            exact bin2int_pattern (by omega) (by omega) hddlt hr1
          rw [hbin, intToU64_i64ofU64 hddlt, hpd2, hpts2]
          have hcan1 : (c.prevTimestampDelta + dd) % U64 = curDelta := by
            rw [hdd]
            exact u64sub_add_cancel hcdlt hpD
          rw [hcan1]
          have hcan2 : (c.prevTimestamp + curDelta) % U64 = t := by
            rw [hcur]
            exact u64sub_add_cancel ht hpT
          rw [hcan2]
    next hr1 =>
      split at hok
      next hr2 =>
        split at hok
        next hsp => simp at hok
        next hsp =>
          have hL : CMPR_L2 = 8 := rfl
          have hsp2 := space_of_not_false hsp
          have hroom : c.idx + (3 + CMPR_L2 + 1) ≤ 8 * c.size := by omega
          rw [Prod.mk.injEq] at hok
          obtain ⟨-, hc1⟩ := hok
          subst hc1
          dsimp only
          have hpaylt : int2bin (i64ofU64 dd) CMPR_L2 < 2 ^ CMPR_L2 :=
            LSB_lt (by omega) _
          obtain ⟨hW1, hW2, hW3, hW4, hW5, hW6⟩ :=
            write2_spec c.data c.idx 3 3
              (int2bin (i64ofU64 dd) CMPR_L2) CMPR_L2
              (by omega) (by omega) (by norm_num) (by omega) (by omega) hpaylt
              (by omega) hzf
          refine ⟨rfl, rfl, rfl, rfl, rfl, rfl, rfl, rfl, rfl, hW2,
            appendBits_wf (appendBits_wf hbwf _ _ _) _ _ _,
            by rw [hW1]; omega, by rw [hW1]; omega, ?_, hW3, ?_⟩
          · rw [hW1]
            exact zeroBeyond_of_forall hW6
          · intro it hagree hidx2 hpts2 hpd2
            rw [hW1] at hagree ⊢
            have hpb : ∀ i, i < 3 → bitAt it.chunk.data (c.idx + i) = (3 : Nat).testBit i := by
              intro i hi
              rw [hagree _ (by omega) (by omega), hW4 i hi]
            have hread : (readBits it.chunk.data (c.idx + 3) CMPR_L2).1 =
                int2bin (i64ofU64 dd) CMPR_L2 := by
              apply readBits_eq_val (by omega) hpaylt
              intro i hi
              rw [hagree _ (by omega) (by omega)]
              exact hW5 i hi
            unfold readInteger
            dsimp only
            rw [hidx2]
            have h0 : bitAt it.chunk.data c.idx = (3 : Nat).testBit 0 := by
              have h00 := hpb 0 (by omega)
              rwa [Nat.add_zero] at h00
            have hq0 : Bins_bitoff it.chunk.data c.idx = false := by
              rw [Bins_bitoff_eq, h0]
              decide
            rw [if_neg (by simp [hq0])]
            have hq1 : Bins_bitoff it.chunk.data (c.idx + 1) = false := by
              rw [Bins_bitoff_eq, hpb 1 (by omega)]
              decide
            rw [if_neg (by simp [hq1])]
            have hq2 : Bins_bitoff it.chunk.data (c.idx + 2) = true := by
              rw [Bins_bitoff_eq, hpb 2 (by omega)]
              decide
            rw [if_pos hq2]
            rw [readBits_snd, hread]
            have hbin : bin2int (int2bin (i64ofU64 dd) CMPR_L2) CMPR_L2 = i64ofU64 dd := by
              rw [int2bin, intToU64_i64ofU64 hddlt, LSB_eq_mod (by omega)]
              exact bin2int_pattern (by omega) (by omega) hddlt hr2
            rw [hbin, intToU64_i64ofU64 hddlt, hpd2, hpts2]
            have hcan1 : (c.prevTimestampDelta + dd) % U64 = curDelta := by
              rw [hdd]
              exact u64sub_add_cancel hcdlt hpD
            rw [hcan1]
            have hcan2 : (c.prevTimestamp + curDelta) % U64 = t := by
              rw [hcur]
              exact u64sub_add_cancel ht hpT
            rw [hcan2]
      next hr2 =>
        split at hok
        next hr3 =>
          split at hok
          next hsp => simp at hok
          next hsp =>
            have hL : CMPR_L3 = 11 := rfl
            have hsp2 := space_of_not_false hsp
            have hroom : c.idx + (4 + CMPR_L3 + 1) ≤ 8 * c.size := by omega
            rw [Prod.mk.injEq] at hok
            obtain ⟨-, hc1⟩ := hok
            subst hc1
            dsimp only
            have hpaylt : int2bin (i64ofU64 dd) CMPR_L3 < 2 ^ CMPR_L3 :=
              LSB_lt (by omega) _
            obtain ⟨hW1, hW2, hW3, hW4, hW5, hW6⟩ :=
              write2_spec c.data c.idx 7 4
                (int2bin (i64ofU64 dd) CMPR_L3) CMPR_L3
                (by omega) (by omega) (by norm_num) (by omega) (by omega) hpaylt
                (by omega) hzf
            refine ⟨rfl, rfl, rfl, rfl, rfl, rfl, rfl, rfl, rfl, hW2,
              appendBits_wf (appendBits_wf hbwf _ _ _) _ _ _,
              by rw [hW1]; omega, by rw [hW1]; omega, ?_, hW3, ?_⟩
            · rw [hW1]
              exact zeroBeyond_of_forall hW6
            · intro it hagree hidx2 hpts2 hpd2
              rw [hW1] at hagree ⊢
              have hpb : ∀ i, i < 4 → bitAt it.chunk.data (c.idx + i) = (7 : Nat).testBit i := by
                intro i hi
                rw [hagree _ (by omega) (by omega), hW4 i hi]
              have hread : (readBits it.chunk.data (c.idx + 4) CMPR_L3).1 =
                  int2bin (i64ofU64 dd) CMPR_L3 := by
                apply readBits_eq_val (by omega) hpaylt
                intro i hi
                rw [hagree _ (by omega) (by omega)]
                exact hW5 i hi
              unfold readInteger
              dsimp only
              rw [hidx2]
              have h0 : bitAt it.chunk.data c.idx = (7 : Nat).testBit 0 := by
                have h00 := hpb 0 (by omega)
                rwa [Nat.add_zero] at h00
              have hq0 : Bins_bitoff it.chunk.data c.idx = false := by
                rw [Bins_bitoff_eq, h0]
                decide
              rw [if_neg (by simp [hq0])]
              have hq1 : Bins_bitoff it.chunk.data (c.idx + 1) = false := by
                rw [Bins_bitoff_eq, hpb 1 (by omega)]
                decide
              rw [if_neg (by simp [hq1])]
              have hq2 : Bins_bitoff it.chunk.data (c.idx + 2) = false := by
                rw [Bins_bitoff_eq, hpb 2 (by omega)]
                decide
              rw [if_neg (by simp [hq2])]
              have hq3 : Bins_bitoff it.chunk.data (c.idx + 3) = true := by
                rw [Bins_bitoff_eq, hpb 3 (by omega)]
                decide
              rw [if_pos hq3]
              rw [readBits_snd, hread]
              have hbin : bin2int (int2bin (i64ofU64 dd) CMPR_L3) CMPR_L3 = i64ofU64 dd := by
                rw [int2bin, intToU64_i64ofU64 hddlt, LSB_eq_mod (by omega)]
                exact bin2int_pattern (by omega) (by omega) hddlt hr3
              rw [hbin, intToU64_i64ofU64 hddlt, hpd2, hpts2]
              have hcan1 : (c.prevTimestampDelta + dd) % U64 = curDelta := by
                rw [hdd]
                exact u64sub_add_cancel hcdlt hpD
              rw [hcan1]
              have hcan2 : (c.prevTimestamp + curDelta) % U64 = t := by
                rw [hcur]
                exact u64sub_add_cancel ht hpT
              rw [hcan2]
        next hr3 =>
          split at hok
          next hr4 =>
            split at hok
            next hsp => simp at hok
            next hsp =>
              have hL : CMPR_L4 = 15 := rfl
              have hsp2 := space_of_not_false hsp
              have hroom : c.idx + (5 + CMPR_L4 + 1) ≤ 8 * c.size := by omega
              rw [Prod.mk.injEq] at hok
              obtain ⟨-, hc1⟩ := hok
              subst hc1
              dsimp only
              have hpaylt : int2bin (i64ofU64 dd) CMPR_L4 < 2 ^ CMPR_L4 :=
                LSB_lt (by omega) _
              obtain ⟨hW1, hW2, hW3, hW4, hW5, hW6⟩ :=
                write2_spec c.data c.idx 15 5
                  (int2bin (i64ofU64 dd) CMPR_L4) CMPR_L4
                  (by omega) (by omega) (by norm_num) (by omega) (by omega) hpaylt
                  (by omega) hzf
              refine ⟨rfl, rfl, rfl, rfl, rfl, rfl, rfl, rfl, rfl, hW2,
                appendBits_wf (appendBits_wf hbwf _ _ _) _ _ _,
                by rw [hW1]; omega, by rw [hW1]; omega, ?_, hW3, ?_⟩
              · rw [hW1]
                exact zeroBeyond_of_forall hW6
              · intro it hagree hidx2 hpts2 hpd2
                rw [hW1] at hagree ⊢
                have hpb : ∀ i, i < 5 → bitAt it.chunk.data (c.idx + i) = (15 : Nat).testBit i := by
                  intro i hi
                  rw [hagree _ (by omega) (by omega), hW4 i hi]
                have hread : (readBits it.chunk.data (c.idx + 5) CMPR_L4).1 =
                    int2bin (i64ofU64 dd) CMPR_L4 := by
                  apply readBits_eq_val (by omega) hpaylt
                  intro i hi
                  rw [hagree _ (by omega) (by omega)]
                  exact hW5 i hi
                unfold readInteger
                dsimp only
                rw [hidx2]
                have h0 : bitAt it.chunk.data c.idx = (15 : Nat).testBit 0 := by
                  have h00 := hpb 0 (by omega)
                  rwa [Nat.add_zero] at h00
                have hq0 : Bins_bitoff it.chunk.data c.idx = false := by
                  rw [Bins_bitoff_eq, h0]
                  decide
                rw [if_neg (by simp [hq0])]
                have hq1 : Bins_bitoff it.chunk.data (c.idx + 1) = false := by
                  rw [Bins_bitoff_eq, hpb 1 (by omega)]
                  decide
                rw [if_neg (by simp [hq1])]
                have hq2 : Bins_bitoff it.chunk.data (c.idx + 2) = false := by
                  rw [Bins_bitoff_eq, hpb 2 (by omega)]
                  decide
                rw [if_neg (by simp [hq2])]
                have hq3 : Bins_bitoff it.chunk.data (c.idx + 3) = false := by
                  rw [Bins_bitoff_eq, hpb 3 (by omega)]
                  decide
                rw [if_neg (by simp [hq3])]
                have hq4 : Bins_bitoff it.chunk.data (c.idx + 4) = true := by
                  rw [Bins_bitoff_eq, hpb 4 (by omega)]
                  decide
                rw [if_pos hq4]
                rw [readBits_snd, hread]
                have hbin : bin2int (int2bin (i64ofU64 dd) CMPR_L4) CMPR_L4 = i64ofU64 dd := by
                  rw [int2bin, intToU64_i64ofU64 hddlt, LSB_eq_mod (by omega)]
                  exact bin2int_pattern (by omega) (by omega) hddlt hr4
                rw [hbin, intToU64_i64ofU64 hddlt, hpd2, hpts2]
                have hcan1 : (c.prevTimestampDelta + dd) % U64 = curDelta := by
                  rw [hdd]
                  exact u64sub_add_cancel hcdlt hpD
                rw [hcan1]
                have hcan2 : (c.prevTimestamp + curDelta) % U64 = t := by
                  rw [hcur]
                  exact u64sub_add_cancel ht hpT
                rw [hcan2]
          next hr4 =>
            split at hok
            next hr5 =>
              split at hok
              next hsp => simp at hok
              next hsp =>
                have hL : CMPR_L5 = 32 := rfl
                have hsp2 := space_of_not_false hsp
                have hroom : c.idx + (6 + CMPR_L5 + 1) ≤ 8 * c.size := by omega
                rw [Prod.mk.injEq] at hok
                obtain ⟨-, hc1⟩ := hok
                subst hc1
                dsimp only
                have hpaylt : int2bin (i64ofU64 dd) CMPR_L5 < 2 ^ CMPR_L5 :=
                  LSB_lt (by omega) _
                obtain ⟨hW1, hW2, hW3, hW4, hW5, hW6⟩ :=
                  write2_spec c.data c.idx 31 6
                    (int2bin (i64ofU64 dd) CMPR_L5) CMPR_L5
                    (by omega) (by omega) (by norm_num) (by omega) (by omega) hpaylt
                    (by omega) hzf
                refine ⟨rfl, rfl, rfl, rfl, rfl, rfl, rfl, rfl, rfl, hW2,
                  appendBits_wf (appendBits_wf hbwf _ _ _) _ _ _,
                  by rw [hW1]; omega, by rw [hW1]; omega, ?_, hW3, ?_⟩
                · rw [hW1]
                  exact zeroBeyond_of_forall hW6
                · intro it hagree hidx2 hpts2 hpd2
                  rw [hW1] at hagree ⊢
                  have hpb : ∀ i, i < 6 → bitAt it.chunk.data (c.idx + i) = (31 : Nat).testBit i := by
                    intro i hi
                    rw [hagree _ (by omega) (by omega), hW4 i hi]
                  have hread : (readBits it.chunk.data (c.idx + 6) CMPR_L5).1 =
                      int2bin (i64ofU64 dd) CMPR_L5 := by
                    apply readBits_eq_val (by omega) hpaylt
                    intro i hi
                    rw [hagree _ (by omega) (by omega)]
                    exact hW5 i hi
                  unfold readInteger
                  dsimp only
                  rw [hidx2]
                  have h0 : bitAt it.chunk.data c.idx = (31 : Nat).testBit 0 := by
                    have h00 := hpb 0 (by omega)
                    rwa [Nat.add_zero] at h00
                  have hq0 : Bins_bitoff it.chunk.data c.idx = false := by
                    rw [Bins_bitoff_eq, h0]
                    decide
                  rw [if_neg (by simp [hq0])]
                  have hq1 : Bins_bitoff it.chunk.data (c.idx + 1) = false := by
                    rw [Bins_bitoff_eq, hpb 1 (by omega)]
                    decide
                  rw [if_neg (by simp [hq1])]
                  have hq2 : Bins_bitoff it.chunk.data (c.idx + 2) = false := by
                    rw [Bins_bitoff_eq, hpb 2 (by omega)]
                    decide
                  rw [if_neg (by simp [hq2])]
                  have hq3 : Bins_bitoff it.chunk.data (c.idx + 3) = false := by
                    rw [Bins_bitoff_eq, hpb 3 (by omega)]
                    decide
                  rw [if_neg (by simp [hq3])]
                  have hq4 : Bins_bitoff it.chunk.data (c.idx + 4) = false := by
                    rw [Bins_bitoff_eq, hpb 4 (by omega)]
                    decide
                  rw [if_neg (by simp [hq4])]
                  have hq5 : Bins_bitoff it.chunk.data (c.idx + 5) = true := by
                    rw [Bins_bitoff_eq, hpb 5 (by omega)]
                    decide
                  rw [if_pos hq5]
                  rw [readBits_snd, hread]
                  have hbin : bin2int (int2bin (i64ofU64 dd) CMPR_L5) CMPR_L5 = i64ofU64 dd := by
                    rw [int2bin, intToU64_i64ofU64 hddlt, LSB_eq_mod (by omega)]
                    exact bin2int_pattern (by omega) (by omega) hddlt hr5
                  rw [hbin, intToU64_i64ofU64 hddlt, hpd2, hpts2]
                  have hcan1 : (c.prevTimestampDelta + dd) % U64 = curDelta := by
                    rw [hdd]
                    exact u64sub_add_cancel hcdlt hpD
                  rw [hcan1]
                  have hcan2 : (c.prevTimestamp + curDelta) % U64 = t := by
                    rw [hcur]
                    exact u64sub_add_cancel ht hpT
                  rw [hcan2]
            next hr5 =>
              split at hok
              next hsp => simp at hok
              next hsp =>
                have hsp2 := space_of_not_false hsp
                have hroom : c.idx + (6 + 64 + 1) ≤ 8 * c.size := by omega
                rw [Prod.mk.injEq] at hok
                obtain ⟨-, hc1⟩ := hok
                subst hc1
                dsimp only
                have hpaylt : dd < 2 ^ 64 := hU ▸ hddlt
                obtain ⟨hW1, hW2, hW3, hW4, hW5, hW6⟩ :=
                  write2_spec c.data c.idx 63 6
                    dd 64
                    (by omega) (by omega) (by norm_num) (by omega) (by omega) hpaylt
                    (by omega) hzf
                refine ⟨rfl, rfl, rfl, rfl, rfl, rfl, rfl, rfl, rfl, hW2,
                  appendBits_wf (appendBits_wf hbwf _ _ _) _ _ _,
                  by rw [hW1]; omega, by rw [hW1]; omega, ?_, hW3, ?_⟩
                · rw [hW1]
                  exact zeroBeyond_of_forall hW6
                · intro it hagree hidx2 hpts2 hpd2
                  rw [hW1] at hagree ⊢
                  have hpb : ∀ i, i < 6 → bitAt it.chunk.data (c.idx + i) = (63 : Nat).testBit i := by
                    intro i hi
                    rw [hagree _ (by omega) (by omega), hW4 i hi]
                  have hread : (readBits it.chunk.data (c.idx + 6) 64).1 = dd := by
                    apply readBits_eq_val (by omega) hpaylt
                    intro i hi
                    rw [hagree _ (by omega) (by omega)]
                    exact hW5 i hi
                  unfold readInteger
                  dsimp only
                  rw [hidx2]
                  have h0 : bitAt it.chunk.data c.idx = (63 : Nat).testBit 0 := by
                    have h00 := hpb 0 (by omega)
                    rwa [Nat.add_zero] at h00
                  have hq0 : Bins_bitoff it.chunk.data c.idx = false := by
                    rw [Bins_bitoff_eq, h0]
                    decide
                  rw [if_neg (by simp [hq0])]
                  have hq1 : Bins_bitoff it.chunk.data (c.idx + 1) = false := by
                    rw [Bins_bitoff_eq, hpb 1 (by omega)]
                    decide
                  rw [if_neg (by simp [hq1])]
                  have hq2 : Bins_bitoff it.chunk.data (c.idx + 2) = false := by
                    rw [Bins_bitoff_eq, hpb 2 (by omega)]
                    decide
                  rw [if_neg (by simp [hq2])]
                  have hq3 : Bins_bitoff it.chunk.data (c.idx + 3) = false := by
                    rw [Bins_bitoff_eq, hpb 3 (by omega)]
                    decide
                  rw [if_neg (by simp [hq3])]
                  have hq4 : Bins_bitoff it.chunk.data (c.idx + 4) = false := by
                    rw [Bins_bitoff_eq, hpb 4 (by omega)]
                    decide
                  rw [if_neg (by simp [hq4])]
                  have hq5 : Bins_bitoff it.chunk.data (c.idx + 5) = false := by
                    rw [Bins_bitoff_eq, hpb 5 (by omega)]
                    decide
                  rw [if_neg (by simp [hq5])]
                  rw [readBits_snd, hread]
                  rw [intToU64_i64ofU64 hddlt, hpd2, hpts2]
                  have hcan1 : (c.prevTimestampDelta + dd) % U64 = curDelta := by
                    rw [hdd]
                    exact u64sub_add_cancel hcdlt hpD
                  rw [hcan1]
                  have hcan2 : (c.prevTimestamp + curDelta) % U64 = t := by
                    rw [hcur]
                    exact u64sub_add_cancel ht hpT
                  rw [hcan2]


theorem xor_cancel_nat (a b : Nat) : (a ^^^ b) ^^^ b = a := by
  rw [Nat.xor_assoc, Nat.xor_self, Nat.xor_zero]

theorem xor_eq_zero_nat {a b : Nat} (h : a ^^^ b = 0) : a = b := by
  have := congrArg (fun n => n ^^^ b) h
  simpa [xor_cancel_nat] using this

/-- Everything established by a successful `appendFloat`, including exact
decodability of the written bits by `readFloat` from any buffer that agrees
with the written region.  Needs one reserved bit (`c.idx < 8 * c.size`),
guaranteed by the preceding `appendInteger` space checks. -/
theorem appendFloat_ok_spec {c : CompressedChunk} {v : Nat}
    (hv : v < U64) (hpV : c.prevValue < U64)
    (hplt : c.prevLeading + c.prevTrailing ≤ 63)
    (hidx : c.idx < 8 * c.size)
    (hsz : 8 * c.size ≤ 64 * c.data.length)
    (hbwf : binsWF c.data)
    (hzb : ZeroBeyond c.data c.idx)
    {c2 : CompressedChunk} (hok : appendFloat c v = (CR_OK, c2)) :
    c2.size = c.size ∧ c2.numSamples = c.numSamples ∧
    c2.baseTimestamp = c.baseTimestamp ∧ c2.baseValue = c.baseValue ∧
    c2.prevTimestamp = c.prevTimestamp ∧
    c2.prevTimestampDelta = c.prevTimestampDelta ∧
    c2.prevValue = v ∧ c2.prevLeading + c2.prevTrailing ≤ 63 ∧
    c2.data.length = c.data.length ∧ binsWF c2.data ∧
    c.idx < c2.idx ∧ c2.idx ≤ 8 * c.size ∧
    ZeroBeyond c2.data c2.idx ∧
    (∀ p, p < c.idx → bitAt c2.data p = bitAt c.data p) ∧
    ∀ (it : Compressed_Iterator),
      (∀ q, c.idx ≤ q → q < c2.idx → bitAt it.chunk.data q = bitAt c2.data q) →
      it.idx = c.idx → it.prevValue = c.prevValue →
      it.prevLeading = c.prevLeading → it.prevTrailing = c.prevTrailing →
      readFloat it =
        (v, { it with
              idx := c2.idx, prevValue := v,
              prevLeading := c2.prevLeading, prevTrailing := c2.prevTrailing }) := by
  have hU : U64 = 2 ^ 64 := rfl
  have hzf : ∀ q, c.idx ≤ q → bitAt c.data q = false := fun q hq => hzb.bit hq
  unfold appendFloat at hok
  dsimp only at hok
  set xorv := v ^^^ c.prevValue with hxv
  have hxlt : xorv < U64 := by
    rw [hxv, hU]
    exact Nat.xor_lt_two_pow (hU ▸ hv) (hU ▸ hpV)
  split at hok
  next hxz =>
    -- XOR is zero: a single 0 bit
    have hveq : v = c.prevValue := xor_eq_zero_nat (hxv ▸ hxz)
    rw [Prod.mk.injEq] at hok
    obtain ⟨-, hc2⟩ := hok
    subst hc2
    dsimp only
    obtain ⟨hlo1, hbits1, hhi1⟩ :=
      appendBits_zero_spec c.data c.idx (by omega) (by omega)
        (by norm_num : (0:Nat) < 2 ^ 1) (by omega) hzf
    have hsnd : (appendBits c.data c.idx 0 1).2 = c.idx + 1 := appendBits_snd _ _ _ _
    refine ⟨rfl, rfl, rfl, rfl, rfl, rfl, hveq.symm, hplt, appendBits_length _ _ _ _,
      appendBits_wf hbwf _ _ _, by rw [hsnd]; omega, by rw [hsnd]; omega, ?_, hlo1, ?_⟩
    · rw [hsnd]
      exact zeroBeyond_of_forall hhi1
    · intro it hagree hidx2 hv2 hpl2 hpt2
      rw [hsnd] at hagree ⊢
      have h0 : bitAt it.chunk.data c.idx = false := by
        rw [hagree _ le_rfl (by omega)]
        have h00 := hbits1 0 (by omega)
        rw [Nat.add_zero] at h00
        rw [h00]
        decide
      unfold readFloat
      dsimp only
      rw [hidx2]
      have hq0 : Bins_bitoff it.chunk.data c.idx = true := by
        rw [Bins_bitoff_eq, h0]
        rfl
      rw [if_pos hq0]
      rw [hv2, ← hveq, ← hpl2, ← hpt2]
  next hxnz =>
    -- value changed: the control bit is written before the branch
    have hxne : xorv ≠ 0 := hxnz
    obtain ⟨hclz, hxbound, hxlow⟩ := clz64_spec hxne hxlt
    obtain ⟨hctzdvd, hctzle⟩ := ctz64_spec hxne hxlt
    have hsum63 : clz64 xorv + ctz64 xorv ≤ 63 := clz_add_ctz_le hxne hxlt
    obtain ⟨hc0lo, hc0bits, hc0hi⟩ :=
      appendBits_zero_spec c.data c.idx (by omega) (by omega)
        (by norm_num : (1:Nat) < 2 ^ 1) (by omega) hzf
    have hs0 : (appendBits c.data c.idx 1 1).2 = c.idx + 1 := appendBits_snd _ _ _ _
    have hs0len : (appendBits c.data c.idx 1 1).1.length = c.data.length :=
      appendBits_length _ _ _ _
    set leading := if clz64 xorv > 31 then 31 else clz64 xorv with hlead
    have hlead_le : leading ≤ clz64 xorv := by
      rw [hlead]
      split <;> omega
    have hlead31 : leading ≤ 31 := by
      rw [hlead]
      split <;> omega
    set trailing := ctz64 xorv with htrail
    have hlt63 : leading + trailing ≤ 63 := by
      rw [htrail]
      omega
    have hxb2 : xorv < 2 ^ (64 - leading) :=
      lt_of_lt_of_le hxbound (Nat.pow_le_pow_right (by norm_num) (by omega))
    split at hok
    next hcond =>
      -- reuse the previous window
      obtain ⟨hrl, hrt, hrs⟩ := hcond
      split at hok
      next hsp => simp at hok
      next hsp =>
        have hsp2 := space_of_not_false hsp
        dsimp only at hsp2
        rw [hs0] at hsp2
        have hpay : xorv >>> c.prevTrailing <
            2 ^ (64 - c.prevLeading - c.prevTrailing) := by
          have h1 : xorv < 2 ^ (64 - c.prevLeading) :=
            lt_of_lt_of_le hxb2 (Nat.pow_le_pow_right (by norm_num) (by omega))
          have h2 := shr_lt h1 (by omega : c.prevTrailing ≤ 64 - c.prevLeading)
          have e : 64 - c.prevLeading - c.prevTrailing =
              64 - c.prevLeading - c.prevTrailing := rfl
          have e2 : (64 - c.prevLeading) - c.prevTrailing =
              64 - c.prevLeading - c.prevTrailing := rfl
          rw [e2] at h2
          exact h2
        rw [Prod.mk.injEq] at hok
        obtain ⟨-, hc2⟩ := hok
        subst hc2
        dsimp only
        rw [hs0]
        obtain ⟨hW1, hW2, hW3, hW4, hW5, hW6⟩ :=
          write2_spec (appendBits c.data c.idx 1 1).1 (c.idx + 1)
            0 1 (xorv >>> c.prevTrailing)
            (64 - c.prevLeading - c.prevTrailing)
            (by omega) (by omega) (by norm_num) (by omega) (by omega) hpay
            (by rw [hs0len]; omega) hc0hi
        refine ⟨rfl, rfl, rfl, rfl, rfl, rfl, rfl, hplt, by rw [hW2, hs0len],
          appendBits_wf (appendBits_wf (appendBits_wf hbwf _ _ _) _ _ _) _ _ _,
          by rw [hW1]; omega, by rw [hW1]; omega, ?_, ?_, ?_⟩
        · rw [hW1]
          exact zeroBeyond_of_forall hW6
        · intro p hp
          rw [hW3 p (by omega)]
          exact hc0lo p hp
        · intro it hagree hidx2 hv2 hpl2 hpt2
          rw [hW1] at hagree ⊢
          have hb0 : bitAt it.chunk.data c.idx = true := by
            rw [hagree _ le_rfl (by omega), hW3 _ (by omega)]
            have h00 := hc0bits 0 (by omega)
            rw [Nat.add_zero] at h00
            rw [h00]
            decide
          have hb1 : bitAt it.chunk.data (c.idx + 1) = false := by
            rw [hagree _ (by omega) (by omega)]
            have h01 := hW4 0 (by omega)
            rw [Nat.add_zero] at h01
            rw [h01]
            decide
          have hread : (readBits it.chunk.data (c.idx + 1 + 1)
              (64 - c.prevLeading - c.prevTrailing)).1 = xorv >>> c.prevTrailing := by
            apply readBits_eq_val (by omega) hpay
            intro i hi
            rw [hagree _ (by omega) (by omega)]
            exact hW5 i hi
          unfold readFloat
          dsimp only
          rw [hidx2]
          have hq0 : Bins_bitoff it.chunk.data c.idx = false := by
            rw [Bins_bitoff_eq, hb0]
            rfl
          rw [if_neg (by simp [hq0])]
          have hq1 : Bins_bitoff it.chunk.data (c.idx + 1) = true := by
            rw [Bins_bitoff_eq, hb1]
            rfl
          rw [if_pos hq1]
          rw [hpl2, hpt2]
          have e2 : c.idx + 2 = c.idx + 1 + 1 := by omega
          rw [e2, hread, readBits_snd]
          have hxrec : ((xorv >>> c.prevTrailing) <<< c.prevTrailing) % U64 = xorv := by
            rw [shr_shl_cancel (mod_pow_eq_zero_of_le hctzdvd (by omega))]
            exact Nat.mod_eq_of_lt hxlt
          rw [hxrec, hv2]
          have hrv : xorv ^^^ c.prevValue = v := by
            rw [hxv]
            exact xor_cancel_nat v c.prevValue
          rw [hrv, ← hpl2, ← hpt2]
    next hcond =>
      -- emit a fresh window
      split at hok
      next hsp => simp at hok
      next hsp =>
        have hDL : DOUBLE_LEADING = 5 := rfl
        have hDB : DOUBLE_BLOCK_SIZE = 6 := rfl
        have hDA : DOUBLE_BLOCK_ADJUST = 1 := rfl
        have hsp2 := space_of_not_false hsp
        dsimp only at hsp2
        rw [hs0] at hsp2
        have hpay : xorv >>> trailing < 2 ^ (64 - leading - trailing) :=
          shr_lt hxb2 (by omega)
        rw [Prod.mk.injEq] at hok
        obtain ⟨-, hc2⟩ := hok
        subst hc2
        dsimp only
        rw [hs0]
        obtain ⟨hA1, hA2, hA3, hA4, hA5, hA6⟩ :=
          write2_spec (appendBits c.data c.idx 1 1).1 (c.idx + 1)
            1 1 leading DOUBLE_LEADING
            (by omega) (by omega) (by norm_num)
            (by omega) (by omega)
            (by have h32 : (2:Nat) ^ DOUBLE_LEADING = 32 := rfl; omega)
            (by rw [hs0len]; omega) hc0hi
        have hs1 : (appendBits (appendBits c.data c.idx 1 1).1 (c.idx + 1) 1 1).2 =
            c.idx + 1 + 1 := appendBits_snd _ _ _ _
        rw [hs1] at hA1 hA2 hA3 hA4 hA5 hA6 ⊢
        rw [hA1]
        have hAlen : (appendBits (appendBits (appendBits c.data c.idx 1 1).1
            (c.idx + 1) 1 1).1 (c.idx + 1 + 1) leading DOUBLE_LEADING).1.length =
            c.data.length := by
          rw [appendBits_length, appendBits_length, hs0len]
        obtain ⟨hB1, hB2, hB3, hB4, hB5, hB6⟩ :=
          write2_spec (appendBits (appendBits (appendBits c.data c.idx 1 1).1
              (c.idx + 1) 1 1).1 (c.idx + 1 + 1) leading DOUBLE_LEADING).1
            (c.idx + 1 + 1 + DOUBLE_LEADING)
            (64 - leading - trailing - DOUBLE_BLOCK_ADJUST)
            DOUBLE_BLOCK_SIZE
            (xorv >>> trailing) (64 - leading - trailing)
            (by omega) (by omega)
            (by have h64 : (2:Nat) ^ DOUBLE_BLOCK_SIZE = 64 := rfl; omega)
            (by omega) (by omega) hpay
            (by rw [hAlen]; omega) hA6
        refine ⟨rfl, rfl, rfl, rfl, rfl, rfl, rfl, by omega,
          by rw [hB2, hAlen],
          appendBits_wf (appendBits_wf (appendBits_wf (appendBits_wf (appendBits_wf
            hbwf _ _ _) _ _ _) _ _ _) _ _ _) _ _ _,
          by rw [hB1]; omega, by rw [hB1]; omega, ?_, ?_, ?_⟩
        · rw [hB1]
          exact zeroBeyond_of_forall hB6
        · intro p hp
          rw [hB3 p (by omega), hA3 p (by omega)]
          exact hc0lo p hp
        · intro it hagree hidx2 hv2 hpl2 hpt2
          rw [hB1] at hagree ⊢
          have hbit0 : bitAt it.chunk.data c.idx = true := by
            rw [hagree _ le_rfl (by omega), hB3 _ (by omega), hA3 _ (by omega)]
            have h00 := hc0bits 0 (by omega)
            rw [Nat.add_zero] at h00
            rw [h00]
            decide
          have hbit1 : bitAt it.chunk.data (c.idx + 1) = true := by
            rw [hagree _ (by omega) (by omega), hB3 _ (by omega)]
            have h01 := hA4 0 (by omega)
            rw [Nat.add_zero] at h01
            rw [h01]
            decide
          have hreadL : (readBits it.chunk.data (c.idx + 2) DOUBLE_LEADING).1 =
              leading := by
            apply readBits_eq_val (by omega)
              (by have h32 : (2:Nat) ^ DOUBLE_LEADING = 32 := rfl; omega)
            intro i hi
            have e : c.idx + 2 + i = c.idx + 1 + 1 + i := by omega
            rw [e, hagree _ (by omega) (by omega), hB3 _ (by omega)]
            exact hA5 i hi
          have hreadB : (readBits it.chunk.data (c.idx + 2 + DOUBLE_LEADING)
              DOUBLE_BLOCK_SIZE).1 = 64 - leading - trailing - DOUBLE_BLOCK_ADJUST := by
            apply readBits_eq_val (by omega)
              (by have h64 : (2:Nat) ^ DOUBLE_BLOCK_SIZE = 64 := rfl; omega)
            intro i hi
            have e : c.idx + 2 + DOUBLE_LEADING + i =
                c.idx + 1 + 1 + DOUBLE_LEADING + i := by omega
            rw [e, hagree _ (by omega) (by omega)]
            exact hB4 i hi
          have hreadP : (readBits it.chunk.data
              (c.idx + 2 + DOUBLE_LEADING + DOUBLE_BLOCK_SIZE)
              (64 - leading - trailing)).1 = xorv >>> trailing := by
            apply readBits_eq_val (by omega) hpay
            intro i hi
            have e : c.idx + 2 + DOUBLE_LEADING + DOUBLE_BLOCK_SIZE + i =
                c.idx + 1 + 1 + DOUBLE_LEADING + DOUBLE_BLOCK_SIZE + i := by omega
            rw [e, hagree _ (by omega) (by omega)]
            exact hB5 i hi
          unfold readFloat
          dsimp only
          rw [hidx2]
          have hq0 : Bins_bitoff it.chunk.data c.idx = false := by
            rw [Bins_bitoff_eq, hbit0]
            rfl
          rw [if_neg (by simp [hq0])]
          have hq1 : Bins_bitoff it.chunk.data (c.idx + 1) = false := by
            rw [Bins_bitoff_eq, hbit1]
            rfl
          rw [if_neg (by simp [hq1])]
          have hsn1 : (readBits it.chunk.data (c.idx + 2) DOUBLE_LEADING).2 =
              c.idx + 2 + DOUBLE_LEADING := readBits_snd _ _ _
          rw [hsn1, hreadL]
          have hsn2 : (readBits it.chunk.data (c.idx + 2 + DOUBLE_LEADING)
              DOUBLE_BLOCK_SIZE).2 = c.idx + 2 + DOUBLE_LEADING + DOUBLE_BLOCK_SIZE :=
            readBits_snd _ _ _
          rw [hsn2, hreadB]
          have hbs : 64 - leading - trailing - DOUBLE_BLOCK_ADJUST +
              DOUBLE_BLOCK_ADJUST = 64 - leading - trailing := by omega
          rw [hbs]
          have htr : 64 - leading - (64 - leading - trailing) = trailing := by omega
          rw [htr]
          rw [hreadP]
          have hsn3 : (readBits it.chunk.data
              (c.idx + 2 + DOUBLE_LEADING + DOUBLE_BLOCK_SIZE)
              (64 - leading - trailing)).2 =
              c.idx + 2 + DOUBLE_LEADING + DOUBLE_BLOCK_SIZE +
                (64 - leading - trailing) := readBits_snd _ _ _
          rw [hsn3]
          have hshl : ((xorv >>> trailing) <<< trailing) % U64 = xorv := by
            rw [shr_shl_cancel hctzdvd]
            exact Nat.mod_eq_of_lt hxlt
          rw [hshl, hv2]
          have hrv : xorv ^^^ c.prevValue = v := by
            rw [hxv]
            exact xor_cancel_nat v c.prevValue
          rw [hrv]

/-- Shape facts about any `appendInteger` call: header fields and the value
codec state are untouched, the cursor never moves backward, bits below the old
cursor are preserved, and the buffer is only ever OR-modified. -/
theorem appendInteger_shape (c : CompressedChunk) (t : Nat) :
    (appendInteger c t).2.numSamples = c.numSamples ∧
    (appendInteger c t).2.size = c.size ∧
    (appendInteger c t).2.baseTimestamp = c.baseTimestamp ∧
    (appendInteger c t).2.baseValue = c.baseValue ∧
    (appendInteger c t).2.prevValue = c.prevValue ∧
    (appendInteger c t).2.prevLeading = c.prevLeading ∧
    (appendInteger c t).2.prevTrailing = c.prevTrailing ∧
    c.idx ≤ (appendInteger c t).2.idx ∧
    (∀ p, p < c.idx → bitAt (appendInteger c t).2.data p = bitAt c.data p) ∧
    (∀ p, bitAt c.data p = true → bitAt (appendInteger c t).2.data p = true) := by
  refine ⟨?_, ?_, ?_, ?_, ?_, ?_, ?_, ?_, ?_, ?_⟩
  all_goals unfold appendInteger
  all_goals try intro p hp
  all_goals dsimp only
  all_goals repeat' split
  all_goals try dsimp only
  all_goals
    first
    | rfl
    | exact hp
    | exact le_refl _
    | (simp only [appendBits_snd]
       omega)
    | (rw [appendBits_bitAt_lo _ _ _ _ (by simp only [appendBits_snd]; omega),
        appendBits_bitAt_lo _ _ _ _ hp])
    | (rw [appendBits_bitAt_lo _ _ _ _ hp])
    | exact appendBits_mono _ _ _ _ (appendBits_mono _ _ _ _ hp)
    | exact appendBits_mono _ _ _ _ hp

/-- Shape facts about a failing `appendFloat`: only the 1-bit value flag was
written (before the space check); every rolling field is untouched. -/
theorem appendFloat_err_shape {c : CompressedChunk} {v : Nat}
    (h : (appendFloat c v).1 = CR_ERR) :
    (appendFloat c v).2.numSamples = c.numSamples ∧
    (appendFloat c v).2.size = c.size ∧
    (appendFloat c v).2.baseTimestamp = c.baseTimestamp ∧
    (appendFloat c v).2.baseValue = c.baseValue ∧
    (appendFloat c v).2.prevTimestamp = c.prevTimestamp ∧
    (appendFloat c v).2.prevTimestampDelta = c.prevTimestampDelta ∧
    (appendFloat c v).2.prevValue = c.prevValue ∧
    (appendFloat c v).2.prevLeading = c.prevLeading ∧
    (appendFloat c v).2.prevTrailing = c.prevTrailing ∧
    c.idx ≤ (appendFloat c v).2.idx ∧
    (∀ p, p < c.idx → bitAt (appendFloat c v).2.data p = bitAt c.data p) ∧
    (∀ p, bitAt c.data p = true → bitAt (appendFloat c v).2.data p = true) := by
  unfold appendFloat at h ⊢
  dsimp only at h ⊢
  split at h
  next hxz => simp at h
  next hxz =>
    rw [if_neg hxz]
    split
    next hclamp =>
      rw [if_pos hclamp] at h
      split
      next hcond =>
        split
        next hsp =>
          refine ⟨rfl, rfl, rfl, rfl, rfl, rfl, rfl, rfl, rfl, ?_, ?_, ?_⟩
          · dsimp only
            simp only [appendBits_snd]
            omega
          · intro p hp
            dsimp only
            rw [appendBits_bitAt_lo _ _ _ _ hp]
          · exact fun p hp => appendBits_mono _ _ _ _ hp
        next hsp =>
          rw [if_pos hcond, if_neg hsp] at h
          simp at h
      next hcond =>
        split
        next hsp =>
          refine ⟨rfl, rfl, rfl, rfl, rfl, rfl, rfl, rfl, rfl, ?_, ?_, ?_⟩
          · dsimp only
            simp only [appendBits_snd]
            omega
          · intro p hp
            dsimp only
            rw [appendBits_bitAt_lo _ _ _ _ hp]
          · exact fun p hp => appendBits_mono _ _ _ _ hp
        next hsp =>
          rw [if_neg hcond, if_neg hsp] at h
          simp at h
    next hclamp =>
      rw [if_neg hclamp] at h
      split
      next hcond =>
        split
        next hsp =>
          refine ⟨rfl, rfl, rfl, rfl, rfl, rfl, rfl, rfl, rfl, ?_, ?_, ?_⟩
          · dsimp only
            simp only [appendBits_snd]
            omega
          · intro p hp
            dsimp only
            rw [appendBits_bitAt_lo _ _ _ _ hp]
          · exact fun p hp => appendBits_mono _ _ _ _ hp
        next hsp =>
          rw [if_pos hcond, if_neg hsp] at h
          simp at h
      next hcond =>
        split
        next hsp =>
          refine ⟨rfl, rfl, rfl, rfl, rfl, rfl, rfl, rfl, rfl, ?_, ?_, ?_⟩
          · dsimp only
            simp only [appendBits_snd]
            omega
          · intro p hp
            dsimp only
            rw [appendBits_bitAt_lo _ _ _ _ hp]
          · exact fun p hp => appendBits_mono _ _ _ _ hp
        next hsp =>
          rw [if_neg hcond, if_neg hsp] at h
          simp at h

/-- The first append only fills the header. -/
theorem Compressed_Append_first {c : CompressedChunk} (t v : Nat)
    (h0 : c.numSamples = 0) :
    Compressed_Append c t v =
      (CR_OK, { c with
                baseValue := v, prevValue := v, baseTimestamp := t,
                prevTimestamp := t, prevTimestampDelta := 0,
                numSamples := c.numSamples + 1 }) := by
  unfold Compressed_Append
  rw [if_pos h0]

/-- A successful non-first `Compressed_Append` preserves well-formedness and
its written region decodes, via `readInteger` then `readFloat`, to exactly
the appended sample, from any buffer agreeing on the written region. -/
theorem Compressed_Append_ok_spec {c : CompressedChunk} {t v : Nat}
    (hwf : ChunkWF c) (hns : c.numSamples ≠ 0) (ht : t < U64) (hv : v < U64)
    {c' : CompressedChunk} (hok : Compressed_Append c t v = (CR_OK, c')) :
    ChunkWF c' ∧
    c'.size = c.size ∧ c'.numSamples = c.numSamples + 1 ∧
    c'.baseTimestamp = c.baseTimestamp ∧ c'.baseValue = c.baseValue ∧
    c'.data.length = c.data.length ∧
    c'.prevTimestamp = t ∧ c'.prevValue = v ∧
    c.idx < c'.idx ∧
    (∀ p, p < c.idx → bitAt c'.data p = bitAt c.data p) ∧
    ∀ (it : Compressed_Iterator),
      (∀ q, c.idx ≤ q → q < c'.idx → bitAt it.chunk.data q = bitAt c'.data q) →
      it.idx = c.idx → it.prevTS = c.prevTimestamp →
      it.prevDelta = c.prevTimestampDelta → it.prevValue = c.prevValue →
      it.prevLeading = c.prevLeading → it.prevTrailing = c.prevTrailing →
      (readInteger it).1 = t ∧
      (readFloat (readInteger it).2).1 = v ∧
      (readFloat (readInteger it).2).2 =
        { it with
          idx := c'.idx, prevTS := t,
          prevDelta := c'.prevTimestampDelta, prevValue := v,
          prevLeading := c'.prevLeading, prevTrailing := c'.prevTrailing } := by
  unfold Compressed_Append at hok
  rw [if_neg hns] at hok
  dsimp only at hok
  rcases hri : appendInteger c t with ⟨ri, c1⟩
  rw [hri] at hok
  cases ri
  case CR_ERR => simp at hok
  case CR_END => simp at hok
  case CR_OK =>
  dsimp only at hok
  rcases hrf : appendFloat c1 v with ⟨rf, c2⟩
  rw [hrf] at hok
  cases rf
  case CR_ERR => simp at hok
  case CR_END => simp at hok
  case CR_OK =>
  dsimp only at hok
  rw [Prod.mk.injEq] at hok
  obtain ⟨-, hc'⟩ := hok
  subst hc'
  dsimp only
  obtain ⟨hI1, hI2, hI3, hI4, hI5, hI6, hI7, hI8, hI9, hI10, hI11, hI12, hI13,
    hI14, hI15, hIdec⟩ := appendInteger_ok_spec hwf ht hri
  obtain ⟨hpT, hpD, hpV, hplt, hidx, hsz, hbwf, hzb⟩ := hwf
  have hF := appendFloat_ok_spec (c := c1) (v := v)
    hv (hI5 ▸ hpV) (by rw [hI6, hI7]; exact hplt) (by rw [hI1]; exact hI13)
    (by rw [hI1, hI10]; exact hsz) hI11 hI14 hrf
  obtain ⟨hF1, hF2, hF3, hF4, hF5, hF6, hF7, hF8, hF9, hF10, hF11, hF12, hF13,
    hF14, hFdec⟩ := hF
  have hwf' : ChunkWF c2 := by
    refine ⟨?_, ?_, ?_, ?_, ?_, ?_, ?_, ?_⟩
    · rw [hF5, hI8]
      exact ht
    · rw [hF6, hI9]
      exact u64sub_lt _ _
    · rw [hF7]
      exact hv
    · exact hF8
    · rw [hF1, hI1]
      omega
    · rw [hF1, hI1, hF9, hI10]
      exact hsz
    · exact hF10
    · exact hF13
  refine ⟨hwf', by rw [hF1, hI1], by rw [hF2, hI2], by rw [hF3, hI3],
    by rw [hF4, hI4], by rw [hF9, hI10], by rw [hF5, hI8], hF7,
    by omega, ?_, ?_⟩
  · intro p hp
    rw [hF14 p (by omega), hI15 p hp]
  · intro it hagree hidx2 hpts2 hpd2 hpv2 hpl2 hpt2
    have hagree1 : ∀ q, c.idx ≤ q → q < c1.idx →
        bitAt it.chunk.data q = bitAt c1.data q := by
      intro q hq1 hq2
      rw [hagree q hq1 (by omega), hF14 q hq2]
    have hdec1 := hIdec it hagree1 hidx2 hpts2 hpd2
    rw [hdec1]
    dsimp only
    have hdec2 := hFdec { it with
        idx := c1.idx, prevTS := t, prevDelta := u64sub t c.prevTimestamp }
      (by intro q hq1 hq2
          dsimp only
          exact hagree q (by omega) (by omega))
      rfl (by dsimp only; rw [hpv2, hI5]) (by dsimp only; rw [hpl2, hI6])
      (by dsimp only; rw [hpt2, hI7])
    rw [hdec2]
    dsimp only
    refine ⟨rfl, rfl, ?_⟩
    rw [hF6, hI9]

theorem appendInteger_not_end (c : CompressedChunk) (t : Nat) :
    (appendInteger c t).1 ≠ CR_END := by
  unfold appendInteger
  dsimp only
  repeat' split
  all_goals simp

theorem appendFloat_not_end (c : CompressedChunk) (v : Nat) :
    (appendFloat c v).1 ≠ CR_END := by
  unfold appendFloat
  dsimp only
  repeat' split
  all_goals simp

/-- The rolled-back state after a `CR_END` append: every header and rolling
field is restored, bits below the old cursor untouched, and the buffer only
ever OR-modified. -/
theorem Compressed_Append_end_state {c : CompressedChunk} {t v : Nat}
    (h : (Compressed_Append c t v).1 = CR_END) :
    (Compressed_Append c t v).2.numSamples = c.numSamples ∧
    (Compressed_Append c t v).2.idx = c.idx ∧
    (Compressed_Append c t v).2.size = c.size ∧
    (Compressed_Append c t v).2.baseTimestamp = c.baseTimestamp ∧
    (Compressed_Append c t v).2.baseValue = c.baseValue ∧
    (Compressed_Append c t v).2.prevTimestamp = c.prevTimestamp ∧
    (Compressed_Append c t v).2.prevTimestampDelta = c.prevTimestampDelta ∧
    (Compressed_Append c t v).2.prevValue = c.prevValue ∧
    (Compressed_Append c t v).2.prevLeading = c.prevLeading ∧
    (Compressed_Append c t v).2.prevTrailing = c.prevTrailing ∧
    (∀ p, p < c.idx → bitAt (Compressed_Append c t v).2.data p = bitAt c.data p) ∧
    (∀ p, bitAt c.data p = true →
      bitAt (Compressed_Append c t v).2.data p = true) := by
  unfold Compressed_Append at h ⊢
  split at h
  next h0 => simp at h
  next hns =>
    rw [if_neg hns]
    dsimp only at h ⊢
    rcases hri : appendInteger c t with ⟨ri, c1⟩
    rw [hri] at h
    cases ri
    case CR_END =>
      have := appendInteger_not_end c t
      rw [hri] at this
      simp at this
    case CR_ERR =>
      have hc1 : c1 = c := by
        have h2 := appendInteger_err (c := c) (t := t) (by rw [hri])
        rw [hri] at h2
        exact h2
      subst hc1
      exact ⟨rfl, rfl, rfl, rfl, rfl, rfl, rfl, rfl, rfl, rfl,
        fun p _ => rfl, fun p hp => hp⟩
    case CR_OK =>
      dsimp only at h ⊢
      rcases hrf : appendFloat c1 v with ⟨rf, c2⟩
      rw [hrf] at h
      cases rf
      case CR_OK => simp at h
      case CR_END =>
        have := appendFloat_not_end c1 v
        rw [hrf] at this
        simp at this
      case CR_ERR =>
        dsimp only
        obtain ⟨iN, iS, iBT, iBV, iPV, iPL, iPT, iIdx, iLo, iMono⟩ :=
          appendInteger_shape c t
        rw [hri] at iN iS iBT iBV iPV iPL iPT iIdx iLo iMono
        dsimp only at iN iS iBT iBV iPV iPL iPT iIdx iLo iMono
        obtain ⟨fN, fS, fBT, fBV, fPT, fPD, fPV, fPL, fPT2, fIdx, fLo, fMono⟩ :=
          appendFloat_err_shape (c := c1) (v := v) (by rw [hrf])
        rw [hrf] at fN fS fBT fBV fPT fPD fPV fPL fPT2 fIdx fLo fMono
        dsimp only at fN fS fBT fBV fPT fPD fPV fPL fPT2 fIdx fLo fMono
        refine ⟨by rw [fN, iN], rfl, by rw [fS, iS], by rw [fBT, iBT],
          by rw [fBV, iBV], rfl, rfl, by rw [fPV, iPV], by rw [fPL, iPL],
          by rw [fPT2, iPT], ?_, ?_⟩
        · intro p hp
          rw [fLo p (by omega), iLo p hp]
        · intro p hp
          exact fMono p (iMono p hp)
/-- The encoder writes encodings strictly below `2 ^ l`. -/
theorem int2bin_lt {l : Nat} (h : l ≤ 64) (x : Int) : int2bin x l < 2 ^ l :=
  LSB_lt h _

/-- Whenever `appendInteger` succeeds, one extra bit beyond the written
marker and payload still fits (the `+ 1` in its space checks); its writes
never touch a bit at or beyond the capacity `8 * size`. -/
theorem appendInteger_hi {c : CompressedChunk} {t : Nat}
    (h : c.idx ≤ 8 * c.size) :
    ((appendInteger c t).1 = CR_OK → (appendInteger c t).2.idx + 1 ≤ 8 * c.size) ∧
    (appendInteger c t).2.size = c.size ∧
    (∀ p, 8 * c.size ≤ p →
      bitAt (appendInteger c t).2.data p = bitAt c.data p) := by
  refine ⟨?_, ?_, ?_⟩
  all_goals unfold appendInteger
  all_goals try intro p hp
  all_goals dsimp only
  all_goals repeat' split
  all_goals try dsimp only
  all_goals
    first
    | rfl
    | (simp
       done)
    | (rename_i hsp
       have hs := space_of_not_false hsp
       simp only [appendBits_snd]
       omega)
    | (rename_i hsp
       have hs := space_of_not_false hsp
       have hsn := appendBits_snd c.data c.idx 0 1
       rw [appendBits_bitAt_hi (by norm_num) (by norm_num) (by omega)])
    | (rename_i hsp
       have hs := space_of_not_false hsp
       rw [appendBits_bitAt_hi (by norm_num) (u64sub_lt _ _)
           (by simp only [appendBits_snd]
               omega),
         appendBits_bitAt_hi (by norm_num) (by norm_num) (by omega)])
    | (rename_i hsp
       have hs := space_of_not_false hsp
       rw [appendBits_bitAt_hi
           (by norm_num [CMPR_L1, CMPR_L2, CMPR_L3, CMPR_L4, CMPR_L5])
           (int2bin_lt (by norm_num [CMPR_L1, CMPR_L2, CMPR_L3, CMPR_L4, CMPR_L5]) _)
           (by simp only [appendBits_snd]
               omega),
         appendBits_bitAt_hi (by norm_num) (by norm_num) (by omega)])

/-- `appendFloat` never touches a bit at or beyond the capacity `8 * size`:
its unconditional control bit is covered by the strict cursor bound (the
extra bit reserved by the integer codec), and each branch checks space
before its remaining writes. -/
theorem appendFloat_hi {c : CompressedChunk} {v : Nat}
    (hpv : c.prevValue < U64) (hv : v < U64)
    (hplt : c.prevLeading + c.prevTrailing ≤ 63)
    (h : c.idx < 8 * c.size) :
    (appendFloat c v).2.size = c.size ∧
    ∀ p, 8 * c.size ≤ p →
      bitAt (appendFloat c v).2.data p = bitAt c.data p := by
  have hU : U64 = 2 ^ 64 := rfl
  unfold appendFloat
  dsimp only
  split
  next hxz =>
    refine ⟨rfl, fun p hp => ?_⟩
    dsimp only
    rw [appendBits_bitAt_hi (by norm_num) (by norm_num) (by omega)]
  next hxz =>
    have hxlt : v ^^^ c.prevValue < U64 := Nat.xor_lt_two_pow (hU ▸ hv) (hU ▸ hpv)
    obtain ⟨hcl1, hcl2, -⟩ := clz64_spec hxz hxlt
    have hcc := clz_add_ctz_le hxz hxlt
    split
    next hclamp =>
      split
      next hcond =>
        split
        next hsp =>
          refine ⟨rfl, fun p hp => ?_⟩
          dsimp only
          rw [appendBits_bitAt_hi (by norm_num) (by norm_num) (by omega)]
        next hsp =>
          have hs := space_of_not_false hsp
          dsimp only at hs
          simp only [appendBits_snd] at hs
          refine ⟨rfl, fun p hp => ?_⟩
          dsimp only
          rw [appendBits_bitAt_hi (by omega)
                (shr_lt (lt_of_lt_of_le hcl2
                  (Nat.pow_le_pow_right (by norm_num) (by omega))) (by omega))
                (by simp only [appendBits_snd]
                    omega),
             appendBits_bitAt_hi (by norm_num) (by norm_num)
                (by simp only [appendBits_snd]
                    omega),
             appendBits_bitAt_hi (by norm_num) (by norm_num) (by omega)]
      next hcond =>
        split
        next hsp =>
          refine ⟨rfl, fun p hp => ?_⟩
          dsimp only
          rw [appendBits_bitAt_hi (by norm_num) (by norm_num) (by omega)]
        next hsp =>
          have hs := space_of_not_false hsp
          dsimp only at hs
          simp only [appendBits_snd] at hs
          refine ⟨rfl, fun p hp => ?_⟩
          dsimp only
          rw [appendBits_bitAt_hi (by omega)
                (shr_lt (lt_of_lt_of_le hcl2
                  (Nat.pow_le_pow_right (by norm_num) (by omega))) (by omega))
                (by simp only [appendBits_snd]
                    simp only [DOUBLE_LEADING, DOUBLE_BLOCK_SIZE] at hs ⊢
                    omega),
             appendBits_bitAt_hi (by norm_num [DOUBLE_BLOCK_SIZE])
                (by simp only [DOUBLE_BLOCK_SIZE, DOUBLE_BLOCK_ADJUST]
                    omega)
                (by simp only [appendBits_snd]
                    simp only [DOUBLE_LEADING, DOUBLE_BLOCK_SIZE] at hs ⊢
                    omega),
             appendBits_bitAt_hi (by norm_num [DOUBLE_LEADING])
                (by simp only [DOUBLE_LEADING]
                    omega)
                (by simp only [appendBits_snd]
                    simp only [DOUBLE_LEADING, DOUBLE_BLOCK_SIZE] at hs ⊢
                    omega),
             appendBits_bitAt_hi (by norm_num) (by norm_num)
                (by simp only [appendBits_snd]
                    omega),
             appendBits_bitAt_hi (by norm_num) (by norm_num) (by omega)]
    next hclamp =>
      split
      next hcond =>
        split
        next hsp =>
          refine ⟨rfl, fun p hp => ?_⟩
          dsimp only
          rw [appendBits_bitAt_hi (by norm_num) (by norm_num) (by omega)]
        next hsp =>
          have hs := space_of_not_false hsp
          dsimp only at hs
          simp only [appendBits_snd] at hs
          refine ⟨rfl, fun p hp => ?_⟩
          dsimp only
          rw [appendBits_bitAt_hi (by omega)
                (shr_lt (lt_of_lt_of_le hcl2
                  (Nat.pow_le_pow_right (by norm_num) (by omega))) (by omega))
                (by simp only [appendBits_snd]
                    omega),
             appendBits_bitAt_hi (by norm_num) (by norm_num)
                (by simp only [appendBits_snd]
                    omega),
             appendBits_bitAt_hi (by norm_num) (by norm_num) (by omega)]
      next hcond =>
        split
        next hsp =>
          refine ⟨rfl, fun p hp => ?_⟩
          dsimp only
          rw [appendBits_bitAt_hi (by norm_num) (by norm_num) (by omega)]
        next hsp =>
          have hs := space_of_not_false hsp
          dsimp only at hs
          simp only [appendBits_snd] at hs
          refine ⟨rfl, fun p hp => ?_⟩
          dsimp only
          rw [appendBits_bitAt_hi (by omega)
                (shr_lt (lt_of_lt_of_le hcl2
                  (Nat.pow_le_pow_right (by norm_num) (by omega))) (by omega))
                (by simp only [appendBits_snd]
                    simp only [DOUBLE_LEADING, DOUBLE_BLOCK_SIZE] at hs ⊢
                    omega),
             appendBits_bitAt_hi (by norm_num [DOUBLE_BLOCK_SIZE])
                (by simp only [DOUBLE_BLOCK_SIZE, DOUBLE_BLOCK_ADJUST]
                    omega)
                (by simp only [appendBits_snd]
                    simp only [DOUBLE_LEADING, DOUBLE_BLOCK_SIZE] at hs ⊢
                    omega),
             appendBits_bitAt_hi (by norm_num [DOUBLE_LEADING])
                (by simp only [DOUBLE_LEADING]
                    omega)
                (by simp only [appendBits_snd]
                    simp only [DOUBLE_LEADING, DOUBLE_BLOCK_SIZE] at hs ⊢
                    omega),
             appendBits_bitAt_hi (by norm_num) (by norm_num)
                (by simp only [appendBits_snd]
                    omega),
             appendBits_bitAt_hi (by norm_num) (by norm_num) (by omega)]

/-- No `Compressed_Append` call, successful or failed, ever touches a bit at
or beyond the capacity `8 * size`. -/
theorem Compressed_Append_hi {c : CompressedChunk} {t v : Nat}
    (hpv : c.prevValue < U64) (hplt : c.prevLeading + c.prevTrailing ≤ 63)
    (hidx : c.idx ≤ 8 * c.size) (hv : v < U64) :
    (Compressed_Append c t v).2.size = c.size ∧
    ∀ p, 8 * c.size ≤ p →
      bitAt (Compressed_Append c t v).2.data p = bitAt c.data p := by
  unfold Compressed_Append
  split
  next h0 => exact ⟨rfl, fun p hp => rfl⟩
  next hns =>
    dsimp only
    rcases hri : appendInteger c t with ⟨ri, c1⟩
    cases ri
    case CR_END =>
      have hne := appendInteger_not_end c t
      rw [hri] at hne
      simp at hne
    case CR_ERR =>
      have hc1 : c1 = c := by
        have h2 := appendInteger_err (c := c) (t := t) (by rw [hri])
        rw [hri] at h2
        exact h2
      subst hc1
      exact ⟨rfl, fun p hp => rfl⟩
    case CR_OK =>
      dsimp only
      obtain ⟨hiOK, hiS, hiHi⟩ := appendInteger_hi (c := c) (t := t) hidx
      rw [hri] at hiOK hiS hiHi
      dsimp only at hiOK hiS hiHi
      obtain ⟨iN, iS, iBT, iBV, iPV, iPL, iPT, iIdx, iLo, iMono⟩ :=
        appendInteger_shape c t
      rw [hri] at iPV iPL iPT
      dsimp only at iPV iPL iPT
      have hfsp : c1.idx < 8 * c1.size := by
        have hib := hiOK rfl
        omega
      obtain ⟨hfS, hfHi⟩ := appendFloat_hi (c := c1) (v := v)
        (by rw [iPV]; exact hpv) hv (by rw [iPL, iPT]; exact hplt) hfsp
      rcases hrf : appendFloat c1 v with ⟨rf, c2⟩
      rw [hrf] at hfS hfHi
      dsimp only at hfS hfHi
      cases rf
      all_goals dsimp only
      all_goals refine ⟨by rw [hfS, hiS], fun p hp => ?_⟩
      all_goals rw [hfHi p (by omega), hiHi p hp]

/-- Well-formedness and shape facts accumulated along a successful
`appendAll`: sample count, header fields, cursor monotonicity, and
preservation of the already-written region. -/
theorem appendAll_shape :
    ∀ {samples : List (Nat × Nat)} {c cF : CompressedChunk},
    ChunkWF c → c.numSamples ≠ 0 →
    (∀ s ∈ samples, s.1 < U64 ∧ s.2 < U64) →
    appendAll c samples = some cF →
    ChunkWF cF ∧ cF.numSamples = c.numSamples + samples.length ∧
    cF.baseTimestamp = c.baseTimestamp ∧ cF.baseValue = c.baseValue ∧
    c.idx ≤ cF.idx ∧
    (∀ p, p < c.idx → bitAt cF.data p = bitAt c.data p)
  | [], c, cF, hwf, hns, hall, happ => by
    unfold appendAll at happ
    rw [Option.some.injEq] at happ
    subst happ
    exact ⟨hwf, by simp, rfl, rfl, le_refl _, fun p _ => rfl⟩
  | (t, v) :: rest, c, cF, hwf, hns, hall, happ => by
    unfold appendAll at happ
    dsimp only at happ
    rcases hr : Compressed_Append c t v with ⟨r, cn⟩
    rw [hr] at happ
    cases r
    case CR_ERR => simp at happ
    case CR_END => simp at happ
    case CR_OK =>
    dsimp only at happ
    have hts : t < U64 := (hall (t, v) (by simp)).1
    have hvs : v < U64 := (hall (t, v) (by simp)).2
    obtain ⟨hwfn, hsz, hnum, hbt, hbv, hlen, hpT, hpV, hlt, hlo, hdec⟩ :=
      Compressed_Append_ok_spec hwf hns hts hvs hr
    obtain ⟨hwfF, hnsF, hbtF, hbvF, hleF, hloF⟩ :=
      appendAll_shape hwfn (by omega) (fun s hs => hall s (by simp [hs])) happ
    refine ⟨hwfF, by simp [hnsF, hnum]; omega, by rw [hbtF, hbt],
      by rw [hbvF, hbv], by omega, fun p hp => ?_⟩
    rw [hloF p (by omega), hlo p hp]

/-- Decode induction: samples appended successfully after the first one are
read back, in order, by `readSeq` from any iterator whose cursor and rolling
state match the pre-append chunk state. -/
theorem appendAll_readSeq :
    ∀ (samples : List (Nat × Nat)) {c cF : CompressedChunk}
      (it : Compressed_Iterator),
    ChunkWF c → c.numSamples ≠ 0 →
    (∀ s ∈ samples, s.1 < U64 ∧ s.2 < U64) →
    appendAll c samples = some cF →
    it.chunk = cF → it.idx = c.idx →
    1 ≤ it.count → it.count + samples.length = cF.numSamples →
    it.prevTS = c.prevTimestamp → it.prevDelta = c.prevTimestampDelta →
    it.prevValue = c.prevValue → it.prevLeading = c.prevLeading →
    it.prevTrailing = c.prevTrailing →
    ∀ fuel, samples.length ≤ fuel → readSeq it fuel = samples
  | [], c, cF, it, hwf, hns, hall, happ, hch, hidx, hc1, hcnt, hpts, hpd,
      hpv, hpl, hpt, fuel, hf => by
    unfold appendAll at happ
    rw [Option.some.injEq] at happ
    subst happ
    have hcnt2 : it.count = c.numSamples := by simpa using hcnt
    cases fuel with
    | zero => rfl
    | succ fuel =>
      unfold readSeq Compressed_ReadNext
      rw [hch, if_pos (by omega)]
  | (t, v) :: rest, c, cF, it, hwf, hns, hall, happ, hch, hidx, hc1, hcnt,
      hpts, hpd, hpv, hpl, hpt, fuel, hf => by
    unfold appendAll at happ
    dsimp only at happ
    rcases hr : Compressed_Append c t v with ⟨r, cn⟩
    rw [hr] at happ
    cases r
    case CR_ERR => simp at happ
    case CR_END => simp at happ
    case CR_OK =>
    dsimp only at happ
    have hts : t < U64 := (hall (t, v) (by simp)).1
    have hvs : v < U64 := (hall (t, v) (by simp)).2
    obtain ⟨hwfn, hsz, hnum, hbt, hbv, hlen, hpT, hpV, hlt, hlo, hdec⟩ :=
      Compressed_Append_ok_spec hwf hns hts hvs hr
    obtain ⟨hwfF, hnsF, hbtF, hbvF, hleF, hloF⟩ :=
      appendAll_shape hwfn (by omega) (fun s hs => hall s (by simp [hs])) happ
    have hcnt2 : it.count + (rest.length + 1) = cF.numSamples := by
      simpa using hcnt
    have hf2 : rest.length + 1 ≤ fuel := by simpa using hf
    cases fuel with
    | zero => omega
    | succ fuel =>
      obtain ⟨hd1, hd2, hd3⟩ :=
        hdec it (fun q hq1 hq2 => by rw [hch]; exact hloF q (by omega))
          hidx hpts hpd hpv hpl hpt
      have hrn : Compressed_ReadNext it =
          some ((readInteger it).1, (readFloat (readInteger it).2).1,
            { (readFloat (readInteger it).2).2 with count := it.count + 1 }) := by
        unfold Compressed_ReadNext
        rw [if_neg (by rw [hch]; omega), if_neg (by omega)]
      unfold readSeq
      rw [hrn]
      dsimp only
      rw [hd1, hd2, hd3]
      refine congrArg (List.cons (t, v)) ?_
      exact appendAll_readSeq rest
        { chunk := it.chunk, idx := cn.idx, count := it.count + 1,
          prevTS := t, prevDelta := cn.prevTimestampDelta, prevValue := v,
          prevLeading := cn.prevLeading, prevTrailing := cn.prevTrailing }
        hwfn (by omega) (fun s hs => hall s (by simp [hs])) happ hch rfl
        (by dsimp only
            omega)
        (by dsimp only
            omega)
        hpT.symm rfl hpV.symm rfl rfl fuel (by omega)

theorem binAt_replicate_zero (n k : Nat) : binAt (List.replicate n 0) k = 0 := by
  unfold binAt
  induction n generalizing k with
  | zero => simp
  | succ n ih =>
    cases k with
    | zero => simp [List.replicate_succ]
    | succ k =>
      rw [List.replicate_succ, List.getD_cons_succ]
      exact ih k

theorem bitAt_replicate_zero (n q : Nat) :
    bitAt (List.replicate n 0) q = false := by
  unfold bitAt
  rw [binAt_replicate_zero]
  exact Nat.zero_testBit _

/-- The chunk state reached by the first append into a fresh chunk is
well-formed. -/
theorem first_append_WF {C t v : Nat} (ht : t < U64) (hv : v < U64) :
    ChunkWF ({ Compressed_NewChunk C with
        baseValue := v, prevValue := v, baseTimestamp := t,
        prevTimestamp := t, prevTimestampDelta := 0,
        numSamples := (Compressed_NewChunk C).numSamples + 1 }) := by
  refine ⟨ht, U64_pos, hv, ?_, Nat.zero_le _, ?_, ?_, ?_⟩
  · dsimp only [Compressed_NewChunk]
    norm_num
  · show 8 * C ≤ 64 * (List.replicate ((C + 7) / 8) 0).length
    rw [List.length_replicate]
    omega
  · intro w hw
    rw [List.eq_of_mem_replicate hw]
    exact U64_pos
  · intro q hq1 hq2
    exact bitAt_replicate_zero _ _

/-- Round-trip: samples appended with `CR_OK` throughout into a fresh chunk
are read back exactly, in order, and the stream then ends. -/
theorem append_iterate_roundtrip (C : Nat) (samples : List (Nat × Nat))
    (cF : CompressedChunk)
    (hall : ∀ s ∈ samples, s.1 < U64 ∧ s.2 < U64)
    (happ : appendAll (Compressed_NewChunk C) samples = some cF) :
    ∀ fuel, samples.length ≤ fuel →
      readSeq (Compressed_NewChunkIterator cF) fuel = samples := by
  cases samples with
  | nil =>
    unfold appendAll at happ
    rw [Option.some.injEq] at happ
    subst happ
    intro fuel hf
    cases fuel with
    | zero => rfl
    | succ fuel =>
      unfold readSeq Compressed_ReadNext
      dsimp only [Compressed_NewChunkIterator, Compressed_NewChunk]
      rw [if_pos (le_refl 0)]
  | cons s rest =>
    obtain ⟨t, v⟩ := s
    have hts : t < U64 := (hall (t, v) (by simp)).1
    have hvs : v < U64 := (hall (t, v) (by simp)).2
    unfold appendAll at happ
    dsimp only at happ
    rw [Compressed_Append_first (c := Compressed_NewChunk C) t v rfl] at happ
    dsimp only at happ
    have hwf1 : ChunkWF ({ Compressed_NewChunk C with
        baseValue := v, prevValue := v, baseTimestamp := t,
        prevTimestamp := t, prevTimestampDelta := 0,
        numSamples := (Compressed_NewChunk C).numSamples + 1 }) := first_append_WF hts hvs
    obtain ⟨hwfF, hnsF, hbtF, hbvF, hleF, hloF⟩ :=
      appendAll_shape hwf1 (Nat.succ_ne_zero _)
        (fun s hs => hall s (by simp [hs])) happ
    have hn1 : ({ Compressed_NewChunk C with
        baseValue := v, prevValue := v, baseTimestamp := t,
        prevTimestamp := t, prevTimestampDelta := 0,
        numSamples := (Compressed_NewChunk C).numSamples + 1 }).numSamples = 1 := rfl
    intro fuel hf
    have hf2 : rest.length + 1 ≤ fuel := by simpa using hf
    cases fuel with
    | zero => omega
    | succ fuel =>
      have hrn0 : Compressed_ReadNext (Compressed_NewChunkIterator cF) =
          some (cF.baseTimestamp, cF.baseValue,
            { Compressed_NewChunkIterator cF with count := 1 }) := by
        unfold Compressed_ReadNext Compressed_NewChunkIterator
        rw [if_neg (by dsimp only; omega), if_pos rfl]
      unfold readSeq
      rw [hrn0]
      dsimp only
      rw [hbtF, hbvF]
      refine congrArg (List.cons (t, v)) ?_
      exact appendAll_readSeq rest
        { Compressed_NewChunkIterator cF with count := 1 }
        hwf1 (Nat.succ_ne_zero _) (fun s hs => hall s (by simp [hs])) happ
        rfl rfl (le_refl 1)
        (by dsimp only [Compressed_NewChunkIterator]
            omega)
        (by dsimp only [Compressed_NewChunkIterator]
            rw [hbtF])
        rfl
        (by dsimp only [Compressed_NewChunkIterator]
            rw [hbvF])
        rfl rfl fuel (by omega)

/-! ### Concrete program states used by the claim witnesses -/

/-- For the round-trip witness: the chunk produced by appending
`(5, 3), (6, 3)` into a fresh chunk of 64 bytes. -/
def chunkC1W : CompressedChunk :=
  { size := 64, numSamples := 2, baseTimestamp := 5, baseValue := 3, idx := 8,
    prevTimestamp := 6, prevTimestampDelta := 1, prevValue := 3,
    prevLeading := 0, prevTrailing := 0, data := [5, 0, 0, 0, 0, 0, 0, 0] }

/-- A tiny chunk holding one sample and one written payload bit, on which
the next append runs out of space. -/
def chunkEnd2 : CompressedChunk :=
  { size := 2, numSamples := 1, baseTimestamp := 0, baseValue := 0, idx := 1,
    prevTimestamp := 0, prevTimestampDelta := 0, prevValue := 0,
    prevLeading := 0, prevTrailing := 0, data := [1] }

/-- A fresh one-sample chunk with a wide-open value window. -/
def chunkC5 : CompressedChunk :=
  { size := 16, numSamples := 1, baseTimestamp := 0, baseValue := 0, idx := 0,
    prevTimestamp := 0, prevTimestampDelta := 0, prevValue := 0,
    prevLeading := 0, prevTrailing := 0, data := [0, 0] }

/-- A one-sample chunk whose previous value window is `(30, 30)`. -/
def chunkC5r : CompressedChunk :=
  { size := 16, numSamples := 1, baseTimestamp := 0, baseValue := 0, idx := 0,
    prevTimestamp := 0, prevTimestampDelta := 0, prevValue := 0,
    prevLeading := 30, prevTrailing := 30, data := [0, 0] }

/-- The state after `appendFloat chunkC5r (2 ^ 31)`: the reuse branch wrote
the control bit, a `0` bit and four payload bits. -/
def chunkC5rOut : CompressedChunk :=
  { size := 16, numSamples := 1, baseTimestamp := 0, baseValue := 0, idx := 6,
    prevTimestamp := 0, prevTimestampDelta := 0, prevValue := 2147483648,
    prevLeading := 30, prevTrailing := 30, data := [9, 0] }

/-- The IEEE-754 bit pattern of the double `5.0`. -/
def pD5 : Nat := 0x4014000000000000

/-- The chunk after appending `(1000, 5.0), (1010, 5.0)` into a fresh
128-byte chunk (spec scenario S2, first two samples). -/
def chunkC6Mid : CompressedChunk :=
  { size := 128, numSamples := 2, baseTimestamp := 1000, baseValue := pD5,
    idx := 8, prevTimestamp := 1010, prevTimestampDelta := 10,
    prevValue := pD5, prevLeading := 0, prevTrailing := 0,
    data := [41, 0, 0, 0, 0, 0, 0, 0, 0, 0, 0, 0, 0, 0, 0, 0] }

/-- The chunk after appending all three samples of spec scenario S2. -/
def chunkC6F : CompressedChunk :=
  { size := 128, numSamples := 3, baseTimestamp := 1000, baseValue := pD5,
    idx := 10, prevTimestamp := 1020, prevTimestampDelta := 10,
    prevValue := pD5, prevLeading := 0, prevTrailing := 0,
    data := [41, 0, 0, 0, 0, 0, 0, 0, 0, 0, 0, 0, 0, 0, 0, 0] }

/-- A one-sample chunk for the first-read claim. -/
def chunkC7 : CompressedChunk :=
  { size := 8, numSamples := 1, baseTimestamp := 5, baseValue := 6, idx := 0,
    prevTimestamp := 0, prevTimestampDelta := 0, prevValue := 0,
    prevLeading := 0, prevTrailing := 0, data := [0] }

/-- An iterator over `chunkC7` whose rolling fields deliberately disagree
with the chunk header. -/
def iterC7 : Compressed_Iterator :=
  { chunk := chunkC7, idx := 0, count := 0, prevTS := 7, prevDelta := 3,
    prevValue := 9, prevLeading := 2, prevTrailing := 4 }

/-! ### The claims -/

/-- Claim C1: every finite sample sequence with non-decreasing 64-bit
timestamps that appends entirely with `CR_OK` into a zero-initialized chunk
of capacity `C` is read back by a fresh iterator exactly, in order, with
bit-identical 64-bit value patterns and exact timestamps; `readSeq` with any
fuel at least the sample count — in particular with one extra read — returns
exactly the list, so the read after the last sample reports the end. -/
theorem C1_append_then_iterate (C : Nat) (samples : List (Nat × Nat))
    (cF : CompressedChunk)
    (hmono : List.Chain' (fun a b => a.1 ≤ b.1) samples)
    (hall : ∀ s ∈ samples, s.1 < U64 ∧ s.2 < U64)
    (happ : appendAll (Compressed_NewChunk C) samples = some cF) :
    ∀ fuel, samples.length ≤ fuel →
      readSeq (Compressed_NewChunkIterator cF) fuel = samples :=
  append_iterate_roundtrip C samples cF hall happ

theorem C1_append_then_iterate_witness :
    List.Chain' (fun a b => a.1 ≤ b.1) [((5:Nat), (3:Nat)), (6, 3)] ∧
    (∀ s ∈ [((5:Nat), (3:Nat)), (6, 3)], s.1 < U64 ∧ s.2 < U64) ∧
    appendAll (Compressed_NewChunk 64) [(5, 3), (6, 3)] = some chunkC1W ∧
    readSeq (Compressed_NewChunkIterator chunkC1W) 3 = [(5, 3), (6, 3)] :=
  ⟨by simp, by decide, by decide,
    C1_append_then_iterate 64 [(5, 3), (6, 3)] chunkC1W (by simp) (by decide)
      (by decide) 3 (by decide)⟩

/-- Claim C2: a `CR_END` append restores `numSamples`, `idx`,
`prevTimestamp`, `prevTimestampDelta`, `prevValue`, `prevLeading`,
`prevTrailing` and the first `idx` payload bits to their pre-call values. -/
theorem C2_end_restores_state {c : CompressedChunk} {t v : Nat}
    (h : (Compressed_Append c t v).1 = CR_END) :
    (Compressed_Append c t v).2.numSamples = c.numSamples ∧
    (Compressed_Append c t v).2.idx = c.idx ∧
    (Compressed_Append c t v).2.prevTimestamp = c.prevTimestamp ∧
    (Compressed_Append c t v).2.prevTimestampDelta = c.prevTimestampDelta ∧
    (Compressed_Append c t v).2.prevValue = c.prevValue ∧
    (Compressed_Append c t v).2.prevLeading = c.prevLeading ∧
    (Compressed_Append c t v).2.prevTrailing = c.prevTrailing ∧
    ∀ p, p < c.idx →
      bitAt (Compressed_Append c t v).2.data p = bitAt c.data p := by
  obtain ⟨hN, hI, hS, hBT, hBV, hPT, hPD, hPV, hPL, hPTr, hLo, hMono⟩ :=
    Compressed_Append_end_state h
  exact ⟨hN, hI, hPT, hPD, hPV, hPL, hPTr, hLo⟩

theorem C2_end_restores_state_witness :
    (Compressed_Append chunkEnd2 0 1).1 = CR_END ∧
    (Compressed_Append chunkEnd2 0 1).2.numSamples = chunkEnd2.numSamples ∧
    (Compressed_Append chunkEnd2 0 1).2.idx = chunkEnd2.idx ∧
    (Compressed_Append chunkEnd2 0 1).2.prevTimestamp = chunkEnd2.prevTimestamp ∧
    (Compressed_Append chunkEnd2 0 1).2.prevTimestampDelta =
      chunkEnd2.prevTimestampDelta ∧
    (Compressed_Append chunkEnd2 0 1).2.prevValue = chunkEnd2.prevValue ∧
    (Compressed_Append chunkEnd2 0 1).2.prevLeading = chunkEnd2.prevLeading ∧
    (Compressed_Append chunkEnd2 0 1).2.prevTrailing = chunkEnd2.prevTrailing ∧
    bitAt (Compressed_Append chunkEnd2 0 1).2.data 0 = bitAt chunkEnd2.data 0 :=
  ⟨by decide,
    (C2_end_restores_state (by decide)).1,
    (C2_end_restores_state (by decide)).2.1,
    (C2_end_restores_state (by decide)).2.2.1,
    (C2_end_restores_state (by decide)).2.2.2.1,
    (C2_end_restores_state (by decide)).2.2.2.2.1,
    (C2_end_restores_state (by decide)).2.2.2.2.2.1,
    (C2_end_restores_state (by decide)).2.2.2.2.2.2.1,
    (C2_end_restores_state (by decide)).2.2.2.2.2.2.2 0 (by decide)⟩

/-- Claim C3 is false: an append that returns `CR_END` can leave a changed
payload bit at a position at or beyond the pre-call `idx`, because
`appendFloat` writes its 1-bit value flag before its own space checks.
Here the pre-call cursor is `1` and bit `2` changes from clear to set. -/
theorem C3_counterexample :
    (Compressed_Append chunkEnd2 0 1).1 = CR_END ∧
    chunkEnd2.idx = 1 ∧
    bitAt (Compressed_Append chunkEnd2 0 1).2.data 2 = true ∧
    bitAt chunkEnd2.data 2 = false := by decide

/-- Amended C3: a `CR_END` append restores the cursor and leaves every bit
strictly below the pre-call `idx` unchanged, but bits at or beyond the
pre-call `idx` may have been set (never cleared): the buffer is modified
only by OR-ing, and the failure can be detected after the unconditional
value-flag bit was already written. -/
theorem C3_amended {c : CompressedChunk} {t v : Nat}
    (h : (Compressed_Append c t v).1 = CR_END) :
    (Compressed_Append c t v).2.idx = c.idx ∧
    (∀ p, p < c.idx →
      bitAt (Compressed_Append c t v).2.data p = bitAt c.data p) ∧
    (∀ p, bitAt c.data p = true →
      bitAt (Compressed_Append c t v).2.data p = true) := by
  obtain ⟨hN, hI, hS, hBT, hBV, hPT, hPD, hPV, hPL, hPTr, hLo, hMono⟩ :=
    Compressed_Append_end_state h
  exact ⟨hI, hLo, hMono⟩

theorem C3_amended_witness :
    (Compressed_Append chunkEnd2 0 1).1 = CR_END ∧
    (Compressed_Append chunkEnd2 0 1).2.idx = chunkEnd2.idx ∧
    bitAt (Compressed_Append chunkEnd2 0 1).2.data 0 = bitAt chunkEnd2.data 0 ∧
    bitAt (Compressed_Append chunkEnd2 0 1).2.data 0 = true :=
  ⟨by decide,
    (C3_amended (by decide)).1,
    (C3_amended (by decide)).2.1 0 (by decide),
    (C3_amended (by decide)).2.2 0 (by decide)⟩

/-- Claim C6 is false as stated: in spec scenario S2 the second append has
time delta `10` (not `0`), so it writes a 7-bit double-delta encoding plus
one value bit; after all three appends the cursor is `10`, not `4`. -/
theorem C6_counterexample :
    appendAll (Compressed_NewChunk 128)
        [(1000, pD5), (1010, pD5), (1020, pD5)] = some chunkC6F ∧
    chunkC6F.idx = 10 ∧ ¬ chunkC6F.idx = 4 := by decide

/-- Amended C6: in scenario S2 the second append writes 8 bits (2-bit
marker, 5-bit payload for delta-of-delta `10`, one `0` bit for XOR `= 0`),
the third append writes 2 bits (`Δ` of `Δ` `= 0` plus XOR `= 0`), the cursor
ends at `10`, and iterating still yields the three samples followed by the
end of the stream. -/
theorem C6_amended :
    appendAll (Compressed_NewChunk 128) [(1000, pD5), (1010, pD5)] =
      some chunkC6Mid ∧
    chunkC6Mid.idx = 8 ∧
    appendAll (Compressed_NewChunk 128)
        [(1000, pD5), (1010, pD5), (1020, pD5)] = some chunkC6F ∧
    chunkC6F.idx = 10 ∧
    readSeq (Compressed_NewChunkIterator chunkC6F) 4 =
      [(1000, pD5), (1010, pD5), (1020, pD5)] := by decide

/-- Claim C7 is false as stated: the first `Compressed_ReadNext` call emits
`(baseTimestamp, baseValue)` and increments `count`, but it does not store
anything into the iterator's rolling fields: here `prevTS` stays `7` and
`prevValue` stays `9` although the chunk header holds `5` and `6`. -/
theorem C7_counterexample :
    iterC7.count = 0 ∧ 1 ≤ iterC7.chunk.numSamples ∧
    Compressed_ReadNext iterC7 = some (5, 6, { iterC7 with count := 1 }) ∧
    ({ iterC7 with count := 1 } : Compressed_Iterator).prevTS = 7 ∧
    iterC7.chunk.baseTimestamp = 5 ∧
    ({ iterC7 with count := 1 } : Compressed_Iterator).prevValue = 9 ∧
    iterC7.chunk.baseValue = 6 := by decide

/-- Amended C7: on a chunk with at least one sample, the first
`Compressed_ReadNext` (count `= 0`) emits `(baseTimestamp, baseValue)` and
increments `count`, leaving every other iterator field unchanged; the
rolling fields `prevTS`, `prevDelta`, `prevValue` are expected to have been
initialized by the iterator constructor, not by this read. -/
theorem C7_amended {it : Compressed_Iterator} (hc : it.count = 0)
    (hn : 1 ≤ it.chunk.numSamples) :
    Compressed_ReadNext it =
      some (it.chunk.baseTimestamp, it.chunk.baseValue,
        { it with count := it.count + 1 }) := by
  unfold Compressed_ReadNext
  rw [if_neg (by omega), if_pos hc]

theorem C7_amended_witness :
    iterC7.count = 0 ∧ 1 ≤ iterC7.chunk.numSamples ∧
    Compressed_ReadNext iterC7 =
      some (iterC7.chunk.baseTimestamp, iterC7.chunk.baseValue,
        { iterC7 with count := iterC7.count + 1 }) :=
  ⟨rfl, by decide, C7_amended rfl (by decide)⟩

/-- Claim C8: for each payload width of the delta-of-delta table and every
signed value in its two's-complement range, writing the low `w` bits
(`int2bin`) and sign-extending them back (`bin2int`) returns the value. -/
theorem C8_signed_roundtrip (w : Nat) (x : Int)
    (hw : w = 5 ∨ w = 8 ∨ w = 11 ∨ w = 15 ∨ w = 32)
    (hlo : -(2 ^ (w - 1) : Int) ≤ x) (hhi : x ≤ 2 ^ (w - 1) - 1) :
    bin2int (int2bin x w) w = x := by
  have h1 : 1 ≤ w := by rcases hw with h | h | h | h | h <;> omega
  have h63 : w ≤ 63 := by rcases hw with h | h | h | h | h <;> omega
  apply bin2int_int2bin h1 h63
  · rw [Bin_MinVal, BIT_eq (by omega)]
    push_cast
    exact hlo
  · rw [Bin_MaxVal, BIT_eq (by omega)]
    push_cast
    exact hhi

theorem C8_signed_roundtrip_witness :
    ((5:Nat) = 5 ∨ (5:Nat) = 8 ∨ (5:Nat) = 11 ∨ (5:Nat) = 15 ∨ (5:Nat) = 32) ∧
    -(2 ^ (5 - 1) : Int) ≤ -16 ∧ (-16 : Int) ≤ 2 ^ (5 - 1) - 1 ∧
    bin2int (int2bin (-16) 5) 5 = -16 :=
  ⟨Or.inl rfl, by norm_num, by norm_num,
    C8_signed_roundtrip 5 (-16) (Or.inl rfl) (by norm_num) (by norm_num)⟩

/-- Claim C9 is false as stated: when the written value has set bits above
its declared width, the spanning-write branch of `appendBits` spills them
into the following bin, so a buffer bit outside the written window changes:
writing the low 8 bits of `2 ^ 63` at cursor 60 sets bit 123. -/
theorem C9_counterexample :
    (∀ i, i < 8 → bitAt [0, 0] (60 + i) = false) ∧
    60 + 8 ≤ 64 * 2 ∧
    (appendBits [0, 0] 60 (2 ^ 63) 8).2 = 68 ∧
    bitAt (appendBits [0, 0] 60 (2 ^ 63) 8).1 123 = true ∧
    bitAt [0, 0] 123 = false ∧
    ¬ (60 ≤ 123 ∧ 123 < 68) := by decide

/-- Amended C9: for a value `v < 2 ^ n` (its high bits clear), `1 ≤ n ≤ 64`,
a cursor with `g + n` inside the buffer, and the window `[g, g + n)` clear,
`appendBits` advances the cursor by `n`, a `readBits` at `g` returns exactly
`v` (top `64 - n` bits zero) advancing its cursor by `n`, and every buffer
bit outside `[g, g + n)` is unchanged — including writes spanning two bins. -/
theorem C9_amended {bins : List Nat} {g n v : Nat}
    (h1 : 1 ≤ n) (h64 : n ≤ 64) (hv : v < 2 ^ n)
    (hin : g + n ≤ 64 * bins.length)
    (hz : ∀ i, i < n → bitAt bins (g + i) = false) :
    (appendBits bins g v n).2 = g + n ∧
    (readBits (appendBits bins g v n).1 g n).1 = v ∧
    (readBits (appendBits bins g v n).1 g n).1 < 2 ^ n ∧
    (readBits (appendBits bins g v n).1 g n).2 = g + n ∧
    (∀ p, p < g → bitAt (appendBits bins g v n).1 p = bitAt bins p) ∧
    (∀ p, g + n ≤ p → bitAt (appendBits bins g v n).1 p = bitAt bins p) := by
  refine ⟨appendBits_snd _ _ _ _, ?_, readBits_lt _ _ h64,
    by rw [readBits_snd],
    fun p hp => appendBits_bitAt_lo _ _ _ _ hp,
    fun p hp => appendBits_bitAt_hi h64 hv hp⟩
  apply readBits_eq_val h64 hv
  intro i hi
  rw [appendBits_bitAt h1 h64 hv hin (g + i), hz i hi]
  have e : g + i - g = i := by omega
  simp only [Bool.false_or, e]
  rw [decide_eq_true (by omega : g ≤ g + i),
    decide_eq_true (by omega : g + i < g + n)]
  simp

theorem C9_amended_witness :
    (1 ≤ 8 ∧ 8 ≤ 64 ∧ 200 < 2 ^ 8 ∧ 60 + 8 ≤ 64 * 2 ∧
      ∀ i, i < 8 → bitAt [0, 0] (60 + i) = false) ∧
    (appendBits [0, 0] 60 200 8).2 = 60 + 8 ∧
    (readBits (appendBits [0, 0] 60 200 8).1 60 8).1 = 200 ∧
    (readBits (appendBits [0, 0] 60 200 8).1 60 8).1 < 2 ^ 8 ∧
    (readBits (appendBits [0, 0] 60 200 8).1 60 8).2 = 60 + 8 ∧
    bitAt (appendBits [0, 0] 60 200 8).1 3 = bitAt [0, 0] 3 ∧
    bitAt (appendBits [0, 0] 60 200 8).1 123 = bitAt [0, 0] 123 :=
  ⟨by decide,
    (C9_amended (by decide) (by decide) (by decide) (by decide) (by decide)).1,
    (C9_amended (by decide) (by decide) (by decide) (by decide) (by decide)).2.1,
    (C9_amended (by decide) (by decide) (by decide) (by decide) (by decide)).2.2.1,
    (C9_amended (by decide) (by decide) (by decide) (by decide) (by decide)).2.2.2.1,
    (C9_amended (by decide) (by decide) (by decide) (by decide)
      (by decide)).2.2.2.2.1 3 (by decide),
    (C9_amended (by decide) (by decide) (by decide) (by decide)
      (by decide)).2.2.2.2.2 123 (by decide)⟩

/-- Claim C10: no `Compressed_Append` call — returning `CR_OK` or `CR_END` —
changes a payload bit at or beyond the capacity `8 * size`: the
unconditional 1-bit value flag written by `appendFloat` before its own space
check is covered by the extra `+ 1` bit reserved by `appendInteger`'s space
checks, and every other write is guarded by its own check. -/
theorem C10_no_out_of_capacity_writes {c : CompressedChunk} {t v : Nat}
    (hpv : c.prevValue < U64) (hplt : c.prevLeading + c.prevTrailing ≤ 63)
    (hidx : c.idx ≤ 8 * c.size) (hv : v < U64) :
    (Compressed_Append c t v).2.size = c.size ∧
    ∀ p, 8 * c.size ≤ p →
      bitAt (Compressed_Append c t v).2.data p = bitAt c.data p :=
  Compressed_Append_hi hpv hplt hidx hv

theorem C10_no_out_of_capacity_writes_witness :
    (chunkEnd2.prevValue < U64 ∧
      chunkEnd2.prevLeading + chunkEnd2.prevTrailing ≤ 63 ∧
      chunkEnd2.idx ≤ 8 * chunkEnd2.size ∧ 1 < U64) ∧
    (Compressed_Append chunkEnd2 0 1).2.size = chunkEnd2.size ∧
    bitAt (Compressed_Append chunkEnd2 0 1).2.data 16 = bitAt chunkEnd2.data 16 :=
  ⟨by decide,
    (C10_no_out_of_capacity_writes (by decide) (by decide) (by decide)
      (by decide)).1,
    (C10_no_out_of_capacity_writes (by decide) (by decide) (by decide)
      (by decide)).2 16 (by decide)⟩

/-- Claim C5 is false in its first half: with a wide-open previous window
(`prevLeading = prevTrailing = 0`, stored block size 64) and a value whose
XOR block also needs 64 encoded bits (`5 + 6 + 53`), reusing the window
would produce exactly as many bits as a new window, yet the encoder takes
the new-window branch and overwrites `prevLeading` (0 becomes 11). -/
theorem C5_counterexample :
    (2 ^ 52 + 1) ^^^ chunkC5.prevValue ≠ 0 ∧
    clz64 ((2 ^ 52 + 1) ^^^ chunkC5.prevValue) = 11 ∧
    ctz64 ((2 ^ 52 + 1) ^^^ chunkC5.prevValue) = 0 ∧
    chunkC5.prevLeading ≤ 11 ∧ chunkC5.prevTrailing ≤ 0 ∧
    64 - chunkC5.prevLeading - chunkC5.prevTrailing ≤
      DOUBLE_LEADING + DOUBLE_BLOCK_SIZE + (64 - 11 - 0) ∧
    (appendFloat chunkC5 (2 ^ 52 + 1)).1 = CR_OK ∧
    (appendFloat chunkC5 (2 ^ 52 + 1)).2.prevLeading = 11 ∧
    chunkC5.prevLeading = 0 := by decide

/-- Amended C5: for a successful `appendFloat` with non-zero XOR, the reuse
branch is taken exactly when the previous window contains the new one and
reusing it needs strictly fewer bits than a new window
(`64 - prevLeading - prevTrailing < 5 + 6 + blockSize`); at equality a new
window is emitted. The pair `(prevLeading, prevTrailing)` is unchanged iff
the reuse branch was taken; the cursor advances by `2 + ` the stored block
size on reuse and by `2 + 5 + 6 + blockSize` on a new window. -/
theorem C5_amended {c : CompressedChunk} {v : Nat} {c2 : CompressedChunk}
    (hxz : v ^^^ c.prevValue ≠ 0)
    (hok : appendFloat c v = (CR_OK, c2)) :
    ((c.prevLeading ≤ (if clz64 (v ^^^ c.prevValue) > 31 then 31 else clz64 (v ^^^ c.prevValue)) ∧
        c.prevTrailing ≤ ctz64 (v ^^^ c.prevValue) ∧
        64 - c.prevLeading - c.prevTrailing <
          DOUBLE_LEADING + DOUBLE_BLOCK_SIZE + (64 - (if clz64 (v ^^^ c.prevValue) > 31 then 31 else clz64 (v ^^^ c.prevValue)) - ctz64 (v ^^^ c.prevValue))) ↔
      (c2.prevLeading = c.prevLeading ∧ c2.prevTrailing = c.prevTrailing)) ∧
    ((c2.prevLeading = c.prevLeading ∧ c2.prevTrailing = c.prevTrailing) →
      c2.idx = c.idx + 2 + (64 - c.prevLeading - c.prevTrailing)) ∧
    (¬ (c2.prevLeading = c.prevLeading ∧ c2.prevTrailing = c.prevTrailing) →
      c2.prevLeading = (if clz64 (v ^^^ c.prevValue) > 31 then 31 else clz64 (v ^^^ c.prevValue)) ∧ c2.prevTrailing = ctz64 (v ^^^ c.prevValue) ∧
      c2.idx = c.idx + 2 + DOUBLE_LEADING + DOUBLE_BLOCK_SIZE +
        (64 - (if clz64 (v ^^^ c.prevValue) > 31 then 31 else clz64 (v ^^^ c.prevValue)) - ctz64 (v ^^^ c.prevValue))) := by
  unfold appendFloat at hok
  dsimp only at hok
  rw [if_neg hxz] at hok
  split
  next hclamp =>
    rw [if_pos hclamp] at hok
    split at hok
    next hcond =>
      split at hok
      next hsp => simp at hok
      next hsp =>
        rw [Prod.mk.injEq] at hok
        obtain ⟨-, hc2⟩ := hok
        subst hc2
        dsimp only
        constructor
        · constructor
          · intro hcc
            exact ⟨rfl, rfl⟩
          · intro hpp
            exact hcond
        constructor
        · intro hpp
          simp only [appendBits_snd]
          try omega
        · intro hne
          exact absurd ⟨rfl, rfl⟩ hne
    next hcond =>
      split at hok
      next hsp => simp at hok
      next hsp =>
        rw [Prod.mk.injEq] at hok
        obtain ⟨-, hc2⟩ := hok
        subst hc2
        dsimp only
        constructor
        · constructor
          · intro hcc
            exact absurd hcc hcond
          · intro hpp
            rw [← hpp.1, ← hpp.2]
            refine ⟨le_refl _, le_refl _, ?_⟩
            simp only [DOUBLE_LEADING, DOUBLE_BLOCK_SIZE]
            try omega
        constructor
        · intro hpp
          refine absurd ?_ hcond
          rw [← hpp.1, ← hpp.2]
          refine ⟨le_refl _, le_refl _, ?_⟩
          simp only [DOUBLE_LEADING, DOUBLE_BLOCK_SIZE]
          try omega
        · intro hne
          refine ⟨rfl, rfl, ?_⟩
          simp only [appendBits_snd]
          try omega
  next hclamp =>
    rw [if_neg hclamp] at hok
    split at hok
    next hcond =>
      split at hok
      next hsp => simp at hok
      next hsp =>
        rw [Prod.mk.injEq] at hok
        obtain ⟨-, hc2⟩ := hok
        subst hc2
        dsimp only
        constructor
        · constructor
          · intro hcc
            exact ⟨rfl, rfl⟩
          · intro hpp
            exact hcond
        constructor
        · intro hpp
          simp only [appendBits_snd]
          try omega
        · intro hne
          exact absurd ⟨rfl, rfl⟩ hne
    next hcond =>
      split at hok
      next hsp => simp at hok
      next hsp =>
        rw [Prod.mk.injEq] at hok
        obtain ⟨-, hc2⟩ := hok
        subst hc2
        dsimp only
        constructor
        · constructor
          · intro hcc
            exact absurd hcc hcond
          · intro hpp
            rw [← hpp.1, ← hpp.2]
            refine ⟨le_refl _, le_refl _, ?_⟩
            simp only [DOUBLE_LEADING, DOUBLE_BLOCK_SIZE]
            try omega
        constructor
        · intro hpp
          refine absurd ?_ hcond
          rw [← hpp.1, ← hpp.2]
          refine ⟨le_refl _, le_refl _, ?_⟩
          simp only [DOUBLE_LEADING, DOUBLE_BLOCK_SIZE]
          try omega
        · intro hne
          refine ⟨rfl, rfl, ?_⟩
          simp only [appendBits_snd]
          try omega

theorem C5_amended_witness :
    (2 ^ 31) ^^^ chunkC5r.prevValue ≠ 0 ∧
    appendFloat chunkC5r (2 ^ 31) = (CR_OK, chunkC5rOut) ∧
    ((chunkC5r.prevLeading ≤ (if clz64 (2 ^ 31 ^^^ chunkC5r.prevValue) > 31 then 31 else clz64 (2 ^ 31 ^^^ chunkC5r.prevValue)) ∧
        chunkC5r.prevTrailing ≤ ctz64 (2 ^ 31 ^^^ chunkC5r.prevValue) ∧
        64 - chunkC5r.prevLeading - chunkC5r.prevTrailing <
          DOUBLE_LEADING + DOUBLE_BLOCK_SIZE + (64 - (if clz64 (2 ^ 31 ^^^ chunkC5r.prevValue) > 31 then 31 else clz64 (2 ^ 31 ^^^ chunkC5r.prevValue)) - ctz64 (2 ^ 31 ^^^ chunkC5r.prevValue))) ↔
      (chunkC5rOut.prevLeading = chunkC5r.prevLeading ∧ chunkC5rOut.prevTrailing = chunkC5r.prevTrailing)) ∧
    (chunkC5rOut.idx = chunkC5r.idx + 2 + (64 - chunkC5r.prevLeading - chunkC5r.prevTrailing)) :=
  ⟨by decide, by decide,
    (@C5_amended chunkC5r (2 ^ 31) chunkC5rOut (by decide) (by decide)).1,
    (@C5_amended chunkC5r (2 ^ 31) chunkC5rOut (by decide) (by decide)).2.1
      (by decide)⟩

/-- Claim C4: for every successful non-first integer append the encoder
selects the table bucket whose range is the smallest one containing the
signed delta-of-delta, emits the bucket marker bits (LSB first: the 1-bits
of the marker then the closing 0-bit; six 1-bits for the 64-bit escape) at
the old cursor, and advances the cursor by exactly the table bit count
(1, or 2+5, 3+8, 4+11, 5+15, 6+32, 6+64); the final conjunct shows the
bucket ranges are nested, so the guard chain picks the smallest. -/
theorem C4_marker_table {c : CompressedChunk} {t : Nat} {c1 : CompressedChunk}
    (hwf : ChunkWF c) (hok : appendInteger c t = (CR_OK, c1)) :
    (u64sub (u64sub t c.prevTimestamp) c.prevTimestampDelta = 0 → c1.idx = c.idx + 1 ∧ bitAt c1.data c.idx = false) ∧
    (u64sub (u64sub t c.prevTimestamp) c.prevTimestampDelta ≠ 0 → Bin_InRange (i64ofU64 (u64sub (u64sub t c.prevTimestamp) c.prevTimestampDelta)) 5 = true →
      c1.idx = c.idx + (2 + 5) ∧
      bitAt c1.data c.idx = true ∧
      bitAt c1.data (c.idx + 1) = false) ∧
    (u64sub (u64sub t c.prevTimestamp) c.prevTimestampDelta ≠ 0 → Bin_InRange (i64ofU64 (u64sub (u64sub t c.prevTimestamp) c.prevTimestampDelta)) 5 = false → Bin_InRange (i64ofU64 (u64sub (u64sub t c.prevTimestamp) c.prevTimestampDelta)) 8 = true →
      c1.idx = c.idx + (3 + 8) ∧
      bitAt c1.data c.idx = true ∧
      bitAt c1.data (c.idx + 1) = true ∧
      bitAt c1.data (c.idx + 2) = false) ∧
    (u64sub (u64sub t c.prevTimestamp) c.prevTimestampDelta ≠ 0 → Bin_InRange (i64ofU64 (u64sub (u64sub t c.prevTimestamp) c.prevTimestampDelta)) 8 = false → Bin_InRange (i64ofU64 (u64sub (u64sub t c.prevTimestamp) c.prevTimestampDelta)) 11 = true →
      c1.idx = c.idx + (4 + 11) ∧
      bitAt c1.data c.idx = true ∧
      bitAt c1.data (c.idx + 1) = true ∧
      bitAt c1.data (c.idx + 2) = true ∧
      bitAt c1.data (c.idx + 3) = false) ∧
    (u64sub (u64sub t c.prevTimestamp) c.prevTimestampDelta ≠ 0 → Bin_InRange (i64ofU64 (u64sub (u64sub t c.prevTimestamp) c.prevTimestampDelta)) 11 = false → Bin_InRange (i64ofU64 (u64sub (u64sub t c.prevTimestamp) c.prevTimestampDelta)) 15 = true →
      c1.idx = c.idx + (5 + 15) ∧
      bitAt c1.data c.idx = true ∧
      bitAt c1.data (c.idx + 1) = true ∧
      bitAt c1.data (c.idx + 2) = true ∧
      bitAt c1.data (c.idx + 3) = true ∧
      bitAt c1.data (c.idx + 4) = false) ∧
    (u64sub (u64sub t c.prevTimestamp) c.prevTimestampDelta ≠ 0 → Bin_InRange (i64ofU64 (u64sub (u64sub t c.prevTimestamp) c.prevTimestampDelta)) 15 = false → Bin_InRange (i64ofU64 (u64sub (u64sub t c.prevTimestamp) c.prevTimestampDelta)) 32 = true →
      c1.idx = c.idx + (6 + 32) ∧
      bitAt c1.data c.idx = true ∧
      bitAt c1.data (c.idx + 1) = true ∧
      bitAt c1.data (c.idx + 2) = true ∧
      bitAt c1.data (c.idx + 3) = true ∧
      bitAt c1.data (c.idx + 4) = true ∧
      bitAt c1.data (c.idx + 5) = false) ∧
    (u64sub (u64sub t c.prevTimestamp) c.prevTimestampDelta ≠ 0 → Bin_InRange (i64ofU64 (u64sub (u64sub t c.prevTimestamp) c.prevTimestampDelta)) 32 = false →
      c1.idx = c.idx + (6 + 64) ∧
      bitAt c1.data c.idx = true ∧
      bitAt c1.data (c.idx + 1) = true ∧
      bitAt c1.data (c.idx + 2) = true ∧
      bitAt c1.data (c.idx + 3) = true ∧
      bitAt c1.data (c.idx + 4) = true ∧
      bitAt c1.data (c.idx + 5) = true) ∧
    (∀ (x : Int) (w W : Nat), 1 ≤ w → w ≤ W → W ≤ 64 →
      Bin_InRange x w = true → Bin_InRange x W = true) := by
  obtain ⟨hpT, hpD, hpV, hplt, hidx, hsz, hbwf, hzb⟩ := hwf
  have hnest : ∀ (x : Int) (w W : Nat), 1 ≤ w → w ≤ W → W ≤ 64 →
      Bin_InRange x w = true → Bin_InRange x W = true := by
    intro x w W h1w hwW hW64 hin
    unfold Bin_InRange Bin_MinVal Bin_MaxVal at hin ⊢
    rw [Bool.and_eq_true, decide_eq_true_eq, decide_eq_true_eq] at hin ⊢
    rw [BIT_eq (by omega)] at hin
    rw [BIT_eq (by omega)]
    have hpow : ((2 ^ (w - 1) : Nat) : Int) ≤ ((2 ^ (W - 1) : Nat) : Int) := by
      exact_mod_cast Nat.pow_le_pow_right (by norm_num) (by omega)
    constructor
    · refine le_trans ?_ hin.1
      omega
    · refine le_trans hin.2 ?_
      omega
  refine ⟨?_, ?_, ?_, ?_, ?_, ?_, ?_, hnest⟩
  · intro h0
    unfold appendInteger at hok
    dsimp only at hok
    rw [if_pos h0] at hok
    split at hok
    next hsp => simp at hok
    next hsp =>
      have hs := space_of_not_false hsp
      rw [Prod.mk.injEq] at hok
      obtain ⟨-, hc1⟩ := hok
      subst hc1
      dsimp only
      refine ⟨by rw [appendBits_snd], ?_⟩
      rw [appendBits_bitAt (by norm_num) (by norm_num) (by norm_num) (by omega)
          c.idx,
        hzb.bit (le_refl _)]
      simp
  · intro h0 hkt
    unfold appendInteger at hok
    dsimp only at hok
    simp only [CMPR_L1, CMPR_L2, CMPR_L3, CMPR_L4, CMPR_L5] at hok
    rw [if_neg h0] at hok
    rw [if_pos hkt] at hok
    split at hok
    next hsp => simp at hok
    next hsp =>
      have hs := space_of_not_false hsp
      rw [Prod.mk.injEq] at hok
      obtain ⟨-, hc1⟩ := hok
      subst hc1
      dsimp only
      refine ⟨(by simp only [appendBits_snd]; try omega), ?_, ?_⟩
      · rw [appendBits_bitAt_lo _ _ _ _ (by rw [appendBits_snd]; omega),
          appendBits_bitAt (by norm_num) (by norm_num) (by norm_num) (by omega)
            c.idx,
          hzb.bit (by omega)]
        have e : c.idx - c.idx = 0 := by omega
        simp only [Bool.false_or, e]
        rw [decide_eq_true (by omega : c.idx ≤ c.idx),
          decide_eq_true (by omega : c.idx < c.idx + 2)]
        decide
      · rw [appendBits_bitAt_lo _ _ _ _ (by rw [appendBits_snd]; omega),
          appendBits_bitAt (by norm_num) (by norm_num) (by norm_num) (by omega)
            (c.idx + 1),
          hzb.bit (by omega)]
        have e : (c.idx + 1) - c.idx = 1 := by omega
        simp only [Bool.false_or, e]
        rw [decide_eq_true (by omega : c.idx ≤ (c.idx + 1)),
          decide_eq_true (by omega : (c.idx + 1) < c.idx + 2)]
        decide
  · intro h0 hf hkt
    unfold appendInteger at hok
    dsimp only at hok
    simp only [CMPR_L1, CMPR_L2, CMPR_L3, CMPR_L4, CMPR_L5] at hok
    rw [if_neg h0] at hok
    rw [if_neg (by simp [hf])] at hok
    rw [if_pos hkt] at hok
    split at hok
    next hsp => simp at hok
    next hsp =>
      have hs := space_of_not_false hsp
      rw [Prod.mk.injEq] at hok
      obtain ⟨-, hc1⟩ := hok
      subst hc1
      dsimp only
      refine ⟨(by simp only [appendBits_snd]; try omega), ?_, ?_, ?_⟩
      · rw [appendBits_bitAt_lo _ _ _ _ (by rw [appendBits_snd]; omega),
          appendBits_bitAt (by norm_num) (by norm_num) (by norm_num) (by omega)
            c.idx,
          hzb.bit (by omega)]
        have e : c.idx - c.idx = 0 := by omega
        simp only [Bool.false_or, e]
        rw [decide_eq_true (by omega : c.idx ≤ c.idx),
          decide_eq_true (by omega : c.idx < c.idx + 3)]
        decide
      · rw [appendBits_bitAt_lo _ _ _ _ (by rw [appendBits_snd]; omega),
          appendBits_bitAt (by norm_num) (by norm_num) (by norm_num) (by omega)
            (c.idx + 1),
          hzb.bit (by omega)]
        have e : (c.idx + 1) - c.idx = 1 := by omega
        simp only [Bool.false_or, e]
        rw [decide_eq_true (by omega : c.idx ≤ (c.idx + 1)),
          decide_eq_true (by omega : (c.idx + 1) < c.idx + 3)]
        decide
      · rw [appendBits_bitAt_lo _ _ _ _ (by rw [appendBits_snd]; omega),
          appendBits_bitAt (by norm_num) (by norm_num) (by norm_num) (by omega)
            (c.idx + 2),
          hzb.bit (by omega)]
        have e : (c.idx + 2) - c.idx = 2 := by omega
        simp only [Bool.false_or, e]
        rw [decide_eq_true (by omega : c.idx ≤ (c.idx + 2)),
          decide_eq_true (by omega : (c.idx + 2) < c.idx + 3)]
        decide
  · intro h0 hf hkt
    have hn5 : Bin_InRange (i64ofU64 (u64sub (u64sub t c.prevTimestamp) c.prevTimestampDelta)) 5 = false := by
      rcases hb : Bin_InRange (i64ofU64 (u64sub (u64sub t c.prevTimestamp) c.prevTimestampDelta)) 5 with _ | _
      · rfl
      · have hup := hnest (i64ofU64 (u64sub (u64sub t c.prevTimestamp) c.prevTimestampDelta)) 5 8 (by norm_num) (by norm_num)
          (by norm_num) hb
        rw [hup] at hf
        simp at hf
    unfold appendInteger at hok
    dsimp only at hok
    simp only [CMPR_L1, CMPR_L2, CMPR_L3, CMPR_L4, CMPR_L5] at hok
    rw [if_neg h0] at hok
    rw [if_neg (by simp [hn5])] at hok
    rw [if_neg (by simp [hf])] at hok
    rw [if_pos hkt] at hok
    split at hok
    next hsp => simp at hok
    next hsp =>
      have hs := space_of_not_false hsp
      rw [Prod.mk.injEq] at hok
      obtain ⟨-, hc1⟩ := hok
      subst hc1
      dsimp only
      refine ⟨(by simp only [appendBits_snd]; try omega), ?_, ?_, ?_, ?_⟩
      · rw [appendBits_bitAt_lo _ _ _ _ (by rw [appendBits_snd]; omega),
          appendBits_bitAt (by norm_num) (by norm_num) (by norm_num) (by omega)
            c.idx,
          hzb.bit (by omega)]
        have e : c.idx - c.idx = 0 := by omega
        simp only [Bool.false_or, e]
        rw [decide_eq_true (by omega : c.idx ≤ c.idx),
          decide_eq_true (by omega : c.idx < c.idx + 4)]
        decide
      · rw [appendBits_bitAt_lo _ _ _ _ (by rw [appendBits_snd]; omega),
          appendBits_bitAt (by norm_num) (by norm_num) (by norm_num) (by omega)
            (c.idx + 1),
          hzb.bit (by omega)]
        have e : (c.idx + 1) - c.idx = 1 := by omega
        simp only [Bool.false_or, e]
        rw [decide_eq_true (by omega : c.idx ≤ (c.idx + 1)),
          decide_eq_true (by omega : (c.idx + 1) < c.idx + 4)]
        decide
      · rw [appendBits_bitAt_lo _ _ _ _ (by rw [appendBits_snd]; omega),
          appendBits_bitAt (by norm_num) (by norm_num) (by norm_num) (by omega)
            (c.idx + 2),
          hzb.bit (by omega)]
        have e : (c.idx + 2) - c.idx = 2 := by omega
        simp only [Bool.false_or, e]
        rw [decide_eq_true (by omega : c.idx ≤ (c.idx + 2)),
          decide_eq_true (by omega : (c.idx + 2) < c.idx + 4)]
        decide
      · rw [appendBits_bitAt_lo _ _ _ _ (by rw [appendBits_snd]; omega),
          appendBits_bitAt (by norm_num) (by norm_num) (by norm_num) (by omega)
            (c.idx + 3),
          hzb.bit (by omega)]
        have e : (c.idx + 3) - c.idx = 3 := by omega
        simp only [Bool.false_or, e]
        rw [decide_eq_true (by omega : c.idx ≤ (c.idx + 3)),
          decide_eq_true (by omega : (c.idx + 3) < c.idx + 4)]
        decide
  · intro h0 hf hkt
    have hn5 : Bin_InRange (i64ofU64 (u64sub (u64sub t c.prevTimestamp) c.prevTimestampDelta)) 5 = false := by
      rcases hb : Bin_InRange (i64ofU64 (u64sub (u64sub t c.prevTimestamp) c.prevTimestampDelta)) 5 with _ | _
      · rfl
      · have hup := hnest (i64ofU64 (u64sub (u64sub t c.prevTimestamp) c.prevTimestampDelta)) 5 11 (by norm_num) (by norm_num)
          (by norm_num) hb
        rw [hup] at hf
        simp at hf
    have hn8 : Bin_InRange (i64ofU64 (u64sub (u64sub t c.prevTimestamp) c.prevTimestampDelta)) 8 = false := by
      rcases hb : Bin_InRange (i64ofU64 (u64sub (u64sub t c.prevTimestamp) c.prevTimestampDelta)) 8 with _ | _
      · rfl
      · have hup := hnest (i64ofU64 (u64sub (u64sub t c.prevTimestamp) c.prevTimestampDelta)) 8 11 (by norm_num) (by norm_num)
          (by norm_num) hb
        rw [hup] at hf
        simp at hf
    unfold appendInteger at hok
    dsimp only at hok
    simp only [CMPR_L1, CMPR_L2, CMPR_L3, CMPR_L4, CMPR_L5] at hok
    rw [if_neg h0] at hok
    rw [if_neg (by simp [hn5])] at hok
    rw [if_neg (by simp [hn8])] at hok
    rw [if_neg (by simp [hf])] at hok
    rw [if_pos hkt] at hok
    split at hok
    next hsp => simp at hok
    next hsp =>
      have hs := space_of_not_false hsp
      rw [Prod.mk.injEq] at hok
      obtain ⟨-, hc1⟩ := hok
      subst hc1
      dsimp only
      refine ⟨(by simp only [appendBits_snd]; try omega), ?_, ?_, ?_, ?_, ?_⟩
      · rw [appendBits_bitAt_lo _ _ _ _ (by rw [appendBits_snd]; omega),
          appendBits_bitAt (by norm_num) (by norm_num) (by norm_num) (by omega)
            c.idx,
          hzb.bit (by omega)]
        have e : c.idx - c.idx = 0 := by omega
        simp only [Bool.false_or, e]
        rw [decide_eq_true (by omega : c.idx ≤ c.idx),
          decide_eq_true (by omega : c.idx < c.idx + 5)]
        decide
      · rw [appendBits_bitAt_lo _ _ _ _ (by rw [appendBits_snd]; omega),
          appendBits_bitAt (by norm_num) (by norm_num) (by norm_num) (by omega)
            (c.idx + 1),
          hzb.bit (by omega)]
        have e : (c.idx + 1) - c.idx = 1 := by omega
        simp only [Bool.false_or, e]
        rw [decide_eq_true (by omega : c.idx ≤ (c.idx + 1)),
          decide_eq_true (by omega : (c.idx + 1) < c.idx + 5)]
        decide
      · rw [appendBits_bitAt_lo _ _ _ _ (by rw [appendBits_snd]; omega),
          appendBits_bitAt (by norm_num) (by norm_num) (by norm_num) (by omega)
            (c.idx + 2),
          hzb.bit (by omega)]
        have e : (c.idx + 2) - c.idx = 2 := by omega
        simp only [Bool.false_or, e]
        rw [decide_eq_true (by omega : c.idx ≤ (c.idx + 2)),
          decide_eq_true (by omega : (c.idx + 2) < c.idx + 5)]
        decide
      · rw [appendBits_bitAt_lo _ _ _ _ (by rw [appendBits_snd]; omega),
          appendBits_bitAt (by norm_num) (by norm_num) (by norm_num) (by omega)
            (c.idx + 3),
          hzb.bit (by omega)]
        have e : (c.idx + 3) - c.idx = 3 := by omega
        simp only [Bool.false_or, e]
        rw [decide_eq_true (by omega : c.idx ≤ (c.idx + 3)),
          decide_eq_true (by omega : (c.idx + 3) < c.idx + 5)]
        decide
      · rw [appendBits_bitAt_lo _ _ _ _ (by rw [appendBits_snd]; omega),
          appendBits_bitAt (by norm_num) (by norm_num) (by norm_num) (by omega)
            (c.idx + 4),
          hzb.bit (by omega)]
        have e : (c.idx + 4) - c.idx = 4 := by omega
        simp only [Bool.false_or, e]
        rw [decide_eq_true (by omega : c.idx ≤ (c.idx + 4)),
          decide_eq_true (by omega : (c.idx + 4) < c.idx + 5)]
        decide
  · intro h0 hf hkt
    have hn5 : Bin_InRange (i64ofU64 (u64sub (u64sub t c.prevTimestamp) c.prevTimestampDelta)) 5 = false := by
      rcases hb : Bin_InRange (i64ofU64 (u64sub (u64sub t c.prevTimestamp) c.prevTimestampDelta)) 5 with _ | _
      · rfl
      · have hup := hnest (i64ofU64 (u64sub (u64sub t c.prevTimestamp) c.prevTimestampDelta)) 5 15 (by norm_num) (by norm_num)
          (by norm_num) hb
        rw [hup] at hf
        simp at hf
    have hn8 : Bin_InRange (i64ofU64 (u64sub (u64sub t c.prevTimestamp) c.prevTimestampDelta)) 8 = false := by
      rcases hb : Bin_InRange (i64ofU64 (u64sub (u64sub t c.prevTimestamp) c.prevTimestampDelta)) 8 with _ | _
      · rfl
      · have hup := hnest (i64ofU64 (u64sub (u64sub t c.prevTimestamp) c.prevTimestampDelta)) 8 15 (by norm_num) (by norm_num)
          (by norm_num) hb
        rw [hup] at hf
        simp at hf
    have hn11 : Bin_InRange (i64ofU64 (u64sub (u64sub t c.prevTimestamp) c.prevTimestampDelta)) 11 = false := by
      rcases hb : Bin_InRange (i64ofU64 (u64sub (u64sub t c.prevTimestamp) c.prevTimestampDelta)) 11 with _ | _
      · rfl
      · have hup := hnest (i64ofU64 (u64sub (u64sub t c.prevTimestamp) c.prevTimestampDelta)) 11 15 (by norm_num) (by norm_num)
          (by norm_num) hb
        rw [hup] at hf
        simp at hf
    unfold appendInteger at hok
    dsimp only at hok
    simp only [CMPR_L1, CMPR_L2, CMPR_L3, CMPR_L4, CMPR_L5] at hok
    rw [if_neg h0] at hok
    rw [if_neg (by simp [hn5])] at hok
    rw [if_neg (by simp [hn8])] at hok
    rw [if_neg (by simp [hn11])] at hok
    rw [if_neg (by simp [hf])] at hok
    rw [if_pos hkt] at hok
    split at hok
    next hsp => simp at hok
    next hsp =>
      have hs := space_of_not_false hsp
      rw [Prod.mk.injEq] at hok
      obtain ⟨-, hc1⟩ := hok
      subst hc1
      dsimp only
      refine ⟨(by simp only [appendBits_snd]; try omega), ?_, ?_, ?_, ?_, ?_, ?_⟩
      · rw [appendBits_bitAt_lo _ _ _ _ (by rw [appendBits_snd]; omega),
          appendBits_bitAt (by norm_num) (by norm_num) (by norm_num) (by omega)
            c.idx,
          hzb.bit (by omega)]
        have e : c.idx - c.idx = 0 := by omega
        simp only [Bool.false_or, e]
        rw [decide_eq_true (by omega : c.idx ≤ c.idx),
          decide_eq_true (by omega : c.idx < c.idx + 6)]
        decide
      · rw [appendBits_bitAt_lo _ _ _ _ (by rw [appendBits_snd]; omega),
          appendBits_bitAt (by norm_num) (by norm_num) (by norm_num) (by omega)
            (c.idx + 1),
          hzb.bit (by omega)]
        have e : (c.idx + 1) - c.idx = 1 := by omega
        simp only [Bool.false_or, e]
        rw [decide_eq_true (by omega : c.idx ≤ (c.idx + 1)),
          decide_eq_true (by omega : (c.idx + 1) < c.idx + 6)]
        decide
      · rw [appendBits_bitAt_lo _ _ _ _ (by rw [appendBits_snd]; omega),
          appendBits_bitAt (by norm_num) (by norm_num) (by norm_num) (by omega)
            (c.idx + 2),
          hzb.bit (by omega)]
        have e : (c.idx + 2) - c.idx = 2 := by omega
        simp only [Bool.false_or, e]
        rw [decide_eq_true (by omega : c.idx ≤ (c.idx + 2)),
          decide_eq_true (by omega : (c.idx + 2) < c.idx + 6)]
        decide
      · rw [appendBits_bitAt_lo _ _ _ _ (by rw [appendBits_snd]; omega),
          appendBits_bitAt (by norm_num) (by norm_num) (by norm_num) (by omega)
            (c.idx + 3),
          hzb.bit (by omega)]
        have e : (c.idx + 3) - c.idx = 3 := by omega
        simp only [Bool.false_or, e]
        rw [decide_eq_true (by omega : c.idx ≤ (c.idx + 3)),
          decide_eq_true (by omega : (c.idx + 3) < c.idx + 6)]
        decide
      · rw [appendBits_bitAt_lo _ _ _ _ (by rw [appendBits_snd]; omega),
          appendBits_bitAt (by norm_num) (by norm_num) (by norm_num) (by omega)
            (c.idx + 4),
          hzb.bit (by omega)]
        have e : (c.idx + 4) - c.idx = 4 := by omega
        simp only [Bool.false_or, e]
        rw [decide_eq_true (by omega : c.idx ≤ (c.idx + 4)),
          decide_eq_true (by omega : (c.idx + 4) < c.idx + 6)]
        decide
      · rw [appendBits_bitAt_lo _ _ _ _ (by rw [appendBits_snd]; omega),
          appendBits_bitAt (by norm_num) (by norm_num) (by norm_num) (by omega)
            (c.idx + 5),
          hzb.bit (by omega)]
        have e : (c.idx + 5) - c.idx = 5 := by omega
        simp only [Bool.false_or, e]
        rw [decide_eq_true (by omega : c.idx ≤ (c.idx + 5)),
          decide_eq_true (by omega : (c.idx + 5) < c.idx + 6)]
        decide
  · intro h0 hf
    have hn5 : Bin_InRange (i64ofU64 (u64sub (u64sub t c.prevTimestamp) c.prevTimestampDelta)) 5 = false := by
      rcases hb : Bin_InRange (i64ofU64 (u64sub (u64sub t c.prevTimestamp) c.prevTimestampDelta)) 5 with _ | _
      · rfl
      · have hup := hnest (i64ofU64 (u64sub (u64sub t c.prevTimestamp) c.prevTimestampDelta)) 5 32 (by norm_num) (by norm_num)
          (by norm_num) hb
        rw [hup] at hf
        simp at hf
    have hn8 : Bin_InRange (i64ofU64 (u64sub (u64sub t c.prevTimestamp) c.prevTimestampDelta)) 8 = false := by
      rcases hb : Bin_InRange (i64ofU64 (u64sub (u64sub t c.prevTimestamp) c.prevTimestampDelta)) 8 with _ | _
      · rfl
      · have hup := hnest (i64ofU64 (u64sub (u64sub t c.prevTimestamp) c.prevTimestampDelta)) 8 32 (by norm_num) (by norm_num)
          (by norm_num) hb
        rw [hup] at hf
        simp at hf
    have hn11 : Bin_InRange (i64ofU64 (u64sub (u64sub t c.prevTimestamp) c.prevTimestampDelta)) 11 = false := by
      rcases hb : Bin_InRange (i64ofU64 (u64sub (u64sub t c.prevTimestamp) c.prevTimestampDelta)) 11 with _ | _
      · rfl
      · have hup := hnest (i64ofU64 (u64sub (u64sub t c.prevTimestamp) c.prevTimestampDelta)) 11 32 (by norm_num) (by norm_num)
          (by norm_num) hb
        rw [hup] at hf
        simp at hf
    have hn15 : Bin_InRange (i64ofU64 (u64sub (u64sub t c.prevTimestamp) c.prevTimestampDelta)) 15 = false := by
      rcases hb : Bin_InRange (i64ofU64 (u64sub (u64sub t c.prevTimestamp) c.prevTimestampDelta)) 15 with _ | _
      · rfl
      · have hup := hnest (i64ofU64 (u64sub (u64sub t c.prevTimestamp) c.prevTimestampDelta)) 15 32 (by norm_num) (by norm_num)
          (by norm_num) hb
        rw [hup] at hf
        simp at hf
    unfold appendInteger at hok
    dsimp only at hok
    simp only [CMPR_L1, CMPR_L2, CMPR_L3, CMPR_L4, CMPR_L5] at hok
    rw [if_neg h0] at hok
    rw [if_neg (by simp [hn5])] at hok
    rw [if_neg (by simp [hn8])] at hok
    rw [if_neg (by simp [hn11])] at hok
    rw [if_neg (by simp [hn15])] at hok
    rw [if_neg (by simp [hf])] at hok
    split at hok
    next hsp => simp at hok
    next hsp =>
      have hs := space_of_not_false hsp
      rw [Prod.mk.injEq] at hok
      obtain ⟨-, hc1⟩ := hok
      subst hc1
      dsimp only
      refine ⟨(by simp only [appendBits_snd]; try omega), ?_, ?_, ?_, ?_, ?_, ?_⟩
      · rw [appendBits_bitAt_lo _ _ _ _ (by rw [appendBits_snd]; omega),
          appendBits_bitAt (by norm_num) (by norm_num) (by norm_num) (by omega)
            c.idx,
          hzb.bit (by omega)]
        have e : c.idx - c.idx = 0 := by omega
        simp only [Bool.false_or, e]
        rw [decide_eq_true (by omega : c.idx ≤ c.idx),
          decide_eq_true (by omega : c.idx < c.idx + 6)]
        decide
      · rw [appendBits_bitAt_lo _ _ _ _ (by rw [appendBits_snd]; omega),
          appendBits_bitAt (by norm_num) (by norm_num) (by norm_num) (by omega)
            (c.idx + 1),
          hzb.bit (by omega)]
        have e : (c.idx + 1) - c.idx = 1 := by omega
        simp only [Bool.false_or, e]
        rw [decide_eq_true (by omega : c.idx ≤ (c.idx + 1)),
          decide_eq_true (by omega : (c.idx + 1) < c.idx + 6)]
        decide
      · rw [appendBits_bitAt_lo _ _ _ _ (by rw [appendBits_snd]; omega),
          appendBits_bitAt (by norm_num) (by norm_num) (by norm_num) (by omega)
            (c.idx + 2),
          hzb.bit (by omega)]
        have e : (c.idx + 2) - c.idx = 2 := by omega
        simp only [Bool.false_or, e]
        rw [decide_eq_true (by omega : c.idx ≤ (c.idx + 2)),
          decide_eq_true (by omega : (c.idx + 2) < c.idx + 6)]
        decide
      · rw [appendBits_bitAt_lo _ _ _ _ (by rw [appendBits_snd]; omega),
          appendBits_bitAt (by norm_num) (by norm_num) (by norm_num) (by omega)
            (c.idx + 3),
          hzb.bit (by omega)]
        have e : (c.idx + 3) - c.idx = 3 := by omega
        simp only [Bool.false_or, e]
        rw [decide_eq_true (by omega : c.idx ≤ (c.idx + 3)),
          decide_eq_true (by omega : (c.idx + 3) < c.idx + 6)]
        decide
      · rw [appendBits_bitAt_lo _ _ _ _ (by rw [appendBits_snd]; omega),
          appendBits_bitAt (by norm_num) (by norm_num) (by norm_num) (by omega)
            (c.idx + 4),
          hzb.bit (by omega)]
        have e : (c.idx + 4) - c.idx = 4 := by omega
        simp only [Bool.false_or, e]
        rw [decide_eq_true (by omega : c.idx ≤ (c.idx + 4)),
          decide_eq_true (by omega : (c.idx + 4) < c.idx + 6)]
        decide
      · rw [appendBits_bitAt_lo _ _ _ _ (by rw [appendBits_snd]; omega),
          appendBits_bitAt (by norm_num) (by norm_num) (by norm_num) (by omega)
            (c.idx + 5),
          hzb.bit (by omega)]
        have e : (c.idx + 5) - c.idx = 5 := by omega
        simp only [Bool.false_or, e]
        rw [decide_eq_true (by omega : c.idx ≤ (c.idx + 5)),
          decide_eq_true (by omega : (c.idx + 5) < c.idx + 6)]
        decide

/-- The chunk for the marker-table witness. -/
def chunkC4w : CompressedChunk :=
  { size := 16, numSamples := 1, baseTimestamp := 0, baseValue := 0, idx := 0,
    prevTimestamp := 0, prevTimestampDelta := 0, prevValue := 0,
    prevLeading := 0, prevTrailing := 0, data := [0, 0] }

/-- The state after `appendInteger chunkC4w 10`: a 2-bit marker and a 5-bit
payload for delta-of-delta `10`. -/
def chunkC4wOut : CompressedChunk :=
  { size := 16, numSamples := 1, baseTimestamp := 0, baseValue := 0, idx := 7,
    prevTimestamp := 10, prevTimestampDelta := 10, prevValue := 0,
    prevLeading := 0, prevTrailing := 0, data := [41, 0] }

theorem C4_marker_table_witness :
    ChunkWF chunkC4w ∧
    appendInteger chunkC4w 10 = (CR_OK, chunkC4wOut) ∧
    u64sub (u64sub 10 chunkC4w.prevTimestamp) chunkC4w.prevTimestampDelta ≠ 0 ∧
    Bin_InRange (i64ofU64 (u64sub (u64sub 10 chunkC4w.prevTimestamp)
      chunkC4w.prevTimestampDelta)) 5 = true ∧
    (chunkC4wOut.idx = chunkC4w.idx + (2 + 5) ∧
      bitAt chunkC4wOut.data chunkC4w.idx = true ∧
      bitAt chunkC4wOut.data (chunkC4w.idx + 1) = false) :=
  ⟨by decide, by decide, by decide, by decide,
    (@C4_marker_table chunkC4w 10 chunkC4wOut (by decide) (by decide)).2.1
      (by decide) (by decide)⟩

end Gorilla
